import Mathlib

/-!
# Sphere path tracer: embedding of `main.cpp`

The numeric code of `main.cpp` is embedded over an arbitrary linearly ordered
field `F` (exact arithmetic: `ℚ` for evaluation, `ℝ` for the general
statements).  Library routines that are not part of the program text are
either parameters (`sqrtf`, `RAND_MAX`) or small definitions following the
documented behaviour of the vector library (`glm_vec3_*`).
-/

namespace Raytrace

/-! ## Data model -/

/-- A `vec3` of the vector library: three scalars. -/
structure vec3 (F : Type) where
  x : F
  y : F
  z : F
deriving DecidableEq, Repr

/-- The `sphere_t` of the program: centre `x` and radius `r`. -/
structure sphere_t (F : Type) where
  x : vec3 F
  r : F
deriving DecidableEq, Repr

/-- The `ray_t` of the program: origin `x` and direction `dir`. -/
structure ray_t (F : Type) where
  x : vec3 F
  dir : vec3 F
deriving DecidableEq, Repr

/-- The `color_t` of the program: three channel intensities. -/
structure color_t (F : Type) where
  r : F
  g : F
  b : F
deriving DecidableEq, Repr

section Defs

variable {F : Type} [LinearOrderedField F]

/-! ## Vector library primitives -/

/-- Component-wise difference `a - b`. -/
def glm_vec3_sub (a b : vec3 F) : vec3 F := ⟨a.x - b.x, a.y - b.y, a.z - b.z⟩

/-- Component-wise sum `a + b`. -/
def glm_vec3_add (a b : vec3 F) : vec3 F := ⟨a.x + b.x, a.y + b.y, a.z + b.z⟩

/-- Dot product. -/
def glm_vec3_dot (a b : vec3 F) : F := a.x * b.x + a.y * b.y + a.z * b.z

/-- Squared Euclidean length. -/
def glm_vec3_norm2 (v : vec3 F) : F := glm_vec3_dot v v

/-- Multiplication of every component by the scalar `s`. -/
def glm_vec3_scale (v : vec3 F) (s : F) : vec3 F := ⟨v.x * s, v.y * s, v.z * s⟩

/-- The call `glm_vec3_muladds a s dest` adds `a * s` to `dest`. -/
def glm_vec3_muladds (a : vec3 F) (s : F) (dest : vec3 F) : vec3 F :=
  ⟨dest.x + a.x * s, dest.y + a.y * s, dest.z + a.z * s⟩

/-- Component-wise negation. -/
def glm_vec3_negate (v : vec3 F) : vec3 F := ⟨-v.x, -v.y, -v.z⟩

/-- Cross product. -/
def glm_vec3_cross (a b : vec3 F) : vec3 F :=
  ⟨a.y * b.z - a.z * b.y, a.z * b.x - a.x * b.z, a.x * b.y - a.y * b.x⟩

/-- Euclidean length, through the square root routine `sqrtf`. -/
def glm_vec3_norm (sqrtf : F → F) (v : vec3 F) : F := sqrtf (glm_vec3_norm2 v)

/-- Normalisation of the vector library: a vector of length zero is mapped to
the zero vector, any other vector is scaled by the inverse of its length. -/
def glm_vec3_normalize (sqrtf : F → F) (v : vec3 F) : vec3 F :=
  let norm := glm_vec3_norm sqrtf v
  if norm = 0 then ⟨0, 0, 0⟩ else glm_vec3_scale v (1 / norm)

/-- The largest finite single precision number, `FLT_MAX` of `<float.h>`:
`(2^24 - 1) * 2^104`. -/
def FLT_MAX : F := (2 ^ 24 - 1) * 2 ^ 104

/-! ## Intersection engine -/

/-- The function `intersect_sphere` of `main.cpp`. -/
def intersect_sphere (sqrtf : F → F) (s : sphere_t F) (r : ray_t F) : F :=
  let sx_rx := glm_vec3_sub r.x s.x
  let a := glm_vec3_norm2 r.dir
  let b := 2 * glm_vec3_dot sx_rx r.dir
  let c := glm_vec3_norm2 sx_rx - s.r * s.r
  let det := b * b - 4 * a * c
  if det ≤ 0 then 0 else (-b - sqrtf det) / 2 * a

/-- The body of the `for` loop of `hit_spheres`, run over the spheres that
remain, `i` being the index of the first of them.  The state is the pair
`(out, depth)`: `out` holds the values last stored through `out_i` and `out_t`
(`none` while nothing has been stored). -/
def hit_spheres_loop (sqrtf : F → F) (r : ray_t F) :
    List (sphere_t F) → ℕ → Option (ℕ × F) × F → Option (ℕ × F) × F
  | [], _, st => st
  | s :: rest, i, (out, depth) =>
    let t := intersect_sphere sqrtf s r
    if t ≤ 0 then hit_spheres_loop sqrtf r rest (i + 1) (out, depth)
    else if t > depth then hit_spheres_loop sqrtf r rest (i + 1) (out, depth)
    else hit_spheres_loop sqrtf r rest (i + 1) (some (i, t), t)

/-- The function `hit_spheres` of `main.cpp`: `some (i, t)` when it returns
true with `*out_i = i` and `*out_t = t`, `none` when it returns false. -/
def hit_spheres (sqrtf : F → F) (sphere_list : List (sphere_t F)) (r : ray_t F) :
    Option (ℕ × F) :=
  let st := hit_spheres_loop sqrtf r sphere_list 0 (none, FLT_MAX)
  if st.2 ≠ FLT_MAX then st.1 else none

/-! ## Generator -/

/-- The function `fast_rand` of `main.cpp` on the 32-bit state `g_seed`:
the pair of the returned value and the new state. -/
def fast_rand (g_seed : ℕ) : ℕ × ℕ :=
  let g := (214013 * g_seed + 2531011) % 2 ^ 32
  ((g >>> 16) &&& 0x7FFF, g)

/-- The function `rand_float` of `main.cpp`; `RAND_MAX` is the constant of
`<stdlib.h>`. -/
def rand_float (RAND_MAX : ℕ) (g_seed : ℕ) : F × ℕ :=
  let p := fast_rand g_seed
  ((p.1 : F) / ((RAND_MAX : F) + 1), p.2)

/-! ## Shading functions -/

/-- The three draws at the label `resample` of `random_scatter` and
`lambertian`: the candidate point and the generator state after them. -/
def sample_cube (RAND_MAX : ℕ) (g_seed : ℕ) : vec3 F × ℕ :=
  let p0 : F × ℕ := rand_float RAND_MAX g_seed
  let p1 : F × ℕ := rand_float RAND_MAX p0.2
  let p2 : F × ℕ := rand_float RAND_MAX p1.2
  (⟨p0.1 * 2 - 1, p1.1 * 2 - 1, p2.1 * 2 - 1⟩, p2.2)

/-- The function `random_scatter` of `main.cpp`; `fuel` bounds the number of
passes through the label `resample`, `none` is returned when it runs out. -/
def random_scatter (sqrtf : F → F) (RAND_MAX : ℕ) :
    ℕ → ℕ → vec3 F → Option (vec3 F × ℕ)
  | 0, _, _ => none
  | fuel + 1, g_seed, normal =>
    let p : vec3 F × ℕ := sample_cube RAND_MAX g_seed
    if glm_vec3_norm2 p.1 > 1 then random_scatter sqrtf RAND_MAX fuel p.2 normal
    else
      let out := glm_vec3_normalize sqrtf p.1
      if glm_vec3_dot out normal < 0 then some (glm_vec3_negate out, p.2)
      else some (out, p.2)

/-- The function `lambertian` of `main.cpp`; `fuel` bounds the number of
passes through the label `resample`, `none` is returned when it runs out. -/
def lambertian (sqrtf : F → F) (RAND_MAX : ℕ) :
    ℕ → ℕ → vec3 F → Option (vec3 F × ℕ)
  | 0, _, _ => none
  | fuel + 1, g_seed, normal =>
    let p : vec3 F × ℕ := sample_cube RAND_MAX g_seed
    if glm_vec3_norm2 p.1 > 1 then lambertian sqrtf RAND_MAX fuel p.2 normal
    else
      let out := glm_vec3_normalize sqrtf p.1
      let out := glm_vec3_add out normal
      some (glm_vec3_normalize sqrtf out, p.2)

/-- The function `reflect` of `main.cpp`. -/
def reflect (v normal : vec3 F) : vec3 F :=
  let d := glm_vec3_dot v normal
  let z := glm_vec3_scale normal (d * 2)
  glm_vec3_sub v z

/-! ## Path tracer -/

/-- The hit point computed by `trace` for the ray `r` and the distance
`hit_t`. -/
def trace_hit (r : ray_t F) (hit_t : F) : vec3 F :=
  glm_vec3_muladds r.dir hit_t r.x

/-- The surface normal `s_normal` computed by `trace` at the hit point of `r`
on the sphere `s`. -/
def trace_normal (s : sphere_t F) (r : ray_t F) (hit_t : F) : vec3 F :=
  glm_vec3_scale (glm_vec3_sub (trace_hit r hit_t) s.x) (1 / s.r)

/-- The ray `incoming_r` that `trace` builds after `hit_spheres` has reported
the sphere `sphere_index` at distance `hit_t`, with the generator state after
it: the reflected ray for index 0, the `lambertian` ray for every other
index. -/
def trace_incoming (sqrtf : F → F) (RAND_MAX : ℕ) (fuel : ℕ)
    (sphere_list : List (sphere_t F)) (r : ray_t F) (g_seed : ℕ)
    (sphere_index : ℕ) (hit_t : F) : Option (ray_t F × ℕ) :=
  let s := sphere_list.getD sphere_index ⟨⟨0, 0, 0⟩, 0⟩
  let hit := trace_hit r hit_t
  let s_normal := trace_normal s r hit_t
  if sphere_index = 0 then
    some (⟨hit, reflect r.dir s_normal⟩, g_seed)
  else
    match lambertian sqrtf RAND_MAX fuel g_seed s_normal with
    | none => none
    | some (dir, g) => some (⟨hit, dir⟩, g)

/-- The sky colour of `trace` for a ray that hits nothing. -/
def trace_sky (r : ray_t F) : color_t F :=
  let light := 0.5 * (r.dir.y + 1)
  ⟨(1 - light) * 1 + light * 0.8, (1 - light) * 1 + light * 0, (1 - light) * 1 + light * 0⟩

/-- The function `trace` of `main.cpp`, by recursion on the bounce budget.
The result is the colour and the generator state after the call; `none`
when a `lambertian` call runs out of `fuel`. -/
def trace (sqrtf : F → F) (RAND_MAX : ℕ) (fuel : ℕ) (sphere_list : List (sphere_t F))
    (r : ray_t F) (bounces_left : ℤ) (g_seed : ℕ) : Option (color_t F × ℕ) :=
  if bounces_left ≤ 0 then some (⟨0, 0, 0⟩, g_seed)
  else
    match hit_spheres sqrtf sphere_list r with
    | some (sphere_index, hit_t) =>
      match trace_incoming sqrtf RAND_MAX fuel sphere_list r g_seed sphere_index hit_t with
      | none => none
      | some (incoming_r, g) =>
        if sphere_index = 0 then
          trace sqrtf RAND_MAX fuel sphere_list incoming_r (bounces_left - 1) g
        else
          match trace sqrtf RAND_MAX fuel sphere_list incoming_r (bounces_left - 1) g with
          | none => none
          | some (incoming_color, g) =>
            some (⟨incoming_color.r * 0.8, incoming_color.g * 0.8, incoming_color.b * 0.8⟩, g)
    | none => some (trace_sky r, g_seed)
termination_by bounces_left.toNat
decreasing_by all_goals omega

/-! ## Camera, buffers and frame driver -/

/-- A `mat4` of the vector library; the entry `m i j` is row `i`, column `j`
(the library stores it as `m[j][i]`). -/
abbrev mat4 (F : Type) := Matrix (Fin 4) (Fin 4) F

/-- A `mat3` of the vector library; the entry `m i j` is row `i`, column `j`. -/
abbrev mat3 (F : Type) := Matrix (Fin 3) (Fin 3) F

/-- The file-scope state of `main.cpp`: the fields of `intern` that the
rendering engine reads or writes, and the generator state `g_seed`.  The list
`sphere_list` holds the `sphere_count` live entries of the array. -/
structure intern_t (F : Type) where
  pixels : List ℕ
  pixels_f : List F
  width : ℤ
  height : ℤ
  sample_count : ℤ
  frame_num : ℤ
  sample_weight : F
  sphere_list : List (sphere_t F)
  s : sphere_t F
  camera_pos : vec3 F
  camera_dir : vec3 F
  camera_right_dir : vec3 F
  camera_f : F
  camera_near : F
  sun_dir : vec3 F
  view : mat4 F
  viewi : mat4 F
  view3i : mat3 F
  g_seed : ℕ

/-- The look-at matrix `glm_look eye dir up` of the vector library
(right-handed): rows `s`, `u`, `-f` with the translation column. -/
def glm_look (sqrtf : F → F) (eye dir up : vec3 F) : mat4 F :=
  let center := glm_vec3_add eye dir
  let f := glm_vec3_normalize sqrtf (glm_vec3_sub center eye)
  let s := glm_vec3_normalize sqrtf (glm_vec3_cross f up)
  let u := glm_vec3_cross s f
  !![s.x, s.y, s.z, -glm_vec3_dot s eye;
     u.x, u.y, u.z, -glm_vec3_dot u eye;
     -f.x, -f.y, -f.z, glm_vec3_dot f eye;
     0, 0, 0, 1]

/-- The matrix inverse `glm_mat4_inv` of the vector library: the adjugate
scaled by the inverse of the determinant. -/
def glm_mat4_inv (m : mat4 F) : mat4 F := (1 / m.det) • m.adjugate

/-- The upper left block `glm_mat4_pick3` of a `mat4`. -/
def glm_mat4_pick3 (m : mat4 F) : mat3 F :=
  Matrix.of fun i j => m (Fin.castLE (by decide) i) (Fin.castLE (by decide) j)

/-- The product `glm_mat3_mulv m v` of a matrix and a column vector. -/
def glm_mat3_mulv (m : mat3 F) (v : vec3 F) : vec3 F :=
  ⟨m 0 0 * v.x + m 0 1 * v.y + m 0 2 * v.z,
   m 1 0 * v.x + m 1 1 * v.y + m 1 2 * v.z,
   m 2 0 * v.x + m 2 1 * v.y + m 2 2 * v.z⟩

/-- The function `ray_from_pixel` of `main.cpp`. -/
def ray_from_pixel (sqrtf : F → F) (st : intern_t F) (x y : F) : ray_t F :=
  let hw := (st.width : F) * 0.5
  let hh := (st.height : F) * 0.5
  let dir : vec3 F := ⟨(x - hw) * st.camera_f, -(y - hh) * st.camera_f, -st.camera_near⟩
  let dir := glm_vec3_normalize sqrtf dir
  let dir := glm_mat3_mulv st.view3i dir
  ⟨st.camera_pos, dir⟩

/-- The function `trace_pixel` of `main.cpp` (its loop runs once, with
`sample_w = 1 / 1`): the colour and the generator state after the call. -/
def trace_pixel (sqrtf : F → F) (RAND_MAX : ℕ) (fuel : ℕ) (st : intern_t F) (x y : ℤ) :
    Option (color_t F × ℕ) :=
  let sample_w : F := 1 / 1
  let p0 : F × ℕ := rand_float RAND_MAX st.g_seed
  let dx := p0.1 - 0.5
  let p1 : F × ℕ := rand_float RAND_MAX p0.2
  let dy := p1.1 - 0.5
  let r := ray_from_pixel sqrtf st ((x : F) + dx) ((y : F) + dy)
  match trace sqrtf RAND_MAX fuel st.sphere_list r 4 p1.2 with
  | none => none
  | some (sample_c, g) =>
    some (⟨0 + sample_w * sample_c.r, 0 + sample_w * sample_c.g, 0 + sample_w * sample_c.b⟩, g)

/-- The function `reset_pixels` of `main.cpp`. -/
def reset_pixels (st : intern_t F) : intern_t F :=
  let st := (List.range (st.width * st.height * 3).toNat).foldl
    (fun st i => { st with pixels := st.pixels.set i 0, pixels_f := st.pixels_f.set i 0 }) st
  { st with frame_num := 0 }

/-- The function `setup_camera` of `main.cpp`. -/
def setup_camera (sqrtf : F → F) (st : intern_t F) : intern_t F :=
  let up : vec3 F := ⟨0, 1, 0⟩
  let view := glm_look sqrtf st.camera_pos st.camera_dir up
  let viewi := glm_mat4_inv view
  { st with view := view, viewi := viewi, view3i := glm_mat4_pick3 viewi }

/-- The function `setup_spheres` of `main.cpp`. -/
def setup_spheres (st : intern_t F) : intern_t F :=
  { st with sphere_list := [st.s, ⟨⟨0, -105, 10⟩, 100⟩, ⟨⟨8, -3, 10⟩, 2⟩] }

end Defs

section Driver

variable {F : Type} [LinearOrderedField F] [FloorRing F]

/-- The conversion `(Uint8) v` of a floating point value: the fractional part
is discarded (truncation toward zero) and the low eight bits are kept. -/
def Uint8_of_float (v : F) : ℕ :=
  ((if 0 ≤ v then ⌊v⌋ else ⌈v⌉) % 256).toNat

/-- The body of the inner loop of `update_pixels` for the pixel `(x, y)`;
`none` when `trace_pixel` runs out of `fuel`. -/
def update_pixel (sqrtf : F → F) (RAND_MAX : ℕ) (fuel : ℕ) (st : intern_t F) (x y : ℤ) :
    Option (intern_t F) :=
  let i := ((y * st.width + x) * 3).toNat
  match trace_pixel sqrtf RAND_MAX fuel st x y with
  | none => none
  | some (c, g) =>
    let w := st.sample_weight
    let pf := st.pixels_f
    let pf := pf.set (i + 0) (pf.getD (i + 0) 0 + w * c.r)
    let pf := pf.set (i + 1) (pf.getD (i + 1) 0 + w * c.g)
    let pf := pf.set (i + 2) (pf.getD (i + 2) 0 + w * c.b)
    let px := st.pixels
    let px := px.set (i + 0) (Uint8_of_float (pf.getD (i + 0) 0 * 255))
    let px := px.set (i + 1) (Uint8_of_float (pf.getD (i + 1) 0 * 255))
    let px := px.set (i + 2) (Uint8_of_float (pf.getD (i + 2) 0 * 255))
    some { st with pixels := px, pixels_f := pf, g_seed := g }

/-- The function `update_pixels` of `main.cpp`, the pixels taken in the order
of the two nested loops (`x` outside, `y` inside). -/
def update_pixels (sqrtf : F → F) (RAND_MAX : ℕ) (fuel : ℕ) (st : intern_t F) :
    Option (intern_t F) :=
  (List.range st.width.toNat).foldlM
    (fun st x => (List.range st.height.toNat).foldlM
      (fun st y => update_pixel sqrtf RAND_MAX fuel st (x : ℤ) (y : ℤ)) st) st

/-- The function `render` of `main.cpp`, without the presentation calls. -/
def render (sqrtf : F → F) (RAND_MAX : ℕ) (fuel : ℕ) (st : intern_t F) :
    Option (intern_t F) :=
  let st := setup_camera sqrtf st
  if st.frame_num < st.sample_count then
    match update_pixels sqrtf RAND_MAX fuel st with
    | none => none
    | some st => some { st with frame_num := st.frame_num + 1 }
  else some st

/-- The state before `setup` runs: static storage, every field zero. -/
def intern_zero : intern_t F :=
  { pixels := [], pixels_f := [], width := 0, height := 0, sample_count := 0,
    frame_num := 0, sample_weight := 0, sphere_list := [], s := ⟨⟨0, 0, 0⟩, 0⟩,
    camera_pos := ⟨0, 0, 0⟩, camera_dir := ⟨0, 0, 0⟩, camera_right_dir := ⟨0, 0, 0⟩,
    camera_f := 0, camera_near := 0, sun_dir := ⟨0, 0, 0⟩,
    view := 0, viewi := 0, view3i := 0, g_seed := 0 }

/-- The function `setup` of `main.cpp`, from the zero state; `tanf` is the
tangent routine and `GLM_PI` the constant used by `glm_rad`. -/
def setup (sqrtf tanf : F → F) (GLM_PI : F) : intern_t F :=
  let st : intern_t F := intern_zero
  let st := { st with width := 512, height := 512 }
  let st := { st with sample_count := 1024 }
  let st := { st with sample_weight := 1 / (st.sample_count : F) }
  let hh := (st.height : F) * 0.5
  let near : F := 0.01
  let fovy : F := 45 * GLM_PI / 180
  let st := { st with camera_f := (near * tanf (fovy / 2)) / hh, camera_near := near }
  let st := { st with pixels := List.replicate (st.width * st.height * 3).toNat 0,
                      pixels_f := List.replicate (st.width * st.height * 3).toNat 0 }
  let st := { st with s := ⟨⟨0, 0, 15⟩, 5⟩ }
  let st := { st with camera_pos := ⟨0, 0, 0⟩ }
  let st := { st with
    camera_dir := glm_vec3_normalize sqrtf (glm_vec3_sub st.s.x st.camera_pos) }
  let st := setup_camera sqrtf st
  let st := setup_spheres st
  let st := reset_pixels st
  { st with sun_dir := glm_vec3_negate (glm_vec3_normalize sqrtf ⟨1, -1, 1⟩) }

/-- The function `move_camera` of `main.cpp`; `cos` and `sin` are the
routines of the mathematics library. -/
def move_camera (cos sin : F → F) (st : intern_t F) (x y : ℤ) : intern_t F :=
  let yaw := (x : F) * 0.001
  let pitch := -(y : F) * 0.001
  let camera_dir : vec3 F := ⟨cos pitch * cos yaw, sin pitch, cos pitch * sin yaw⟩
  let up : vec3 F := ⟨0, 1, 0⟩
  { st with camera_dir := camera_dir, camera_right_dir := glm_vec3_cross camera_dir up }

/-- The camera displacement at the end of `tick` of `main.cpp`, for the key
axes `forward` and `right` and the step `tick_step`. -/
def tick_move (st : intern_t F) (forward right tick_step : F) : intern_t F :=
  let st := { st with
    camera_pos := glm_vec3_muladds st.camera_dir (forward * 10 * tick_step) st.camera_pos }
  { st with
    camera_pos := glm_vec3_muladds st.camera_right_dir (right * 10 * tick_step) st.camera_pos }

end Driver

end Raytrace

/-! ## Vocabulary of the statements -/

namespace Raytrace

section Vocabulary

variable {F : Type} [LinearOrderedField F]

/-- The discriminant `det` that `intersect_sphere` computes for `s` and `r`. -/
def quad_det (s : sphere_t F) (r : ray_t F) : F :=
  let sx_rx := glm_vec3_sub r.x s.x
  let a := glm_vec3_norm2 r.dir
  let b := 2 * glm_vec3_dot sx_rx r.dir
  let c := glm_vec3_norm2 sx_rx - s.r * s.r
  b * b - 4 * a * c

/-- The routine `sqrtf` returns the exact square root of `x`. -/
def is_sqrt (sqrtf : F → F) (x : F) : Prop :=
  0 ≤ sqrtf x ∧ sqrtf x * sqrtf x = x

/-- The routine `sqrtf` is exact on every non-negative argument. -/
def sqrt_exact (sqrtf : F → F) : Prop :=
  ∀ x, 0 ≤ x → is_sqrt sqrtf x

/-- The point `r.x + t * r.dir` of the ray `r`. -/
def ray_at (r : ray_t F) (t : F) : vec3 F := glm_vec3_muladds r.dir t r.x

/-- The point `p` lies on the surface of the sphere `s`. -/
def on_sphere (s : sphere_t F) (p : vec3 F) : Prop :=
  glm_vec3_norm2 (glm_vec3_sub p s.x) = s.r * s.r

end Vocabulary

section DriverVocabulary

variable {F : Type} [LinearOrderedField F] [FloorRing F]

/-- The operations the main loop applies to the state: a `render` call, a
`reset_pixels` call (space key), a `move_camera` call (mouse motion) and the
camera displacement of `tick` (movement keys). -/
inductive op (F : Type) where
  | render : op F
  | reset : op F
  | look (x y : ℤ) : op F
  | move (forward right tick_step : F) : op F

/-- The operation is a `reset_pixels` call. -/
def op.is_reset : op F → Bool
  | op.reset => true
  | _ => false

/-- The operation is a `render` call. -/
def op.is_render : op F → Bool
  | op.render => true
  | _ => false

/-- One operation of the main loop; `none` when a `render` call runs out of
`fuel`. -/
def step (sqrtf cos sin : F → F) (RAND_MAX fuel : ℕ) (st : intern_t F) :
    op F → Option (intern_t F)
  | op.render => render sqrtf RAND_MAX fuel st
  | op.reset => some (reset_pixels st)
  | op.look x y => some (move_camera cos sin st x y)
  | op.move forward right tick_step => some (tick_move st forward right tick_step)

/-- A sequence of operations of the main loop, applied from left to right. -/
def run (sqrtf cos sin : F → F) (RAND_MAX fuel : ℕ) (ops : List (op F)) (st : intern_t F) :
    Option (intern_t F) :=
  ops.foldlM (step sqrtf cos sin RAND_MAX fuel) st

/-- The state `b` differs from `a` in the two buffers and the generator state
at most. -/
def same_frame (a b : intern_t F) : Prop :=
  b = { a with pixels := b.pixels, pixels_f := b.pixels_f, g_seed := b.g_seed }

end DriverVocabulary

section BufferVocabulary

/-- The index `i` that `update_pixels` computes for the pixel `(x, y)`: the
first of its three buffer cells. -/
def pixel_index (width x y : ℤ) : ℤ := (y * width + x) * 3

end BufferVocabulary

section ColourVocabulary

variable {F : Type} [LinearOrderedField F]

/-- Every channel of the colour `c` lies in `[0, 1]`. -/
def color_in_range (c : color_t F) : Prop :=
  (0 ≤ c.r ∧ c.r ≤ 1) ∧ (0 ≤ c.g ∧ c.g ≤ 1) ∧ (0 ≤ c.b ∧ c.b ≤ 1)

/-- The direction `d` is of unit length or the zero vector. -/
def unit_or_zero (d : vec3 F) : Prop :=
  glm_vec3_norm2 d = 1 ∨ d = ⟨0, 0, 0⟩

end ColourVocabulary

section FrameVocabulary

variable {F : Type} [LinearOrderedField F] [FloorRing F]

/-- The channel `k` of a colour: `r` for 0, `g` for 1, `b` otherwise. -/
def color_t.chan (c : color_t F) (k : ℕ) : F :=
  if k = 0 then c.r else if k = 1 then c.g else c.b

/-- The pixels of a frame in the order `update_pixels` visits them. -/
def pixel_list (width height : ℕ) : List (ℕ × ℕ) :=
  (List.range width).flatMap fun x => (List.range height).map fun y => (x, y)

/-- The first buffer cell of the pixel `(x, y)` for an image of width `W`. -/
def cell (W x y : ℕ) : ℕ := (y * W + x) * 3

/-- The loop body of `update_pixels` at the pixel `q`. -/
def update_at (sqrtf : F → F) (RAND_MAX fuel : ℕ) (st : intern_t F) (q : ℕ × ℕ) :
    Option (intern_t F) :=
  update_pixel sqrtf RAND_MAX fuel st (q.1 : ℤ) (q.2 : ℤ)

/-- The colour that `trace_pixel` returns for the pixel `p` while the pixels of
`l` are updated in order from the state `st`; `none` when `p` is not reached. -/
def sample_in (sqrtf : F → F) (RAND_MAX fuel : ℕ) :
    List (ℕ × ℕ) → intern_t F → ℕ × ℕ → Option (color_t F)
  | [], _, _ => none
  | q :: rest, st, p =>
    if q = p then (trace_pixel sqrtf RAND_MAX fuel st (q.1 : ℤ) (q.2 : ℤ)).map Prod.fst
    else
      match update_at sqrtf RAND_MAX fuel st q with
      | none => none
      | some s => sample_in sqrtf RAND_MAX fuel rest s p

/-- The colour that `trace_pixel` returns for the pixel `(x, y)` during the
`render` call made in the state `st`. -/
def frame_sample (sqrtf : F → F) (RAND_MAX fuel : ℕ) (st : intern_t F) (x y : ℕ) :
    Option (color_t F) :=
  sample_in sqrtf RAND_MAX fuel (pixel_list st.width.toNat st.height.toNat)
    (setup_camera sqrtf st) (x, y)

/-- The sum of two colours, channel by channel. -/
def color_add (a b : color_t F) : color_t F := ⟨a.r + b.r, a.g + b.g, a.b + b.b⟩

/-- The sum of a list of colours, channel by channel. -/
def color_sum : List (color_t F) → color_t F
  | [] => ⟨0, 0, 0⟩
  | c :: cs => color_add c (color_sum cs)

/-- The colours that `trace_pixel` returned for the pixel `(x, y)` during the
operations `ops` applied from the state `st`, one for every `render` call that
found `frame_num < sample_count`, in the order of the calls; `none` when an
operation runs out of fuel. -/
def samples (sqrtf cos sin : F → F) (RAND_MAX fuel : ℕ) (x y : ℕ) :
    List (op F) → intern_t F → Option (List (color_t F))
  | [], _ => some []
  | o :: rest, st =>
    match step sqrtf cos sin RAND_MAX fuel st o with
    | none => none
    | some st' =>
      if op.is_render o = true ∧ st.frame_num < st.sample_count then
        match frame_sample sqrtf RAND_MAX fuel st x y,
          samples sqrtf cos sin RAND_MAX fuel x y rest st' with
        | some c, some cs => some (c :: cs)
        | _, _ => none
      else samples sqrtf cos sin RAND_MAX fuel x y rest st'

/-- A state with an image of one pixel, the empty scene, `sample_count = 2`
and accumulation cells that are not zero. -/
def one_pixel_state : intern_t ℚ :=
  { (intern_zero : intern_t ℚ) with
    pixels := [9, 9, 9], pixels_f := [7, 7, 7], width := 1, height := 1,
    sample_count := 2, sample_weight := 1 / 2, frame_num := 5, camera_dir := ⟨0, 0, 1⟩ }

end FrameVocabulary

section InvariantVocabulary

variable {F : Type} [LinearOrderedField F] [FloorRing F]

/-- The state `b` has the image size, the sampling parameters, the scene and
the camera position, direction and projection of `a`. -/
def same_scene (a b : intern_t F) : Prop :=
  b.width = a.width ∧ b.height = a.height ∧ b.sample_count = a.sample_count ∧
  b.sample_weight = a.sample_weight ∧ b.sphere_list = a.sphere_list ∧
  b.camera_pos = a.camera_pos ∧ b.camera_dir = a.camera_dir ∧
  b.camera_f = a.camera_f ∧ b.camera_near = a.camera_near

/-- Every sphere of the scene has a non-zero radius and every ray that
`ray_from_pixel` builds in a `render` call has a direction of unit length. -/
def scene_ok (sqrtf : F → F) (st : intern_t F) : Prop :=
  (∀ s ∈ st.sphere_list, s.r ≠ 0) ∧
  ∀ x y : F, glm_vec3_norm2 (ray_from_pixel sqrtf (setup_camera sqrtf st) x y).dir = 1

/-- The buffers hold `width * height * 3` cells, the frame counter lies in
`[0, sample_count]`, the sample weight is `1 / sample_count`, every
accumulator cell lies in `[0, frame_num * sample_weight]` and every display
byte is the conversion of its accumulator cell times 255. -/
def buffers_ok (st : intern_t F) : Prop :=
  0 ≤ st.width ∧ 0 ≤ st.height ∧
  st.pixels_f.length = (st.width * st.height * 3).toNat ∧
  st.pixels.length = (st.width * st.height * 3).toNat ∧
  0 ≤ st.frame_num ∧ st.frame_num ≤ st.sample_count ∧ 0 < st.sample_count ∧
  st.sample_weight = 1 / (st.sample_count : F) ∧
  ∀ j, j < (st.width * st.height * 3).toNat →
    0 ≤ st.pixels_f.getD j 0 ∧
    st.pixels_f.getD j 0 ≤ (st.frame_num : F) * st.sample_weight ∧
    st.pixels.getD j 0 = Uint8_of_float (st.pixels_f.getD j 0 * 255)

/-- The operation is a `render` or a `reset_pixels` call. -/
def op.is_frame_op : op F → Bool
  | op.render => true
  | op.reset => true
  | _ => false

end InvariantVocabulary

section PeriodVocabulary

/-- The generator state after the three draws of one pass through the label
`resample`. -/
def resample_state (g_seed : ℕ) : ℕ := (fast_rand (fast_rand (fast_rand g_seed).2).2).2

end PeriodVocabulary

end Raytrace

/-! # Theorems -/

namespace Raytrace

section IntersectionEngine

variable {F : Type} [LinearOrderedField F]

/-- One pass of the loop of `hit_spheres` over `s :: rest`, as the choice the
two `continue` tests make. -/
theorem hit_spheres_loop_cons (sqrtf : F → F) (r : ray_t F) (s : sphere_t F)
    (rest : List (sphere_t F)) (i : ℕ) (out : Option (ℕ × F)) (depth : F) :
    hit_spheres_loop sqrtf r (s :: rest) i (out, depth) =
      if intersect_sphere sqrtf s r ≤ 0 ∨ depth < intersect_sphere sqrtf s r then
        hit_spheres_loop sqrtf r rest (i + 1) (out, depth)
      else
        hit_spheres_loop sqrtf r rest (i + 1)
          (some (i, intersect_sphere sqrtf s r), intersect_sphere sqrtf s r) := by
  simp only [hit_spheres_loop, gt_iff_lt]
  by_cases h1 : intersect_sphere sqrtf s r ≤ 0
  · simp [h1]
  · by_cases h2 : depth < intersect_sphere sqrtf s r
    · simp [h1, h2]
    · simp [h1, h2]

/-- What the loop of `hit_spheres` leaves behind: either nothing was stored and
every value was rejected, or the stored pair is the last index that attains
the least accepted value. -/
theorem hit_spheres_loop_spec (sqrtf : F → F) (r : ray_t F) :
    ∀ (l : List (sphere_t F)) (i : ℕ) (out : Option (ℕ × F)) (depth : F),
      (hit_spheres_loop sqrtf r l i (out, depth) = (out, depth) ∧
        ∀ (j : ℕ) (s : sphere_t F), l[j]? = some s →
          intersect_sphere sqrtf s r ≤ 0 ∨ depth < intersect_sphere sqrtf s r) ∨
      (∃ (k : ℕ) (sk : sphere_t F), l[k]? = some sk ∧
        hit_spheres_loop sqrtf r l i (out, depth) =
          (some (i + k, intersect_sphere sqrtf sk r), intersect_sphere sqrtf sk r) ∧
        0 < intersect_sphere sqrtf sk r ∧ intersect_sphere sqrtf sk r ≤ depth ∧
        (∀ (j : ℕ) (s : sphere_t F), l[j]? = some s → 0 < intersect_sphere sqrtf s r →
          intersect_sphere sqrtf sk r ≤ intersect_sphere sqrtf s r) ∧
        (∀ (j : ℕ) (s : sphere_t F), l[j]? = some s → k < j → 0 < intersect_sphere sqrtf s r →
          intersect_sphere sqrtf sk r < intersect_sphere sqrtf s r)) := by
  intro l
  induction l with
  | nil =>
    intro i out depth
    left
    exact ⟨rfl, by intro j s h; simp at h⟩
  | cons s rest ih =>
    intro i out depth
    rw [hit_spheres_loop_cons]
    by_cases hc : intersect_sphere sqrtf s r ≤ 0 ∨ depth < intersect_sphere sqrtf s r
    · rw [if_pos hc]
      rcases ih (i + 1) out depth with ⟨heq, hall⟩ | ⟨k, sk, hk, heq, hpos, hle, hmin, hlast⟩
      · left
        refine ⟨heq, ?_⟩
        intro j s' hj
        cases j with
        | zero =>
          simp only [List.getElem?_cons_zero, Option.some.injEq] at hj
          subst hj
          exact hc
        | succ j =>
          simp only [List.getElem?_cons_succ] at hj
          exact hall j s' hj
      · right
        refine ⟨k + 1, sk, by simpa using hk, ?_, hpos, hle, ?_, ?_⟩
        · rw [heq]
          simp [Nat.add_assoc, Nat.add_comm 1 k]
        · intro j s' hj hp
          cases j with
          | zero =>
            simp only [List.getElem?_cons_zero, Option.some.injEq] at hj
            subst hj
            rcases hc with h0 | h0
            · exact absurd hp (not_lt.mpr h0)
            · exact le_of_lt (lt_of_le_of_lt hle h0)
          | succ j =>
            simp only [List.getElem?_cons_succ] at hj
            exact hmin j s' hj hp
        · intro j s' hj hkj hp
          cases j with
          | zero => omega
          | succ j =>
            simp only [List.getElem?_cons_succ] at hj
            exact hlast j s' hj (by omega) hp
    · rw [if_neg hc]
      push_neg at hc
      obtain ⟨hpos0, hle0⟩ := hc
      rcases ih (i + 1) (some (i, intersect_sphere sqrtf s r)) (intersect_sphere sqrtf s r) with
        ⟨heq, hall⟩ | ⟨k, sk, hk, heq, hpos, hle, hmin, hlast⟩
      · right
        refine ⟨0, s, by simp, ?_, hpos0, hle0, ?_, ?_⟩
        · rw [heq]
          simp
        · intro j s' hj hp
          cases j with
          | zero =>
            simp only [List.getElem?_cons_zero, Option.some.injEq] at hj
            subst hj
            exact le_refl _
          | succ j =>
            simp only [List.getElem?_cons_succ] at hj
            rcases hall j s' hj with h0 | h0
            · exact absurd hp (not_lt.mpr h0)
            · exact le_of_lt h0
        · intro j s' hj hkj hp
          cases j with
          | zero => omega
          | succ j =>
            simp only [List.getElem?_cons_succ] at hj
            rcases hall j s' hj with h0 | h0
            · exact absurd hp (not_lt.mpr h0)
            · exact h0
      · right
        refine ⟨k + 1, sk, by simpa using hk, ?_, hpos, le_trans hle hle0, ?_, ?_⟩
        · rw [heq]
          simp [Nat.add_assoc, Nat.add_comm 1 k]
        · intro j s' hj hp
          cases j with
          | zero =>
            simp only [List.getElem?_cons_zero, Option.some.injEq] at hj
            subst hj
            exact hle
          | succ j =>
            simp only [List.getElem?_cons_succ] at hj
            exact hmin j s' hj hp
        · intro j s' hj hkj hp
          cases j with
          | zero => omega
          | succ j =>
            simp only [List.getElem?_cons_succ] at hj
            exact hlast j s' hj (by omega) hp

/-- A hit reported by `hit_spheres`: the stored index holds the stored value,
which is positive, below `FLT_MAX`, least among the positive values and
strictly below the positive values of every later index. -/
theorem hit_spheres_some (sqrtf : F → F) (l : List (sphere_t F)) (r : ray_t F)
    (i : ℕ) (t : F) (h : hit_spheres sqrtf l r = some (i, t)) :
    ∃ si, l[i]? = some si ∧ t = intersect_sphere sqrtf si r ∧ 0 < t ∧ t < FLT_MAX ∧
      (∀ (j : ℕ) (s : sphere_t F), l[j]? = some s → 0 < intersect_sphere sqrtf s r →
        t ≤ intersect_sphere sqrtf s r) ∧
      (∀ (j : ℕ) (s : sphere_t F), l[j]? = some s → i < j → 0 < intersect_sphere sqrtf s r →
        t < intersect_sphere sqrtf s r) := by
  unfold hit_spheres at h
  rcases hit_spheres_loop_spec sqrtf r l 0 none FLT_MAX with
    ⟨heq, _⟩ | ⟨k, sk, hk, heq, hpos, hle, hmin, hlast⟩
  · rw [heq] at h
    simp at h
  · rw [heq] at h
    by_cases hne : intersect_sphere sqrtf sk r = FLT_MAX
    · simp [hne] at h
    · simp only [ne_eq, hne, not_false_eq_true, if_true, Option.some.injEq, Prod.mk.injEq,
        zero_add] at h
      obtain ⟨hi, ht⟩ := h
      subst hi
      subst ht
      exact ⟨sk, hk, rfl, hpos, lt_of_le_of_ne hle hne, hmin, hlast⟩

/-- No hit reported by `hit_spheres`: every value is non-positive or at least
`FLT_MAX`. -/
theorem hit_spheres_none (sqrtf : F → F) (l : List (sphere_t F)) (r : ray_t F)
    (h : hit_spheres sqrtf l r = none) (j : ℕ) (s : sphere_t F) (hj : l[j]? = some s) :
    intersect_sphere sqrtf s r ≤ 0 ∨ FLT_MAX ≤ intersect_sphere sqrtf s r := by
  unfold hit_spheres at h
  rcases hit_spheres_loop_spec sqrtf r l 0 none FLT_MAX with
    ⟨_, hall⟩ | ⟨k, sk, hk, heq, hpos, hle, hmin, hlast⟩
  · rcases hall j s hj with h0 | h0
    · exact Or.inl h0
    · exact Or.inr (le_of_lt h0)
  · rw [heq] at h
    by_cases hne : intersect_sphere sqrtf sk r = FLT_MAX
    · by_cases hp : 0 < intersect_sphere sqrtf s r
      · right
        rw [← hne]
        exact hmin j s hj hp
      · exact Or.inl (not_lt.mp hp)
    · simp [hne] at h

/-- C1 (as amended).  For every sphere list and every ray, `hit_spheres`
reports a hit exactly when some sphere has an `intersect_sphere` value strictly
between 0 and `FLT_MAX`; when it reports `(i, t)`, then `t` is the value of
sphere `i`, `0 < t`, and `t` is at most every strictly positive value of the
list. -/
theorem hit_spheres_closest (sqrtf : F → F) (sphere_list : List (sphere_t F)) (r : ray_t F) :
    ((hit_spheres sqrtf sphere_list r).isSome ↔
      ∃ (j : ℕ) (s : sphere_t F), sphere_list[j]? = some s ∧
        0 < intersect_sphere sqrtf s r ∧ intersect_sphere sqrtf s r < FLT_MAX) ∧
    ∀ (i : ℕ) (t : F), hit_spheres sqrtf sphere_list r = some (i, t) →
      (∃ si, sphere_list[i]? = some si ∧ t = intersect_sphere sqrtf si r) ∧ 0 < t ∧
      ∀ (j : ℕ) (s : sphere_t F), sphere_list[j]? = some s →
        0 < intersect_sphere sqrtf s r → t ≤ intersect_sphere sqrtf s r := by
  constructor
  · constructor
    · intro hsome
      obtain ⟨⟨i, t⟩, hit⟩ := Option.isSome_iff_exists.mp hsome
      obtain ⟨si, hsi, ht, hpos, hlt, _, _⟩ := hit_spheres_some sqrtf sphere_list r i t hit
      exact ⟨i, si, hsi, ht ▸ hpos, ht ▸ hlt⟩
    · rintro ⟨j, s, hj, hpos, hlt⟩
      by_contra hnone
      have hn : hit_spheres sqrtf sphere_list r = none := by
        simpa using hnone
      rcases hit_spheres_none sqrtf sphere_list r hn j s hj with h0 | h0
      · exact absurd hpos (not_lt.mpr h0)
      · exact absurd hlt (not_lt.mpr h0)
  · intro i t hit
    obtain ⟨si, hsi, ht, hpos, _, hmin, _⟩ := hit_spheres_some sqrtf sphere_list r i t hit
    exact ⟨⟨si, hsi, ht⟩, hpos, hmin⟩

/-- C2 (as amended).  When several spheres share the distance that
`hit_spheres` reports, the reported index is the highest among them: every
index whose `intersect_sphere` value equals the reported distance is at most
the reported index. -/
theorem hit_spheres_tie_last (sqrtf : F → F) (sphere_list : List (sphere_t F)) (r : ray_t F)
    (i : ℕ) (t : F) (hit : hit_spheres sqrtf sphere_list r = some (i, t))
    (j : ℕ) (s : sphere_t F) (hj : sphere_list[j]? = some s)
    (htie : intersect_sphere sqrtf s r = t) : j ≤ i := by
  obtain ⟨si, hsi, ht, hpos, _, _, hlast⟩ := hit_spheres_some sqrtf sphere_list r i t hit
  by_contra hlt
  have h := hlast j s hj (not_le.mp hlt) (htie ▸ hpos)
  rw [htie] at h
  exact lt_irrefl _ h

/-- C1 (counterexample).  A sphere whose `intersect_sphere` value is strictly
positive but beyond `FLT_MAX` is not reported: for the sphere of radius 1 at
`(0, 0, 8)` and the ray from the origin with direction `(0, 0, 2^50)` the value
is `7 * 2^150`, and `hit_spheres` reports no hit. -/
theorem hit_spheres_misses_beyond_FLT_MAX :
    intersect_sphere Rat.sqrt ⟨⟨0, 0, 8⟩, 1⟩ ⟨⟨0, 0, 0⟩, ⟨0, 0, 2 ^ 50⟩⟩ = 7 * 2 ^ 150 ∧
    (0 : ℚ) < 7 * 2 ^ 150 ∧
    hit_spheres Rat.sqrt [⟨⟨0, 0, 8⟩, 1⟩] ⟨⟨0, 0, 0⟩, ⟨0, 0, 2 ^ 50⟩⟩ = none := by
  have h : intersect_sphere Rat.sqrt ⟨⟨0, 0, 8⟩, 1⟩ ⟨⟨0, 0, 0⟩, ⟨0, 0, 2 ^ 50⟩⟩
      = 7 * 2 ^ 150 := by
    norm_num [intersect_sphere, glm_vec3_sub, glm_vec3_norm2, glm_vec3_dot]
  refine ⟨h, by norm_num, ?_⟩
  simp only [hit_spheres, hit_spheres_loop, h]
  norm_num [FLT_MAX]

/-- C2 (counterexample).  Two copies of the sphere of radius 5 at `(0, 0, 15)`
are both at distance 10 along the ray from the origin with direction
`(0, 0, 1)`, and `hit_spheres` reports index 1, not index 0. -/
theorem hit_spheres_tie_reports_later_index :
    intersect_sphere Rat.sqrt ⟨⟨0, 0, 15⟩, 5⟩ ⟨⟨0, 0, 0⟩, ⟨0, 0, 1⟩⟩ = 10 ∧
    hit_spheres Rat.sqrt [⟨⟨0, 0, 15⟩, 5⟩, ⟨⟨0, 0, 15⟩, 5⟩] ⟨⟨0, 0, 0⟩, ⟨0, 0, 1⟩⟩
      = some (1, 10) := by
  have h : intersect_sphere Rat.sqrt ⟨⟨0, 0, 15⟩, 5⟩ ⟨⟨0, 0, 0⟩, ⟨0, 0, 1⟩⟩ = 10 := by
    norm_num [intersect_sphere, glm_vec3_sub, glm_vec3_norm2, glm_vec3_dot]
  refine ⟨h, ?_⟩
  simp only [hit_spheres, hit_spheres_loop, h]
  norm_num [FLT_MAX]

/-- C2 (witness).  In the scene of three spheres where indices 0 and 2 tie at
distance 10 and index 1 is farther, index 2 is reported and the tied index 0
is below it. -/
theorem hit_spheres_tie_last_witness :
    hit_spheres Rat.sqrt [⟨⟨0, 0, 15⟩, 5⟩, ⟨⟨0, 0, 30⟩, 5⟩, ⟨⟨0, 0, 15⟩, 5⟩]
      ⟨⟨0, 0, 0⟩, ⟨0, 0, 1⟩⟩ = some (2, 10) ∧
    intersect_sphere Rat.sqrt ⟨⟨0, 0, 15⟩, 5⟩ ⟨⟨0, 0, 0⟩, ⟨0, 0, 1⟩⟩ = 10 ∧ 0 ≤ 2 := by
  have h : intersect_sphere Rat.sqrt ⟨⟨0, 0, 15⟩, 5⟩ ⟨⟨0, 0, 0⟩, ⟨0, 0, 1⟩⟩ = 10 := by
    norm_num [intersect_sphere, glm_vec3_sub, glm_vec3_norm2, glm_vec3_dot]
  have h2 : intersect_sphere Rat.sqrt ⟨⟨0, 0, 30⟩, 5⟩ ⟨⟨0, 0, 0⟩, ⟨0, 0, 1⟩⟩ = 25 := by
    norm_num [intersect_sphere, glm_vec3_sub, glm_vec3_norm2, glm_vec3_dot]
  have hit : hit_spheres Rat.sqrt [⟨⟨0, 0, 15⟩, 5⟩, ⟨⟨0, 0, 30⟩, 5⟩, ⟨⟨0, 0, 15⟩, 5⟩]
      ⟨⟨0, 0, 0⟩, ⟨0, 0, 1⟩⟩ = some (2, 10) := by
    simp only [hit_spheres, hit_spheres_loop, h, h2]
    norm_num [FLT_MAX]
  exact ⟨hit, h, hit_spheres_tie_last Rat.sqrt _ _ 2 10 hit 0 ⟨⟨0, 0, 15⟩, 5⟩ (by simp) h⟩

/-- C3 (the code at a ray whose direction is not of unit length).  For the
sphere of radius 1 at `(0, 0, 10)` and the ray from the origin with direction
`(0, 0, 2)` the discriminant is 16 and the smaller root of the quadratic is
`9 / 2`: the point of the ray at `9 / 2` lies on the sphere.  The function
`intersect_sphere` returns 72, and the point of the ray at 72 does not lie on
the sphere. -/
theorem intersect_sphere_nonunit_direction :
    quad_det (⟨⟨0, 0, 10⟩, 1⟩ : sphere_t ℚ) ⟨⟨0, 0, 0⟩, ⟨0, 0, 2⟩⟩ = 16 ∧
    on_sphere (⟨⟨0, 0, 10⟩, 1⟩ : sphere_t ℚ) (ray_at ⟨⟨0, 0, 0⟩, ⟨0, 0, 2⟩⟩ (9 / 2)) ∧
    intersect_sphere Rat.sqrt ⟨⟨0, 0, 10⟩, 1⟩ ⟨⟨0, 0, 0⟩, ⟨0, 0, 2⟩⟩ = 72 ∧
    ¬ on_sphere (⟨⟨0, 0, 10⟩, 1⟩ : sphere_t ℚ) (ray_at ⟨⟨0, 0, 0⟩, ⟨0, 0, 2⟩⟩ 72) := by
  refine ⟨?_, ?_, ?_, ?_⟩
  · norm_num [quad_det, glm_vec3_sub, glm_vec3_norm2, glm_vec3_dot]
  · norm_num [on_sphere, ray_at, glm_vec3_muladds, glm_vec3_sub, glm_vec3_norm2, glm_vec3_dot]
  · norm_num [intersect_sphere, glm_vec3_sub, glm_vec3_norm2, glm_vec3_dot]
  · norm_num [on_sphere, ray_at, glm_vec3_muladds, glm_vec3_sub, glm_vec3_norm2, glm_vec3_dot]

/-- The function `intersect_sphere` in terms of the discriminant. -/
theorem intersect_sphere_eq (sqrtf : F → F) (s : sphere_t F) (r : ray_t F) :
    intersect_sphere sqrtf s r =
      if quad_det s r ≤ 0 then 0
      else (-(2 * glm_vec3_dot (glm_vec3_sub r.x s.x) r.dir) - sqrtf (quad_det s r)) / 2
        * glm_vec3_norm2 r.dir := rfl

/-- C4 (as amended).  For a ray of unit direction whose origin lies strictly
outside the sphere, `intersect_sphere` returns 0 when the discriminant is not
positive; when it is positive the value is never 0: it is strictly positive
when the ray heads toward the sphere (`(origin - centre) . dir < 0`) and
strictly negative when it heads away from it. -/
theorem intersect_sphere_sign (sqrtf : F → F) (s : sphere_t F) (r : ray_t F)
    (hunit : glm_vec3_norm2 r.dir = 1)
    (hout : s.r * s.r < glm_vec3_norm2 (glm_vec3_sub r.x s.x))
    (hs : 0 < quad_det s r → is_sqrt sqrtf (quad_det s r)) :
    (quad_det s r ≤ 0 → intersect_sphere sqrtf s r = 0) ∧
    (0 < quad_det s r → glm_vec3_dot (glm_vec3_sub r.x s.x) r.dir < 0 →
      0 < intersect_sphere sqrtf s r) ∧
    (0 < quad_det s r → 0 ≤ glm_vec3_dot (glm_vec3_sub r.x s.x) r.dir →
      intersect_sphere sqrtf s r < 0) := by
  have hdet : quad_det s r = 4 * (glm_vec3_dot (glm_vec3_sub r.x s.x) r.dir) ^ 2
      - 4 * (glm_vec3_norm2 (glm_vec3_sub r.x s.x) - s.r * s.r) := by
    simp only [quad_det, hunit]
    ring
  rw [intersect_sphere_eq, hunit]
  refine ⟨fun h => by rw [if_pos h], ?_, ?_⟩
  · intro hpos hD
    rw [if_neg (not_le.mpr hpos)]
    obtain ⟨hS0, hSS⟩ := hs hpos
    have : sqrtf (quad_det s r) < -(2 * glm_vec3_dot (glm_vec3_sub r.x s.x) r.dir) := by
      nlinarith
    linarith
  · intro hpos hD
    rw [if_neg (not_le.mpr hpos)]
    obtain ⟨hS0, hSS⟩ := hs hpos
    have hSpos : 0 < sqrtf (quad_det s r) := by
      rcases eq_or_lt_of_le hS0 with h0 | h0
      · rw [← h0] at hSS
        linarith
      · exact h0
    linarith

/-- C5.  For a sphere of positive radius and an origin strictly outside it, the
ray from the origin with the normalised direction `centre - origin` makes
`intersect_sphere` return `|centre - origin| - radius`, the square root routine
being exact at the two arguments it is called with. -/
theorem intersect_sphere_toward_centre (sqrtf : F → F) (s : sphere_t F) (o : vec3 F)
    (hr : 0 < s.r)
    (hout : s.r * s.r < glm_vec3_norm2 (glm_vec3_sub s.x o))
    (h1 : is_sqrt sqrtf (glm_vec3_norm2 (glm_vec3_sub s.x o)))
    (h2 : is_sqrt sqrtf (quad_det s ⟨o, glm_vec3_normalize sqrtf (glm_vec3_sub s.x o)⟩)) :
    intersect_sphere sqrtf s ⟨o, glm_vec3_normalize sqrtf (glm_vec3_sub s.x o)⟩ =
      glm_vec3_norm sqrtf (glm_vec3_sub s.x o) - s.r := by
  obtain ⟨hL0, hLL⟩ := h1
  have hN : 0 < glm_vec3_norm2 (glm_vec3_sub s.x o) := lt_of_le_of_lt (mul_self_nonneg _) hout
  have hLne : sqrtf (glm_vec3_norm2 (glm_vec3_sub s.x o)) ≠ 0 := by
    intro h0
    rw [h0] at hLL
    linarith
  have hLpos : 0 < sqrtf (glm_vec3_norm2 (glm_vec3_sub s.x o)) := lt_of_le_of_ne hL0 (Ne.symm hLne)
  have hd : glm_vec3_normalize sqrtf (glm_vec3_sub s.x o) =
      glm_vec3_scale (glm_vec3_sub s.x o) (1 / sqrtf (glm_vec3_norm2 (glm_vec3_sub s.x o))) := by
    simp [glm_vec3_normalize, glm_vec3_norm, hLne]
  rw [hd] at h2 ⊢
  generalize hL : sqrtf (glm_vec3_norm2 (glm_vec3_sub s.x o)) = L at *
  have ha : glm_vec3_norm2 (glm_vec3_scale (glm_vec3_sub s.x o) (1 / L)) = 1 := by
    have : glm_vec3_norm2 (glm_vec3_scale (glm_vec3_sub s.x o) (1 / L)) =
        glm_vec3_norm2 (glm_vec3_sub s.x o) / (L * L) := by
      simp only [glm_vec3_norm2, glm_vec3_dot, glm_vec3_scale]
      field_simp
    rw [this, hLL]
    exact div_self (ne_of_gt hN)
  have hb : glm_vec3_dot (glm_vec3_sub o s.x) (glm_vec3_scale (glm_vec3_sub s.x o) (1 / L)) = -L := by
    have : glm_vec3_dot (glm_vec3_sub o s.x) (glm_vec3_scale (glm_vec3_sub s.x o) (1 / L)) =
        -(glm_vec3_norm2 (glm_vec3_sub s.x o)) / L := by
      simp only [glm_vec3_norm2, glm_vec3_dot, glm_vec3_scale, glm_vec3_sub]
      field_simp
      ring
    rw [this, ← hLL]
    field_simp
  have hc : glm_vec3_norm2 (glm_vec3_sub o s.x) = L * L := by
    rw [hLL]
    simp only [glm_vec3_norm2, glm_vec3_dot, glm_vec3_sub]
    ring
  have hdet : quad_det s ⟨o, glm_vec3_scale (glm_vec3_sub s.x o) (1 / L)⟩ = (2 * s.r) * (2 * s.r) := by
    simp only [quad_det, ha, hb, hc]
    ring
  obtain ⟨hS0, hSS⟩ := h2
  have hS : sqrtf (quad_det s ⟨o, glm_vec3_scale (glm_vec3_sub s.x o) (1 / L)⟩) = 2 * s.r := by
    have hSS2 := hSS.trans hdet
    have h3 : (sqrtf (quad_det s ⟨o, glm_vec3_scale (glm_vec3_sub s.x o) (1 / L)⟩) - 2 * s.r) *
        (sqrtf (quad_det s ⟨o, glm_vec3_scale (glm_vec3_sub s.x o) (1 / L)⟩) + 2 * s.r) = 0 := by
      linear_combination hSS2
    rcases mul_eq_zero.mp h3 with h4 | h4
    · linarith
    · linarith
  rw [intersect_sphere_eq, hS]
  have hpos : ¬ quad_det s ⟨o, glm_vec3_scale (glm_vec3_sub s.x o) (1 / L)⟩ ≤ 0 := by
    rw [hdet]
    have := mul_pos hr hr
    nlinarith
  rw [if_neg hpos]
  simp only [ha, hb, glm_vec3_norm, hL]
  ring

/-- C4 (counterexample).  The sphere of radius 1 at `(0, 0, -10)` lies behind
the ray from the origin with the unit direction `(0, 0, 1)`; the origin is
outside the sphere and `intersect_sphere` returns `-11`. -/
theorem intersect_sphere_negative_behind :
    glm_vec3_norm2 (⟨0, 0, 1⟩ : vec3 ℚ) = 1 ∧
    ((1 : ℚ) * 1 < glm_vec3_norm2 (glm_vec3_sub (⟨0, 0, 0⟩ : vec3 ℚ) ⟨0, 0, -10⟩)) ∧
    intersect_sphere Rat.sqrt ⟨⟨0, 0, -10⟩, 1⟩ ⟨⟨0, 0, 0⟩, ⟨0, 0, 1⟩⟩ = -11 := by
  refine ⟨?_, ?_, ?_⟩
  · norm_num [glm_vec3_norm2, glm_vec3_dot]
  · norm_num [glm_vec3_sub, glm_vec3_norm2, glm_vec3_dot]
  · norm_num [intersect_sphere, glm_vec3_sub, glm_vec3_norm2, glm_vec3_dot]

/-- C4 (witness).  The sphere of radius 5 at `(0, 0, 15)` and the ray from the
origin with direction `(0, 0, 1)`: the discriminant is 100 and the value is
strictly positive. -/
theorem intersect_sphere_sign_witness :
    quad_det (⟨⟨0, 0, 15⟩, 5⟩ : sphere_t ℚ) ⟨⟨0, 0, 0⟩, ⟨0, 0, 1⟩⟩ = 100 ∧
    0 < intersect_sphere Rat.sqrt ⟨⟨0, 0, 15⟩, 5⟩ ⟨⟨0, 0, 0⟩, ⟨0, 0, 1⟩⟩ := by
  have hd : quad_det (⟨⟨0, 0, 15⟩, 5⟩ : sphere_t ℚ) ⟨⟨0, 0, 0⟩, ⟨0, 0, 1⟩⟩ = 100 := by
    norm_num [quad_det, glm_vec3_sub, glm_vec3_norm2, glm_vec3_dot]
  refine ⟨hd, ?_⟩
  refine (intersect_sphere_sign Rat.sqrt ⟨⟨0, 0, 15⟩, 5⟩ ⟨⟨0, 0, 0⟩, ⟨0, 0, 1⟩⟩
    ?_ ?_ ?_).2.1 ?_ ?_
  · norm_num [glm_vec3_norm2, glm_vec3_dot]
  · norm_num [glm_vec3_sub, glm_vec3_norm2, glm_vec3_dot]
  · intro _
    rw [hd]
    norm_num [is_sqrt]
  · rw [hd]
    norm_num
  · norm_num [glm_vec3_sub, glm_vec3_dot]

/-- C5 (witness).  From the origin toward the sphere of radius 5 at
`(0, 0, 15)`: the distance returned is `15 - 5`. -/
theorem intersect_sphere_toward_centre_witness :
    intersect_sphere Rat.sqrt ⟨⟨0, 0, 15⟩, 5⟩
      ⟨⟨0, 0, 0⟩, glm_vec3_normalize Rat.sqrt (glm_vec3_sub ⟨0, 0, 15⟩ ⟨0, 0, 0⟩)⟩ =
      glm_vec3_norm Rat.sqrt (glm_vec3_sub ⟨0, 0, 15⟩ ⟨0, 0, 0⟩) - 5 ∧
    glm_vec3_norm Rat.sqrt (glm_vec3_sub (⟨0, 0, 15⟩ : vec3 ℚ) ⟨0, 0, 0⟩) - 5 = 10 := by
  refine ⟨intersect_sphere_toward_centre Rat.sqrt ⟨⟨0, 0, 15⟩, 5⟩ ⟨0, 0, 0⟩ ?_ ?_ ?_ ?_, ?_⟩
  · norm_num
  · norm_num [glm_vec3_sub, glm_vec3_norm2, glm_vec3_dot]
  · norm_num [is_sqrt, glm_vec3_sub, glm_vec3_norm2, glm_vec3_dot]
  · norm_num [is_sqrt, quad_det, glm_vec3_normalize, glm_vec3_norm, glm_vec3_scale,
      glm_vec3_sub, glm_vec3_norm2, glm_vec3_dot]
  · norm_num [glm_vec3_norm, glm_vec3_sub, glm_vec3_norm2, glm_vec3_dot]

end IntersectionEngine

section PathTracer
variable {F : Type} [LinearOrderedField F]

/-- An exhausted bounce budget: `trace` returns black and leaves the generator
alone. -/
theorem trace_nonpos (sqrtf : F → F) (RAND_MAX fuel : ℕ) (l : List (sphere_t F))
    (r : ray_t F) (n : ℤ) (g : ℕ) (h : n ≤ 0) :
    trace sqrtf RAND_MAX fuel l r n g = some (⟨0, 0, 0⟩, g) := by
  rw [trace, if_pos h]

/-- A ray that hits nothing, with budget left: `trace` returns the sky
colour. -/
theorem trace_miss (sqrtf : F → F) (RAND_MAX fuel : ℕ) (l : List (sphere_t F))
    (r : ray_t F) (n : ℤ) (g : ℕ) (h : 0 < n) (hm : hit_spheres sqrtf l r = none) :
    trace sqrtf RAND_MAX fuel l r n g = some (trace_sky r, g) := by
  rw [trace, if_neg (not_le.mpr h), hm]

/-- A hit on index 0, with budget left: `trace` returns what it returns for
the reflected ray with one bounce less. -/
theorem trace_mirror (sqrtf : F → F) (RAND_MAX fuel : ℕ) (l : List (sphere_t F))
    (r : ray_t F) (n : ℤ) (g : ℕ) (t : F) (h : 0 < n)
    (hh : hit_spheres sqrtf l r = some (0, t)) :
    trace sqrtf RAND_MAX fuel l r n g =
      trace sqrtf RAND_MAX fuel l
        ⟨trace_hit r t, reflect r.dir (trace_normal (l.getD 0 ⟨⟨0, 0, 0⟩, 0⟩) r t)⟩ (n - 1) g := by
  conv_lhs => rw [trace]
  rw [if_neg (not_le.mpr h), hh]
  simp [trace_incoming]


/-- On the empty scene `trace` returns, whatever the fuel. -/
theorem trace_empty_scene (sqrtf : F → F) (RAND_MAX fuel : ℕ) (r : ray_t F) (n : ℤ) (g : ℕ) :
    ∃ c, trace sqrtf RAND_MAX fuel [] r n g = some (c, g) := by
  by_cases h : n ≤ 0
  · exact ⟨_, trace_nonpos sqrtf RAND_MAX fuel [] r n g h⟩
  · refine ⟨_, trace_miss sqrtf RAND_MAX fuel [] r n g (by omega) ?_⟩
    simp [hit_spheres, hit_spheres_loop]

/-- From `is_sqrt`: the value of `sqrtf` at the square of a non-negative
number. -/
theorem is_sqrt_eq (sqrtf : F → F) (x y : F) (h : is_sqrt sqrtf x) (hy : 0 ≤ y)
    (hxy : y * y = x) : sqrtf x = y := by
  obtain ⟨h0, hh⟩ := h
  have h3 : (sqrtf x - y) * (sqrtf x + y) = 0 := by
    linear_combination hh - hxy
  rcases mul_eq_zero.mp h3 with h4 | h4
  · linarith
  · have hy0 : y = 0 := by linarith
    have hs0 : sqrtf x = 0 := by linarith
    rw [hs0, hy0]

/-- C8.  With `bounces_left <= 0`, `trace` returns the colour `(0, 0, 0)` for
every ray, every scene, every generator state and every amount of fuel, and
the generator state it returns is the one it was given. -/
theorem trace_budget_exhausted (sqrtf : F → F) (RAND_MAX fuel : ℕ)
    (sphere_list : List (sphere_t F)) (r : ray_t F) (bounces_left : ℤ) (g_seed : ℕ)
    (h : bounces_left ≤ 0) :
    trace sqrtf RAND_MAX fuel sphere_list r bounces_left g_seed = some (⟨0, 0, 0⟩, g_seed) :=
  trace_nonpos sqrtf RAND_MAX fuel sphere_list r bounces_left g_seed h

/-- C8 (witness).  Budget 0 and budget `-3` on a one-sphere scene, without
fuel. -/
theorem trace_budget_exhausted_witness :
    trace Rat.sqrt 32767 0 [⟨⟨0, 0, 15⟩, 5⟩] ⟨⟨0, 0, 0⟩, ⟨0, 0, 1⟩⟩ 0 7 = some (⟨0, 0, 0⟩, 7) ∧
    trace Rat.sqrt 32767 0 [⟨⟨0, 0, 15⟩, 5⟩] ⟨⟨0, 0, 0⟩, ⟨0, 0, 1⟩⟩ (-3) 7
      = some (⟨0, 0, 0⟩, 7) :=
  ⟨trace_budget_exhausted Rat.sqrt 32767 0 _ _ 0 7 (by norm_num),
   trace_budget_exhausted Rat.sqrt 32767 0 _ _ (-3) 7 (by norm_num)⟩

/-- C6 (as amended).  For a ray that hits no sphere and a bounce budget of at
least 1, `trace` returns the sky colour, the interpolation
`(1 - l) * white + l * (0.8, 0, 0)` with `l = (dir.y + 1) / 2`: it is
`(0.8, 0, 0)` when `dir.y = 1` and white when `dir.y = -1`.  The generator
state is returned unchanged. -/
theorem trace_sky_colour (sqrtf : F → F) (RAND_MAX fuel : ℕ)
    (sphere_list : List (sphere_t F)) (r : ray_t F) (bounces_left : ℤ) (g_seed : ℕ)
    (hn : 1 ≤ bounces_left) (hmiss : hit_spheres sqrtf sphere_list r = none) :
    trace sqrtf RAND_MAX fuel sphere_list r bounces_left g_seed =
      some (⟨(1 - (r.dir.y + 1) / 2) * 1 + (r.dir.y + 1) / 2 * (8 / 10),
             (1 - (r.dir.y + 1) / 2) * 1 + (r.dir.y + 1) / 2 * 0,
             (1 - (r.dir.y + 1) / 2) * 1 + (r.dir.y + 1) / 2 * 0⟩, g_seed) ∧
    (r.dir.y = 1 →
      trace sqrtf RAND_MAX fuel sphere_list r bounces_left g_seed
        = some (⟨8 / 10, 0, 0⟩, g_seed)) ∧
    (r.dir.y = -1 →
      trace sqrtf RAND_MAX fuel sphere_list r bounces_left g_seed
        = some (⟨1, 1, 1⟩, g_seed)) := by
  have h := trace_miss sqrtf RAND_MAX fuel sphere_list r bounces_left g_seed (by omega) hmiss
  rw [h]
  refine ⟨?_, ?_, ?_⟩
  · simp only [trace_sky, Option.some.injEq, Prod.mk.injEq, color_t.mk.injEq, and_true]
    refine ⟨?_, ?_, ?_⟩ <;> norm_num <;> ring
  · intro hy
    simp only [trace_sky, hy, Option.some.injEq, Prod.mk.injEq, color_t.mk.injEq, and_true]
    refine ⟨?_, ?_, ?_⟩ <;> norm_num
  · intro hy
    simp only [trace_sky, hy, Option.some.injEq, Prod.mk.injEq, color_t.mk.injEq, and_true]
    refine ⟨?_, ?_, ?_⟩ <;> norm_num


/-- C6 (counterexample).  In the scene of `setup_spheres` the ray from
`(200, 0, 0)` with direction `(0, 1, 0)` hits nothing; with `dir.y = 1` the
colour returned is `(0.8, 0, 0)`, not white, and for the opposite direction
`(0, -1, 0)` from `(200, 200, 0)` it is white, not `(0.8, 0, 0)`. -/
theorem trace_sky_up_is_not_white :
    hit_spheres Rat.sqrt [⟨⟨0, 0, 15⟩, 5⟩, ⟨⟨0, -105, 10⟩, 100⟩, ⟨⟨8, -3, 10⟩, 2⟩]
      ⟨⟨200, 0, 0⟩, ⟨0, 1, 0⟩⟩ = none ∧
    trace Rat.sqrt 32767 0 [⟨⟨0, 0, 15⟩, 5⟩, ⟨⟨0, -105, 10⟩, 100⟩, ⟨⟨8, -3, 10⟩, 2⟩]
      ⟨⟨200, 0, 0⟩, ⟨0, 1, 0⟩⟩ 1 0 = some (⟨8 / 10, 0, 0⟩, 0) ∧
    hit_spheres Rat.sqrt [⟨⟨0, 0, 15⟩, 5⟩, ⟨⟨0, -105, 10⟩, 100⟩, ⟨⟨8, -3, 10⟩, 2⟩]
      ⟨⟨200, 200, 0⟩, ⟨0, -1, 0⟩⟩ = none ∧
    trace Rat.sqrt 32767 0 [⟨⟨0, 0, 15⟩, 5⟩, ⟨⟨0, -105, 10⟩, 100⟩, ⟨⟨8, -3, 10⟩, 2⟩]
      ⟨⟨200, 200, 0⟩, ⟨0, -1, 0⟩⟩ 1 0 = some (⟨1, 1, 1⟩, 0) := by
  have h1 : hit_spheres Rat.sqrt [⟨⟨0, 0, 15⟩, 5⟩, ⟨⟨0, -105, 10⟩, 100⟩, ⟨⟨8, -3, 10⟩, 2⟩]
      ⟨⟨200, 0, 0⟩, ⟨0, 1, 0⟩⟩ = none := by
    norm_num [hit_spheres, hit_spheres_loop, intersect_sphere, glm_vec3_sub, glm_vec3_norm2,
      glm_vec3_dot]
  have h2 : hit_spheres Rat.sqrt [⟨⟨0, 0, 15⟩, 5⟩, ⟨⟨0, -105, 10⟩, 100⟩, ⟨⟨8, -3, 10⟩, 2⟩]
      ⟨⟨200, 200, 0⟩, ⟨0, -1, 0⟩⟩ = none := by
    norm_num [hit_spheres, hit_spheres_loop, intersect_sphere, glm_vec3_sub, glm_vec3_norm2,
      glm_vec3_dot]
  refine ⟨h1, ?_, h2, ?_⟩
  · rw [trace_miss Rat.sqrt 32767 0 _ _ 1 0 (by norm_num) h1]
    norm_num [trace_sky]
  · rw [trace_miss Rat.sqrt 32767 0 _ _ 1 0 (by norm_num) h2]
    norm_num [trace_sky]

/-- C6 (witness).  The same scene and the horizontal ray from `(200, 0, 0)`
with direction `(1, 0, 0)`: no hit, and the colour is `(0.9, 0.5, 0.5)`. -/
theorem trace_sky_colour_witness :
    trace Rat.sqrt 32767 0 [⟨⟨0, 0, 15⟩, 5⟩, ⟨⟨0, -105, 10⟩, 100⟩, ⟨⟨8, -3, 10⟩, 2⟩]
      ⟨⟨200, 0, 0⟩, ⟨1, 0, 0⟩⟩ 1 0 = some (⟨9 / 10, 1 / 2, 1 / 2⟩, 0) := by
  have h1 : hit_spheres Rat.sqrt [⟨⟨0, 0, 15⟩, 5⟩, ⟨⟨0, -105, 10⟩, 100⟩, ⟨⟨8, -3, 10⟩, 2⟩]
      ⟨⟨200, 0, 0⟩, ⟨1, 0, 0⟩⟩ = none := by
    norm_num [hit_spheres, hit_spheres_loop, intersect_sphere, glm_vec3_sub, glm_vec3_norm2,
      glm_vec3_dot]
  have h := (trace_sky_colour Rat.sqrt 32767 0 _ _ 1 0 (by norm_num) h1).1
  rw [h]
  norm_num

end PathTracer

section Scene
variable {F : Type} [LinearOrderedField F]

/-- The loop of `reset_pixels` writes the two buffers only. -/
theorem reset_pixels_loop_fields (l : List ℕ) :
    ∀ st : intern_t F, ∃ px pf,
      l.foldl (fun st i =>
        { st with pixels := st.pixels.set i 0, pixels_f := st.pixels_f.set i 0 }) st =
        { st with pixels := px, pixels_f := pf } := by
  induction l with
  | nil => intro st; exact ⟨st.pixels, st.pixels_f, rfl⟩
  | cons i rest ih =>
    intro st
    obtain ⟨px, pf, h⟩ := ih { st with pixels := st.pixels.set i 0, pixels_f := st.pixels_f.set i 0 }
    exact ⟨px, pf, by rw [List.foldl_cons, h]⟩

/-- The function `reset_pixels` writes the two buffers and `frame_num` only. -/
theorem reset_pixels_fields (st : intern_t F) :
    ∃ px pf, reset_pixels st = { st with pixels := px, pixels_f := pf, frame_num := 0 } := by
  obtain ⟨px, pf, h⟩ := reset_pixels_loop_fields (List.range (st.width * st.height * 3).toNat) st
  exact ⟨px, pf, by simp only [reset_pixels, h]⟩

/-- The function `reset_pixels` leaves the scene alone. -/
theorem reset_pixels_sphere_list (st : intern_t F) :
    (reset_pixels st).sphere_list = st.sphere_list := by
  obtain ⟨px, pf, h⟩ := reset_pixels_fields st
  rw [h]

/-- The function `reset_pixels` leaves the camera position alone. -/
theorem reset_pixels_camera_pos (st : intern_t F) :
    (reset_pixels st).camera_pos = st.camera_pos := by
  obtain ⟨px, pf, h⟩ := reset_pixels_fields st
  rw [h]

/-- The function `reset_pixels` leaves the camera direction alone. -/
theorem reset_pixels_camera_dir (st : intern_t F) :
    (reset_pixels st).camera_dir = st.camera_dir := by
  obtain ⟨px, pf, h⟩ := reset_pixels_fields st
  rw [h]

/-- After `reset_pixels` the frame counter is 0. -/
theorem reset_pixels_frame_num (st : intern_t F) : (reset_pixels st).frame_num = 0 := by
  obtain ⟨px, pf, h⟩ := reset_pixels_fields st
  rw [h]

/-- The function `reset_pixels` leaves `sample_count` alone. -/
theorem reset_pixels_sample_count (st : intern_t F) :
    (reset_pixels st).sample_count = st.sample_count := by
  obtain ⟨px, pf, h⟩ := reset_pixels_fields st
  rw [h]

/-- After `setup` the frame counter is 0 and `sample_count` is 1024. -/
theorem setup_frame_num (sqrtf tanf : F → F) (GLM_PI : F) :
    (setup sqrtf tanf GLM_PI).frame_num = 0 ∧ (setup sqrtf tanf GLM_PI).sample_count = 1024 := by
  constructor
  · simp only [setup, reset_pixels_frame_num]
  · simp only [setup, reset_pixels_sample_count, setup_spheres, setup_camera]

/-- The scene that `setup` builds. -/
theorem setup_sphere_list (sqrtf tanf : F → F) (GLM_PI : F) :
    (setup sqrtf tanf GLM_PI).sphere_list =
      [⟨⟨0, 0, 15⟩, 5⟩, ⟨⟨0, -105, 10⟩, 100⟩, ⟨⟨8, -3, 10⟩, 2⟩] := by
  simp only [setup, reset_pixels_sphere_list, setup_spheres, setup_camera]

/-- The camera position that `setup` leaves. -/
theorem setup_camera_pos (sqrtf tanf : F → F) (GLM_PI : F) :
    (setup sqrtf tanf GLM_PI).camera_pos = ⟨0, 0, 0⟩ := by
  simp only [setup, reset_pixels_camera_pos, setup_spheres, setup_camera]

/-- The camera direction that `setup` leaves: the normalised vector from the
camera position to the centre of the mirror sphere. -/
theorem setup_camera_dir (sqrtf tanf : F → F) (GLM_PI : F) :
    (setup sqrtf tanf GLM_PI).camera_dir =
      glm_vec3_normalize sqrtf (glm_vec3_sub ⟨0, 0, 15⟩ ⟨0, 0, 0⟩) := by
  simp only [setup, reset_pixels_camera_dir, setup_spheres, setup_camera]

/-- The axis ray of the scene of `setup`: the first hit is the mirror sphere at
distance 10, and the reflected ray from `(0, 0, 10)` with direction
`(0, 0, -1)` hits nothing. -/
theorem axis_ray_hits (sqrtf : F → F) (h100 : is_sqrt sqrtf 100) :
    hit_spheres sqrtf [⟨⟨0, 0, 15⟩, 5⟩, ⟨⟨0, -105, 10⟩, 100⟩, ⟨⟨8, -3, 10⟩, 2⟩]
      ⟨⟨0, 0, 0⟩, ⟨0, 0, 1⟩⟩ = some (0, 10) ∧
    hit_spheres sqrtf [⟨⟨0, 0, 15⟩, 5⟩, ⟨⟨0, -105, 10⟩, 100⟩, ⟨⟨8, -3, 10⟩, 2⟩]
      ⟨⟨0, 0, 10⟩, ⟨0, 0, -1⟩⟩ = none := by
  have h10 : sqrtf 100 = 10 := is_sqrt_eq sqrtf 100 10 h100 (by norm_num) (by norm_num)
  constructor
  · norm_num [hit_spheres, hit_spheres_loop, intersect_sphere, glm_vec3_sub, glm_vec3_norm2,
      glm_vec3_dot, h10, FLT_MAX]
  · norm_num [hit_spheres, hit_spheres_loop, intersect_sphere, glm_vec3_sub, glm_vec3_norm2,
      glm_vec3_dot, h10, FLT_MAX]

/-- C7 (as amended).  In the scene built by `setup`, the ray from the camera
position along the camera direction (from the origin along the z axis, at the
centre of the mirror sphere) traces to black for every bounce budget of at
most 1 and to the sky colour `(0.9, 0.5, 0.5)` of the reflected ray for every
bounce budget of at least 2; the generator is not used. -/
theorem trace_setup_axis_ray (sqrtf tanf : F → F) (GLM_PI : F) (RAND_MAX fuel : ℕ)
    (bounces_left : ℤ) (g_seed : ℕ) (h100 : is_sqrt sqrtf 100) (h225 : is_sqrt sqrtf 225) :
    (setup sqrtf tanf GLM_PI).camera_pos = ⟨0, 0, 0⟩ ∧
    (setup sqrtf tanf GLM_PI).camera_dir = ⟨0, 0, 1⟩ ∧
    (bounces_left ≤ 1 →
      trace sqrtf RAND_MAX fuel (setup sqrtf tanf GLM_PI).sphere_list
        ⟨(setup sqrtf tanf GLM_PI).camera_pos, (setup sqrtf tanf GLM_PI).camera_dir⟩
        bounces_left g_seed = some (⟨0, 0, 0⟩, g_seed)) ∧
    (2 ≤ bounces_left →
      trace sqrtf RAND_MAX fuel (setup sqrtf tanf GLM_PI).sphere_list
        ⟨(setup sqrtf tanf GLM_PI).camera_pos, (setup sqrtf tanf GLM_PI).camera_dir⟩
        bounces_left g_seed = some (⟨9 / 10, 1 / 2, 1 / 2⟩, g_seed)) := by
  have h15 : sqrtf 225 = 15 := is_sqrt_eq sqrtf 225 15 h225 (by norm_num) (by norm_num)
  have hdir : (setup sqrtf tanf GLM_PI).camera_dir = ⟨0, 0, 1⟩ := by
    rw [setup_camera_dir]
    norm_num [glm_vec3_normalize, glm_vec3_norm, glm_vec3_scale, glm_vec3_sub, glm_vec3_norm2,
      glm_vec3_dot, h15]
  obtain ⟨hitA, hitB⟩ := axis_ray_hits sqrtf h100
  have hray : (⟨trace_hit ⟨⟨0, 0, 0⟩, ⟨0, 0, 1⟩⟩ 10,
      reflect (⟨0, 0, 1⟩ : vec3 F) (trace_normal
        (([⟨⟨0, 0, 15⟩, 5⟩, ⟨⟨0, -105, 10⟩, 100⟩, ⟨⟨8, -3, 10⟩, 2⟩] :
          List (sphere_t F)).getD 0 ⟨⟨0, 0, 0⟩, 0⟩) ⟨⟨0, 0, 0⟩, ⟨0, 0, 1⟩⟩ 10)⟩ : ray_t F) =
      ⟨⟨0, 0, 10⟩, ⟨0, 0, -1⟩⟩ := by
    norm_num [trace_hit, trace_normal, reflect, glm_vec3_muladds, glm_vec3_scale, glm_vec3_sub,
      glm_vec3_dot]
  refine ⟨setup_camera_pos sqrtf tanf GLM_PI, hdir, ?_, ?_⟩
  · intro hn
    rw [setup_sphere_list, setup_camera_pos, hdir]
    by_cases h0 : bounces_left ≤ 0
    · exact trace_nonpos sqrtf RAND_MAX fuel _ _ _ _ h0
    · rw [trace_mirror sqrtf RAND_MAX fuel _ _ bounces_left g_seed 10 (by omega) hitA]
      exact trace_nonpos sqrtf RAND_MAX fuel _ _ _ _ (by omega)
  · intro hn
    rw [setup_sphere_list, setup_camera_pos, hdir]
    rw [trace_mirror sqrtf RAND_MAX fuel _ _ bounces_left g_seed 10 (by omega) hitA]
    simp only [hray]
    rw [trace_miss sqrtf RAND_MAX fuel _ _ (bounces_left - 1) g_seed (by omega) hitB]
    norm_num [trace_sky]

/-- C7 (counterexample).  In the scene built by `setup`, with one bounce
allowed, the axis ray from the camera traces to black: the mirror sphere
returns the colour of the reflected ray, whose budget is 0. -/
theorem trace_setup_axis_ray_one_bounce_black :
    trace Rat.sqrt 32767 0 (setup Rat.sqrt (fun x => x) (22 / 7)).sphere_list
      ⟨(setup Rat.sqrt (fun x => x) (22 / 7)).camera_pos,
       (setup Rat.sqrt (fun x => x) (22 / 7)).camera_dir⟩ 1 0 = some (⟨0, 0, 0⟩, 0) := by
  have h15 : Rat.sqrt 225 = 15 := by norm_num
  have hdir : (setup Rat.sqrt (fun x => x) (22 / 7)).camera_dir = ⟨0, 0, 1⟩ := by
    rw [setup_camera_dir]
    norm_num [glm_vec3_normalize, glm_vec3_norm, glm_vec3_scale, glm_vec3_sub, glm_vec3_norm2,
      glm_vec3_dot, h15]
  obtain ⟨hitA, _⟩ := axis_ray_hits Rat.sqrt (by norm_num [is_sqrt])
  rw [setup_sphere_list, setup_camera_pos, hdir]
  rw [trace_mirror Rat.sqrt 32767 0 _ _ 1 0 10 (by norm_num) hitA]
  exact trace_nonpos Rat.sqrt 32767 0 _ _ _ _ (by norm_num)

/-- C7 (witness).  With the rational square root, which is exact at 100 and
225, four bounces give `(0.9, 0.5, 0.5)` and zero bounces give black. -/
theorem trace_setup_axis_ray_witness :
    trace Rat.sqrt 32767 0 (setup Rat.sqrt (fun x => x) (22 / 7)).sphere_list
      ⟨(setup Rat.sqrt (fun x => x) (22 / 7)).camera_pos,
       (setup Rat.sqrt (fun x => x) (22 / 7)).camera_dir⟩ 4 0
      = some (⟨9 / 10, 1 / 2, 1 / 2⟩, 0) ∧
    trace Rat.sqrt 32767 0 (setup Rat.sqrt (fun x => x) (22 / 7)).sphere_list
      ⟨(setup Rat.sqrt (fun x => x) (22 / 7)).camera_pos,
       (setup Rat.sqrt (fun x => x) (22 / 7)).camera_dir⟩ 0 0
      = some (⟨0, 0, 0⟩, 0) :=
  ⟨(trace_setup_axis_ray Rat.sqrt (fun x => x) (22 / 7) 32767 0 4 0
      (by norm_num [is_sqrt]) (by norm_num [is_sqrt])).2.2.2 (by norm_num),
   (trace_setup_axis_ray Rat.sqrt (fun x => x) (22 / 7) 32767 0 0 0
      (by norm_num [is_sqrt]) (by norm_num [is_sqrt])).2.2.1 (by norm_num)⟩

/-- On the empty scene `trace_pixel` returns. -/
theorem trace_pixel_empty_scene (sqrtf : F → F) (RAND_MAX fuel : ℕ) (st : intern_t F)
    (x y : ℤ) (h : st.sphere_list = []) :
    ∃ p, trace_pixel sqrtf RAND_MAX fuel st x y = some p := by
  unfold trace_pixel
  rw [h]
  obtain ⟨c, hc⟩ := trace_empty_scene sqrtf RAND_MAX fuel
    (ray_from_pixel sqrtf st ((x : F) + ((rand_float RAND_MAX st.g_seed : F × ℕ).1 - 0.5))
      ((y : F) + ((rand_float RAND_MAX (rand_float RAND_MAX st.g_seed : F × ℕ).2 : F × ℕ).1 - 0.5)))
    4 (rand_float RAND_MAX (rand_float RAND_MAX st.g_seed : F × ℕ).2 : F × ℕ).2
  simp only [hc]
  exact ⟨_, rfl⟩

/-- C9 (the code at a degenerate draw).  In the scene of `setup_spheres`, the
unit ray from `(-6, 3, 10)` with direction `(3/5, -4/5, 0)` hits the ground
sphere (index 1) at distance 10, at its top `(0, -5, 10)`, where the normal is
`(0, 1, 0)`.  With `RAND_MAX = 32767` and the generator state 215111597 the
three draws of `lambertian` are 16384, 2166 and 16384: the sampled point is
`(0, -7109/8192, 0)`, its normalisation is the opposite of the normal, and the
ray handed to the recursive call has the direction `(0, 0, 0)`. -/
theorem lambertian_opposite_normal_zero_direction :
    glm_vec3_norm2 (⟨3 / 5, -4 / 5, 0⟩ : vec3 ℚ) = 1 ∧
    hit_spheres Rat.sqrt [⟨⟨0, 0, 15⟩, 5⟩, ⟨⟨0, -105, 10⟩, 100⟩, ⟨⟨8, -3, 10⟩, 2⟩]
      ⟨⟨-6, 3, 10⟩, ⟨3 / 5, -4 / 5, 0⟩⟩ = some (1, 10) ∧
    (sample_cube 32767 215111597 : vec3 ℚ × ℕ) = (⟨0, -7109 / 8192, 0⟩, 3221280790) ∧
    trace_incoming Rat.sqrt 32767 1 [⟨⟨0, 0, 15⟩, 5⟩, ⟨⟨0, -105, 10⟩, 100⟩, ⟨⟨8, -3, 10⟩, 2⟩]
      ⟨⟨-6, 3, 10⟩, ⟨3 / 5, -4 / 5, 0⟩⟩ 215111597 1 10 =
      some (⟨⟨0, -5, 10⟩, ⟨0, 0, 0⟩⟩, 3221280790) ∧
    glm_vec3_norm2 (⟨0, 0, 0⟩ : vec3 ℚ) ≠ 1 := by
  have h1 : fast_rand 215111597 = (16384, 3221261244) := by decide
  have h2 : fast_rand 3221261244 = (2166, 2289494927) := by decide
  have h3 : fast_rand 2289494927 = (16384, 3221280790) := by decide
  have hs : (sample_cube 32767 215111597 : vec3 ℚ × ℕ) =
      (⟨0, -7109 / 8192, 0⟩, 3221280790) := by
    simp only [sample_cube, rand_float, h1, h2, h3]
    norm_num
  have hq : Rat.sqrt (50537881 / 67108864) = 7109 / 8192 := by
    rw [show (50537881 / 67108864 : ℚ) = (7109 / 8192) * (7109 / 8192) by norm_num, Rat.sqrt_eq]
    exact abs_of_nonneg (by norm_num)
  have hu : glm_vec3_normalize Rat.sqrt (⟨0, -7109 / 8192, 0⟩ : vec3 ℚ) = ⟨0, -1, 0⟩ := by
    norm_num [glm_vec3_normalize, glm_vec3_norm, glm_vec3_scale, glm_vec3_norm2, glm_vec3_dot, hq]
  have hn : trace_normal (⟨⟨0, -105, 10⟩, 100⟩ : sphere_t ℚ)
      ⟨⟨-6, 3, 10⟩, ⟨3 / 5, -4 / 5, 0⟩⟩ 10 = ⟨0, 1, 0⟩ := by
    norm_num [trace_normal, trace_hit, glm_vec3_muladds, glm_vec3_scale, glm_vec3_sub]
  have hz : glm_vec3_normalize Rat.sqrt
      (glm_vec3_add (⟨0, -1, 0⟩ : vec3 ℚ) ⟨0, 1, 0⟩) = ⟨0, 0, 0⟩ := by
    norm_num [glm_vec3_normalize, glm_vec3_norm, glm_vec3_add, glm_vec3_norm2, glm_vec3_dot]
  refine ⟨?_, ?_, hs, ?_, ?_⟩
  · norm_num [glm_vec3_norm2, glm_vec3_dot]
  · norm_num [hit_spheres, hit_spheres_loop, intersect_sphere, glm_vec3_sub, glm_vec3_norm2,
      glm_vec3_dot, FLT_MAX]
  · have hl : lambertian Rat.sqrt 32767 1 215111597 (⟨0, 1, 0⟩ : vec3 ℚ) =
        some (⟨0, 0, 0⟩, 3221280790) := by
      simp only [lambertian, hs, hu, hz]
      norm_num [glm_vec3_norm2, glm_vec3_dot]
    simp only [trace_incoming, List.getD_cons_succ, List.getD_cons_zero, hn, hl]
    norm_num [trace_hit, glm_vec3_muladds]
  · norm_num [glm_vec3_norm2, glm_vec3_dot]

end Scene

section Frames

variable {F : Type}

/-- Reflexivity of `same_frame`. -/
theorem same_frame_refl (a : intern_t F) : same_frame a a := rfl

/-- Transitivity of `same_frame`. -/
theorem same_frame_trans (a b c : intern_t F) (h1 : same_frame a b) (h2 : same_frame b c) :
    same_frame a c := by
  unfold same_frame at *
  rw [h2, h1]

/-- The counter `frame_num` under `same_frame`. -/
theorem same_frame_frame_num (a b : intern_t F) (h : same_frame a b) :
    b.frame_num = a.frame_num := by
  unfold same_frame at h
  rw [h]

/-- The field `sample_count` under `same_frame`. -/
theorem same_frame_sample_count (a b : intern_t F) (h : same_frame a b) :
    b.sample_count = a.sample_count := by
  unfold same_frame at h
  rw [h]

/-- A fold in the option monad keeps a reflexive and transitive relation that
every step keeps. -/
theorem foldlM_keeps {α : Type} (R : intern_t F → intern_t F → Prop)
    (hrefl : ∀ a, R a a) (htrans : ∀ a b c, R a b → R b c → R a c)
    (f : intern_t F → α → Option (intern_t F))
    (hf : ∀ s x s', f s x = some s' → R s s') :
    ∀ (l : List α) (st st' : intern_t F), l.foldlM f st = some st' → R st st' := by
  intro l
  induction l with
  | nil =>
    intro st st' h
    simp only [List.foldlM_nil, Option.pure_def, Option.some.injEq] at h
    subst h
    exact hrefl _
  | cons x rest ih =>
    intro st st' h
    simp only [List.foldlM_cons, Option.bind_eq_bind] at h
    cases hfx : f st x with
    | none => rw [hfx] at h; simp at h
    | some s1 =>
      rw [hfx] at h
      exact htrans _ _ _ (hf st x s1 hfx) (ih s1 st' h)

/-- A fold in the option monad returns when every step returns on the states
that satisfy an invariant the steps keep. -/
theorem foldlM_returns {α : Type} (P : intern_t F → Prop)
    (f : intern_t F → α → Option (intern_t F))
    (hf : ∀ s x, P s → ∃ s', f s x = some s' ∧ P s') :
    ∀ (l : List α) (st : intern_t F), P st → ∃ st', l.foldlM f st = some st' ∧ P st' := by
  intro l
  induction l with
  | nil => intro st h; exact ⟨st, rfl, h⟩
  | cons x rest ih =>
    intro st h
    obtain ⟨s1, h1, hP⟩ := hf st x h
    obtain ⟨s2, h2, hP2⟩ := ih s1 hP
    exact ⟨s2, by simp only [List.foldlM_cons, Option.bind_eq_bind, h1, Option.some_bind, h2], hP2⟩

end Frames

section FrameDriver
variable {F : Type} [LinearOrderedField F] [FloorRing F]

/-- The loop body of `update_pixels` writes the buffers and the generator state
only. -/
theorem update_pixel_same_frame (sqrtf : F → F) (RAND_MAX fuel : ℕ) (st st' : intern_t F)
    (x y : ℤ) (h : update_pixel sqrtf RAND_MAX fuel st x y = some st') : same_frame st st' := by
  unfold update_pixel at h
  cases htp : trace_pixel sqrtf RAND_MAX fuel st x y with
  | none => rw [htp] at h; simp at h
  | some p =>
    obtain ⟨c, g⟩ := p
    rw [htp] at h
    simp only [Option.some.injEq] at h
    subst h
    rfl

/-- The function `update_pixels` writes the buffers and the generator state
only. -/
theorem update_pixels_same_frame (sqrtf : F → F) (RAND_MAX fuel : ℕ) (st st' : intern_t F)
    (h : update_pixels sqrtf RAND_MAX fuel st = some st') : same_frame st st' := by
  unfold update_pixels at h
  refine foldlM_keeps same_frame same_frame_refl same_frame_trans _ ?_ _ st st' h
  intro s x s' hx
  refine foldlM_keeps same_frame same_frame_refl same_frame_trans _ ?_ _ s s' hx
  intro s2 y s2' hy
  exact update_pixel_same_frame sqrtf RAND_MAX fuel s2 s2' _ _ hy

/-- Once `frame_num` has reached `sample_count`, `render` only recomputes the
camera matrices. -/
theorem render_saturated (sqrtf : F → F) (RAND_MAX fuel : ℕ) (st : intern_t F)
    (h : st.sample_count ≤ st.frame_num) :
    render sqrtf RAND_MAX fuel st = some (setup_camera sqrtf st) := by
  have h2 : ¬ (setup_camera sqrtf st).frame_num < (setup_camera sqrtf st).sample_count := by
    simp only [setup_camera]
    exact not_lt.mpr h
  simp only [render, if_neg h2]

/-- While `frame_num` is below `sample_count`, a `render` call that returns
adds one to `frame_num` and keeps `sample_count`. -/
theorem render_active (sqrtf : F → F) (RAND_MAX fuel : ℕ) (st st' : intern_t F)
    (h : st.frame_num < st.sample_count) (hr : render sqrtf RAND_MAX fuel st = some st') :
    st'.frame_num = st.frame_num + 1 ∧ st'.sample_count = st.sample_count := by
  have h2 : (setup_camera sqrtf st).frame_num < (setup_camera sqrtf st).sample_count := by
    simp only [setup_camera]
    exact h
  simp only [render, if_pos h2] at hr
  cases hu : update_pixels sqrtf RAND_MAX fuel (setup_camera sqrtf st) with
  | none => rw [hu] at hr; simp at hr
  | some s1 =>
    rw [hu] at hr
    simp only [Option.some.injEq] at hr
    subst hr
    have hs := update_pixels_same_frame sqrtf RAND_MAX fuel _ _ hu
    have hf : s1.frame_num = st.frame_num :=
      same_frame_frame_num (setup_camera sqrtf st) s1 hs
    have hc : s1.sample_count = st.sample_count :=
      same_frame_sample_count (setup_camera sqrtf st) s1 hs
    exact ⟨by simp only [hf], hc⟩

/-- Operations other than `reset`, from a state with `frame_num <= sample_count`
in which the number of `render` calls is exactly what is missing: the run
ends with `frame_num = sample_count`. -/
theorem run_reaches_sample_count (sqrtf cos sin : F → F) (RAND_MAX fuel : ℕ) :
    ∀ (ops : List (op F)) (st st' : intern_t F),
      (∀ o ∈ ops, op.is_reset o = false) →
      st.frame_num + (ops.countP op.is_render : ℤ) = st.sample_count →
      run sqrtf cos sin RAND_MAX fuel ops st = some st' →
      st'.frame_num = st.sample_count ∧ st'.sample_count = st.sample_count := by
  intro ops
  induction ops with
  | nil =>
    intro st st' _ hc hr
    simp only [run, List.foldlM_nil, Option.pure_def, Option.some.injEq] at hr
    subst hr
    simp only [List.countP_nil, Nat.cast_zero, add_zero] at hc
    exact ⟨hc, rfl⟩
  | cons o rest ih =>
    intro st st' hnr hc hr
    have hrest : ∀ o ∈ rest, op.is_reset o = false :=
      fun o ho => hnr o (List.mem_cons_of_mem _ ho)
    simp only [run, List.foldlM_cons, Option.bind_eq_bind] at hr
    cases o with
    | render =>
      have hcount : (List.countP op.is_render (op.render :: rest) : ℤ) =
          (List.countP op.is_render rest : ℤ) + 1 := by
        simp [List.countP_cons, op.is_render]
      rw [hcount] at hc
      have hlt : st.frame_num < st.sample_count := by
        have : (0 : ℤ) ≤ (List.countP op.is_render rest : ℤ) := Int.natCast_nonneg _
        omega
      cases hs : step sqrtf cos sin RAND_MAX fuel st op.render with
      | none => rw [hs] at hr; simp at hr
      | some s1 =>
        rw [hs] at hr
        obtain ⟨hf, hsc⟩ := render_active sqrtf RAND_MAX fuel st s1 hlt hs
        have := ih s1 st' hrest (by rw [hf, hsc]; omega) hr
        rw [hsc] at this
        exact this
    | reset =>
      have := hnr op.reset (List.mem_cons_self _ _)
      simp [op.is_reset] at this
    | look x y =>
      have hcount : (List.countP op.is_render (op.look x y :: rest) : ℤ) =
          (List.countP op.is_render rest : ℤ) := by
        simp [List.countP_cons, op.is_render]
      rw [hcount] at hc
      exact ih (move_camera cos sin st x y) st' hrest hc hr
    | move f r dt =>
      have hcount : (List.countP op.is_render (op.move f r dt :: rest) : ℤ) =
          (List.countP op.is_render rest : ℤ) := by
        simp [List.countP_cons, op.is_render]
      rw [hcount] at hc
      exact ih (tick_move st f r dt) st' hrest hc hr

/-- Operations other than `reset`, from a state with `sample_count <= frame_num`:
the run returns, and the two buffers, `frame_num` and the generator state are
what they were. -/
theorem run_saturated (sqrtf cos sin : F → F) (RAND_MAX fuel : ℕ) :
    ∀ (ops : List (op F)) (st : intern_t F),
      (∀ o ∈ ops, op.is_reset o = false) →
      st.sample_count ≤ st.frame_num →
      ∃ st', run sqrtf cos sin RAND_MAX fuel ops st = some st' ∧
        st'.pixels = st.pixels ∧ st'.pixels_f = st.pixels_f ∧
        st'.frame_num = st.frame_num ∧ st'.g_seed = st.g_seed ∧
        st'.sample_count = st.sample_count := by
  intro ops
  induction ops with
  | nil =>
    intro st _ _
    exact ⟨st, rfl, rfl, rfl, rfl, rfl, rfl⟩
  | cons o rest ih =>
    intro st hnr hsat
    have hrest : ∀ o ∈ rest, op.is_reset o = false :=
      fun o ho => hnr o (List.mem_cons_of_mem _ ho)
    simp only [run, List.foldlM_cons, Option.bind_eq_bind]
    cases o with
    | render =>
      simp only [step, render_saturated sqrtf RAND_MAX fuel st hsat, Option.some_bind]
      exact ih (setup_camera sqrtf st) hrest hsat
    | reset =>
      have := hnr op.reset (List.mem_cons_self _ _)
      simp [op.is_reset] at this
    | look x y =>
      simp only [step, Option.some_bind]
      exact ih (move_camera cos sin st x y) hrest hsat
    | move f r dt =>
      simp only [step, Option.some_bind]
      exact ih (tick_move st f r dt) hrest hsat

/-- C10.  From a state with `frame_num = 0` (the state after `setup` or after a
reset), once a sequence of operations without reset that holds exactly
`sample_count` `render` calls has run, every further sequence of operations
without reset (further `render` calls, camera moves in between) returns and
leaves the display buffer `pixels`, the accumulation buffer `pixels_f`,
`frame_num` and the generator state unchanged. -/
theorem render_after_sample_count (sqrtf cos sin : F → F) (RAND_MAX fuel : ℕ)
    (st0 st1 : intern_t F) (ops more : List (op F))
    (h0 : st0.frame_num = 0)
    (hnr : ∀ o ∈ ops, op.is_reset o = false)
    (hcount : (ops.countP op.is_render : ℤ) = st0.sample_count)
    (hrun : run sqrtf cos sin RAND_MAX fuel ops st0 = some st1)
    (hmore : ∀ o ∈ more, op.is_reset o = false) :
    ∃ st2, run sqrtf cos sin RAND_MAX fuel more st1 = some st2 ∧
      st2.pixels = st1.pixels ∧ st2.pixels_f = st1.pixels_f ∧
      st2.frame_num = st1.frame_num ∧ st2.g_seed = st1.g_seed := by
  obtain ⟨hf, hsc⟩ := run_reaches_sample_count sqrtf cos sin RAND_MAX fuel ops st0 st1 hnr
    (by rw [h0, zero_add]; exact hcount) hrun
  obtain ⟨st2, hr, hp, hpf, hfn, hg, _⟩ :=
    run_saturated sqrtf cos sin RAND_MAX fuel more st1 hmore (by rw [hf, hsc])
  exact ⟨st2, hr, hp, hpf, hfn, hg⟩

/-- On the empty scene the loop body of `update_pixels` returns. -/
theorem update_pixel_empty_scene (sqrtf : F → F) (RAND_MAX fuel : ℕ) (st : intern_t F)
    (x y : ℤ) (h : st.sphere_list = []) :
    ∃ st', update_pixel sqrtf RAND_MAX fuel st x y = some st' ∧ st'.sphere_list = [] := by
  obtain ⟨⟨c, g⟩, hp⟩ := trace_pixel_empty_scene sqrtf RAND_MAX fuel st x y h
  unfold update_pixel
  rw [hp]
  exact ⟨_, rfl, h⟩

/-- On the empty scene `render` returns. -/
theorem render_empty_scene (sqrtf : F → F) (RAND_MAX fuel : ℕ) (st : intern_t F)
    (h : st.sphere_list = []) :
    ∃ st', render sqrtf RAND_MAX fuel st = some st' ∧ st'.sphere_list = [] := by
  have hu : ∃ s1, update_pixels sqrtf RAND_MAX fuel (setup_camera sqrtf st) = some s1 ∧
      s1.sphere_list = [] := by
    unfold update_pixels
    refine foldlM_returns (fun s => s.sphere_list = []) _ ?_ _ _ h
    intro s x hs
    refine foldlM_returns (fun s => s.sphere_list = []) _ ?_ _ _ hs
    intro s2 y hs2
    exact update_pixel_empty_scene sqrtf RAND_MAX fuel s2 _ _ hs2
  obtain ⟨s1, hs1, hl⟩ := hu
  unfold render
  by_cases hlt : (setup_camera sqrtf st).frame_num < (setup_camera sqrtf st).sample_count
  · simp only [if_pos hlt, hs1]
    exact ⟨_, rfl, hl⟩
  · simp only [if_neg hlt]
    exact ⟨_, rfl, h⟩

/-- C10 (witness).  A buffer of one pixel over the empty scene with
`sample_count = 2`: after two `render` calls, with a camera displacement in
between, two more `render` calls change neither buffer, nor `frame_num`, nor
the generator state. -/
theorem render_after_sample_count_witness :
    ∃ st1 st2 : intern_t ℚ,
      run Rat.sqrt (fun _ => 1) (fun _ => 0) 32767 0
        [op.render, op.move 1 0 (1 / 60), op.render]
        { (intern_zero : intern_t ℚ) with
          pixels := [0, 0, 0], pixels_f := [0, 0, 0], width := 1, height := 1,
          sample_count := 2, sample_weight := 1 / 2, camera_dir := ⟨0, 0, 1⟩ } = some st1 ∧
      run Rat.sqrt (fun _ => 1) (fun _ => 0) 32767 0 [op.render, op.render] st1 = some st2 ∧
      st2.pixels = st1.pixels ∧ st2.pixels_f = st1.pixels_f ∧
      st2.frame_num = st1.frame_num ∧ st2.g_seed = st1.g_seed := by
  obtain ⟨sa, ha, hla⟩ := render_empty_scene Rat.sqrt 32767 0
    { (intern_zero : intern_t ℚ) with
      pixels := [0, 0, 0], pixels_f := [0, 0, 0], width := 1, height := 1,
      sample_count := 2, sample_weight := 1 / 2, camera_dir := ⟨0, 0, 1⟩ } rfl
  obtain ⟨sb, hb, _⟩ := render_empty_scene Rat.sqrt 32767 0 (tick_move sa 1 0 (1 / 60)) hla
  have hrun : run Rat.sqrt (fun _ => 1) (fun _ => 0) 32767 0
      [op.render, op.move 1 0 (1 / 60), op.render]
      { (intern_zero : intern_t ℚ) with
        pixels := [0, 0, 0], pixels_f := [0, 0, 0], width := 1, height := 1,
        sample_count := 2, sample_weight := 1 / 2, camera_dir := ⟨0, 0, 1⟩ } = some sb := by
    simp only [run, List.foldlM_cons, List.foldlM_nil, step, ha, hb, Option.bind_eq_bind,
      Option.some_bind, Option.pure_def]
  obtain ⟨st2, h2, hp, hpf, hfn, hg⟩ := render_after_sample_count Rat.sqrt (fun _ => 1)
    (fun _ => 0) 32767 0 _ sb [op.render, op.move 1 0 (1 / 60), op.render]
    [op.render, op.render] rfl (by simp [op.is_reset]) (by simp [op.is_render, intern_zero])
    hrun (by simp [op.is_reset])
  exact ⟨sb, st2, hrun, h2, hp, hpf, hfn, hg⟩

end FrameDriver

section Bounce
variable {F : Type} [LinearOrderedField F]

/-- With an exact square root, `glm_vec3_normalize` returns the zero vector or
a vector of unit length. -/
theorem glm_vec3_normalize_zero_or_unit (sqrtf : F → F) (v : vec3 F)
    (h : is_sqrt sqrtf (glm_vec3_norm2 v)) :
    glm_vec3_normalize sqrtf v = ⟨0, 0, 0⟩ ∨
      glm_vec3_norm2 (glm_vec3_normalize sqrtf v) = 1 := by
  obtain ⟨h0, hh⟩ := h
  by_cases hz : sqrtf (glm_vec3_norm2 v) = 0
  · left
    simp [glm_vec3_normalize, glm_vec3_norm, hz]
  · right
    have hn : glm_vec3_norm2 (glm_vec3_scale v (1 / sqrtf (glm_vec3_norm2 v))) =
        glm_vec3_norm2 v / (sqrtf (glm_vec3_norm2 v) * sqrtf (glm_vec3_norm2 v)) := by
      simp only [glm_vec3_norm2, glm_vec3_dot, glm_vec3_scale]
      field_simp
    simp only [glm_vec3_normalize, glm_vec3_norm, if_neg hz]
    rw [hn, hh]
    refine div_self ?_
    intro h2
    exact hz (mul_self_eq_zero.mp (hh.trans h2))

/-- The function `reflect` keeps the squared length when the normal is of unit
length. -/
theorem reflect_norm2 (v n : vec3 F) (hn : glm_vec3_norm2 n = 1) :
    glm_vec3_norm2 (reflect v n) = glm_vec3_norm2 v := by
  simp only [glm_vec3_norm2, glm_vec3_dot] at hn
  simp only [reflect, glm_vec3_norm2, glm_vec3_dot, glm_vec3_sub, glm_vec3_scale]
  linear_combination (4 * (v.x * n.x + v.y * n.y + v.z * n.z) ^ 2) * hn

/-- For a ray of unit direction and a positive discriminant with an exact
square root, the value of `intersect_sphere` is a point of the ray on the
sphere. -/
theorem intersect_sphere_on_sphere (sqrtf : F → F) (s : sphere_t F) (r : ray_t F)
    (hunit : glm_vec3_norm2 r.dir = 1) (hpos : 0 < quad_det s r)
    (hs : is_sqrt sqrtf (quad_det s r)) :
    on_sphere s (ray_at r (intersect_sphere sqrtf s r)) := by
  obtain ⟨_, hh⟩ := hs
  rw [intersect_sphere_eq, if_neg (not_le.mpr hpos), hunit]
  generalize sqrtf (quad_det s r) = S at hh
  simp only [quad_det, hunit] at hh
  simp only [glm_vec3_norm2, glm_vec3_dot] at hunit
  simp only [glm_vec3_norm2, glm_vec3_dot, glm_vec3_sub] at hh
  simp only [on_sphere, ray_at, glm_vec3_muladds, glm_vec3_norm2, glm_vec3_dot, glm_vec3_sub]
  linear_combination (1 / 4 : F) * hh +
    (((-(2 * ((r.x.x - s.x.x) * r.dir.x + (r.x.y - s.x.y) * r.dir.y + (r.x.z - s.x.z) * r.dir.z))
      - S) / 2) ^ 2) * hunit

/-- At a point of the sphere the normal computed by `trace` is of unit length,
the radius being non-zero. -/
theorem trace_normal_unit (s : sphere_t F) (r : ray_t F) (t : F) (hr : s.r ≠ 0)
    (h : on_sphere s (ray_at r t)) : glm_vec3_norm2 (trace_normal s r t) = 1 := by
  have h2 : glm_vec3_norm2 (trace_normal s r t) =
      glm_vec3_norm2 (glm_vec3_sub (ray_at r t) s.x) / (s.r * s.r) := by
    simp only [trace_normal, trace_hit, ray_at, glm_vec3_norm2, glm_vec3_dot, glm_vec3_scale]
    field_simp
  rw [h2, h]
  exact div_self (mul_ne_zero hr hr)

/-- A squared length is not negative. -/
theorem glm_vec3_norm2_nonneg (v : vec3 F) : 0 ≤ glm_vec3_norm2 v := by
  simp only [glm_vec3_norm2, glm_vec3_dot]
  nlinarith [mul_self_nonneg v.x, mul_self_nonneg v.y, mul_self_nonneg v.z]

/-- With an exact square root, the direction that `lambertian` returns is of
unit length or the zero vector. -/
theorem lambertian_zero_or_unit (sqrtf : F → F) (RAND_MAX : ℕ) (hs : sqrt_exact sqrtf) :
    ∀ (fuel g : ℕ) (normal d : vec3 F) (g' : ℕ),
      lambertian sqrtf RAND_MAX fuel g normal = some (d, g') →
      d = ⟨0, 0, 0⟩ ∨ glm_vec3_norm2 d = 1 := by
  intro fuel
  induction fuel with
  | zero =>
    intro g normal d g' h
    simp [lambertian] at h
  | succ fuel ih =>
    intro g normal d g' h
    simp only [lambertian] at h
    by_cases hc : glm_vec3_norm2 (sample_cube RAND_MAX g : vec3 F × ℕ).1 > 1
    · rw [if_pos hc] at h
      exact ih _ normal d g' h
    · rw [if_neg hc] at h
      simp only [Option.some.injEq, Prod.mk.injEq] at h
      obtain ⟨hd, _⟩ := h
      rw [← hd]
      exact glm_vec3_normalize_zero_or_unit sqrtf _ (hs _ (glm_vec3_norm2_nonneg _))

/-- The mirror branch of `trace`: for a ray of unit direction that
`hit_spheres` reports on index 0, the sphere having a non-zero radius and the
square root being exact at its discriminant, the reflected ray handed to the
recursive call has a direction of unit length, and the generator state is
untouched. -/
theorem trace_incoming_mirror_unit (sqrtf : F → F) (RAND_MAX fuel : ℕ)
    (l : List (sphere_t F)) (r : ray_t F) (g : ℕ) (t : F)
    (hunit : glm_vec3_norm2 r.dir = 1)
    (hit : hit_spheres sqrtf l r = some (0, t))
    (hrad : ∀ s ∈ l, s.r ≠ 0)
    (hs : ∀ s ∈ l, 0 < quad_det s r → is_sqrt sqrtf (quad_det s r)) :
    ∃ ir, trace_incoming sqrtf RAND_MAX fuel l r g 0 t = some (ir, g) ∧
      glm_vec3_norm2 ir.dir = 1 := by
  obtain ⟨si, hsi, ht, hpos, _, _, _⟩ := hit_spheres_some sqrtf l r 0 t hit
  have hmem : si ∈ l := List.getElem?_mem hsi
  have hdet : 0 < quad_det si r := by
    by_contra hneg
    rw [ht, intersect_sphere_eq, if_pos (not_lt.mp hneg)] at hpos
    exact lt_irrefl _ hpos
  have hon : on_sphere si (ray_at r t) := by
    rw [ht]
    exact intersect_sphere_on_sphere sqrtf si r hunit hdet (hs si hmem hdet)
  have hget : l.getD 0 ⟨⟨0, 0, 0⟩, 0⟩ = si := by
    cases l with
    | nil => simp at hsi
    | cons a rest =>
      simp only [List.getElem?_cons_zero, Option.some.injEq] at hsi
      simp [hsi]
  refine ⟨⟨trace_hit r t, reflect r.dir (trace_normal si r t)⟩, ?_, ?_⟩
  · simp only [trace_incoming, if_true, hget]
  · rw [reflect_norm2 _ _ (trace_normal_unit si r t (hrad si hmem) hon)]
    exact hunit

end Bounce

section Generator

variable {F : Type} [LinearOrderedField F]

/-- The value that `fast_rand` returns is the state shifted and masked: at
most 32767. -/
theorem fast_rand_le (g_seed : ℕ) : (fast_rand g_seed).1 ≤ 32767 := by
  simp only [fast_rand]
  exact Nat.and_le_right

/-- C15.  For every generator state, `fast_rand` updates the state to
`(214013 * state + 2531011) mod 2^32`, a 32-bit value, and returns an integer
of `[0, 32767]`; `rand_float` makes the same state update and returns that
integer divided by `RAND_MAX + 1`, a value `v` with `0 <= v < 1`, for every
`RAND_MAX >= 32767`. -/
theorem rand_float_range (RAND_MAX g_seed : ℕ) (hR : 32767 ≤ RAND_MAX) :
    (fast_rand g_seed).2 = (214013 * g_seed + 2531011) % 2 ^ 32 ∧
    (fast_rand g_seed).2 < 2 ^ 32 ∧
    (fast_rand g_seed).1 ≤ 32767 ∧
    (rand_float RAND_MAX g_seed : F × ℕ).2 = (fast_rand g_seed).2 ∧
    (rand_float RAND_MAX g_seed : F × ℕ).1 =
      ((fast_rand g_seed).1 : F) / ((RAND_MAX : F) + 1) ∧
    0 ≤ (rand_float RAND_MAX g_seed : F × ℕ).1 ∧
    (rand_float RAND_MAX g_seed : F × ℕ).1 < 1 := by
  have hk := fast_rand_le g_seed
  have hpos : (0 : F) < (RAND_MAX : F) + 1 := by positivity
  refine ⟨rfl, ?_, hk, rfl, rfl, ?_, ?_⟩
  · simp only [fast_rand]
    exact Nat.mod_lt _ (by norm_num)
  · simp only [rand_float]
    exact div_nonneg (Nat.cast_nonneg _) (le_of_lt hpos)
  · simp only [rand_float]
    rw [div_lt_one hpos]
    have h1 : ((fast_rand g_seed).1 : F) ≤ (RAND_MAX : F) := by
      exact_mod_cast le_trans hk hR
    linarith

/-- C15 (witness).  With `RAND_MAX = 32767` and the state 215111597 the draw
is 16384 and the value is `1 / 2`; the new state is 3221261244. -/
theorem rand_float_range_witness :
    fast_rand 215111597 = (16384, 3221261244) ∧
    (rand_float 32767 215111597 : ℚ × ℕ) = (1 / 2, 3221261244) ∧
    (0 : ℚ) ≤ (rand_float 32767 215111597 : ℚ × ℕ).1 ∧
    (rand_float 32767 215111597 : ℚ × ℕ).1 < 1 := by
  have h1 : fast_rand 215111597 = (16384, 3221261244) := by decide
  have h := @rand_float_range ℚ _ 32767 215111597 (le_refl _)
  refine ⟨h1, ?_, h.2.2.2.2.2.1, h.2.2.2.2.2.2⟩
  simp only [rand_float, h1]
  norm_num

end Generator

section BufferIndex

/-- Two pixels of the image that share a buffer cell are the same pixel, and
the cell is the same channel. -/
theorem pixel_index_inj (width x y x' y' c c' : ℤ)
    (hx : 0 ≤ x ∧ x < width) (hx' : 0 ≤ x' ∧ x' < width)
    (hc : 0 ≤ c ∧ c < 3) (hc' : 0 ≤ c' ∧ c' < 3)
    (h : pixel_index width x y + c = pixel_index width x' y' + c') :
    x = x' ∧ y = y' ∧ c = c' := by
  simp only [pixel_index] at h
  have hcc : c = c' := by omega
  have hlin : y * width + x = y' * width + x' := by omega
  have hy : y = y' := by
    by_contra hne
    rcases lt_or_gt_of_ne hne with hlt | hgt
    · have : (y' - y) * width ≥ 1 * width :=
        mul_le_mul_of_nonneg_right (by omega) (by omega)
      nlinarith
    · have : (y - y') * width ≥ 1 * width :=
        mul_le_mul_of_nonneg_right (by omega) (by omega)
      nlinarith
  subst hy
  exact ⟨by omega, rfl, hcc⟩

/-- The cells of a pixel of the image lie inside the buffer, and so do the
intermediate values of the index computation. -/
theorem pixel_index_bounds (width height x y : ℤ)
    (hx : 0 ≤ x ∧ x < width) (hy : 0 ≤ y ∧ y < height) :
    0 ≤ y * width ∧ y * width + x < width * height ∧
    0 ≤ pixel_index width x y ∧ pixel_index width x y + 2 < width * height * 3 := by
  have h1 : 0 ≤ y * width := mul_nonneg hy.1 (by omega)
  have h2 : (y + 1) * width ≤ height * width :=
    mul_le_mul_of_nonneg_right (by omega) (by omega)
  have h3 : y * width + x < width * height := by nlinarith
  simp only [pixel_index]
  refine ⟨h1, h3, by omega, by omega⟩

/-- C16.  For every width and height above 0 and every pixel `(x, y)` of the
image, the three cells `i`, `i + 1`, `i + 2` with `i = (y * width + x) * 3` lie
in `[0, width * height * 3)` (and so does every intermediate value of the
computation of `i`), and a cell shared by two pixels of the image makes them
the same pixel and the same channel. -/
theorem pixel_cells_in_bounds_and_disjoint (width height x y : ℤ)
    (_hw : 0 < width) (_hh : 0 < height)
    (hx : 0 ≤ x ∧ x < width) (hy : 0 ≤ y ∧ y < height) :
    (0 ≤ y * width ∧ y * width + x < width * height) ∧
    (∀ c : ℤ, 0 ≤ c → c < 3 →
      0 ≤ pixel_index width x y + c ∧ pixel_index width x y + c < width * height * 3) ∧
    (∀ x' y' c c' : ℤ, 0 ≤ x' → x' < width → 0 ≤ y' → y' < height →
      0 ≤ c → c < 3 → 0 ≤ c' → c' < 3 →
      pixel_index width x y + c = pixel_index width x' y' + c' →
      x = x' ∧ y = y' ∧ c = c') := by
  obtain ⟨h1, h2, h3, h4⟩ := pixel_index_bounds width height x y hx hy
  refine ⟨⟨h1, h2⟩, ?_, ?_⟩
  · intro c hc0 hc3
    constructor <;> omega
  · intro x' y' c c' hx0 hx1 _ _ hc0 hc3 hc0' hc3' h
    exact pixel_index_inj width x y x' y' c c' hx ⟨hx0, hx1⟩ ⟨hc0, hc3⟩ ⟨hc0', hc3'⟩ h

/-- C16 (witness).  The last pixel `(511, 511)` of the 512 by 512 image:
its cells are 786429, 786430 and 786431, below `512 * 512 * 3 = 786432`. -/
theorem pixel_cells_in_bounds_and_disjoint_witness :
    pixel_index 512 511 511 = 786429 ∧
    (∀ c : ℤ, 0 ≤ c → c < 3 →
      0 ≤ pixel_index 512 511 511 + c ∧ pixel_index 512 511 511 + c < 512 * 512 * 3) :=
  ⟨by decide,
   (pixel_cells_in_bounds_and_disjoint 512 512 511 511 (by decide) (by decide)
      ⟨by decide, by decide⟩ ⟨by decide, by decide⟩).2.1⟩

end BufferIndex

section Reset

variable {F : Type} [LinearOrderedField F]

/-- The cells of the two buffers after the loop of `reset_pixels` has run over
the indices of `l`: a cell whose index is in `l` holds 0, every other cell is
what it was. -/
theorem reset_pixels_loop_cells (l : List ℕ) :
    ∀ (st : intern_t F) (i : ℕ),
      (l.foldl (fun st i =>
          { st with pixels := st.pixels.set i 0, pixels_f := st.pixels_f.set i 0 }) st).pixels_f[i]?
        = (if i ∈ l then (st.pixels_f[i]?).map (fun _ => 0) else st.pixels_f[i]?) ∧
      (l.foldl (fun st i =>
          { st with pixels := st.pixels.set i 0, pixels_f := st.pixels_f.set i 0 }) st).pixels[i]?
        = (if i ∈ l then (st.pixels[i]?).map (fun _ => 0) else st.pixels[i]?) := by
  induction l with
  | nil => intro st i; simp
  | cons a rest ih =>
    intro st i
    rw [List.foldl_cons]
    obtain ⟨h1, h2⟩ := ih { st with pixels := st.pixels.set a 0, pixels_f := st.pixels_f.set a 0 } i
    rw [h1, h2]
    simp only [List.getElem?_set, List.mem_cons]
    by_cases hai : a = i
    · subst hai
      by_cases hr : a ∈ rest
      · constructor
        · by_cases hl : a < st.pixels_f.length
          · simp [hr, hl]
          · simp [hr, hl, List.getElem?_eq_none (not_lt.mp hl)]
        · by_cases hl : a < st.pixels.length
          · simp [hr, hl]
          · simp [hr, hl, List.getElem?_eq_none (not_lt.mp hl)]
      · constructor
        · by_cases hl : a < st.pixels_f.length
          · simp [hr, hl]
          · simp [hr, hl, List.getElem?_eq_none (not_lt.mp hl)]
        · by_cases hl : a < st.pixels.length
          · simp [hr, hl]
          · simp [hr, hl, List.getElem?_eq_none (not_lt.mp hl)]
    · have hia : ¬ i = a := fun h => hai h.symm
      simp [hai, hia]

/-- The cells of the two buffers after `reset_pixels`. -/
theorem reset_pixels_cells (st : intern_t F) (i : ℕ) :
    (reset_pixels st).pixels_f[i]? =
      (if i < (st.width * st.height * 3).toNat then (st.pixels_f[i]?).map (fun _ => 0)
        else st.pixels_f[i]?) ∧
    (reset_pixels st).pixels[i]? =
      (if i < (st.width * st.height * 3).toNat then (st.pixels[i]?).map (fun _ => 0)
        else st.pixels[i]?) := by
  have h := reset_pixels_loop_cells (List.range (st.width * st.height * 3).toNat) st i
  simp only [List.mem_range] at h
  simp only [reset_pixels]
  exact h

/-- The lengths of the two buffers after `reset_pixels`. -/
theorem reset_pixels_lengths (st : intern_t F) :
    (reset_pixels st).pixels_f.length = st.pixels_f.length ∧
    (reset_pixels st).pixels.length = st.pixels.length := by
  constructor
  · apply Nat.le_antisymm
    · by_contra hlt
      have hi := (reset_pixels_cells st st.pixels_f.length).1
      have hnone : st.pixels_f[st.pixels_f.length]? = none := List.getElem?_eq_none (le_refl _)
      rw [hnone] at hi
      simp only [Option.map_none', ite_self] at hi
      have := List.getElem?_eq_none_iff.mp hi
      omega
    · by_contra hlt
      have hi := (reset_pixels_cells st (reset_pixels st).pixels_f.length).1
      rw [List.getElem?_eq_none (le_refl _)] at hi
      have hsome : ∃ v, st.pixels_f[(reset_pixels st).pixels_f.length]? = some v :=
        ⟨_, List.getElem?_eq_getElem (by omega)⟩
      obtain ⟨v, hv⟩ := hsome
      rw [hv] at hi
      by_cases hc : (reset_pixels st).pixels_f.length < (st.width * st.height * 3).toNat
      · simp [hc] at hi
      · simp [hc] at hi
  · apply Nat.le_antisymm
    · by_contra hlt
      have hi := (reset_pixels_cells st st.pixels.length).2
      have hnone : st.pixels[st.pixels.length]? = none := List.getElem?_eq_none (le_refl _)
      rw [hnone] at hi
      simp only [Option.map_none', ite_self] at hi
      have := List.getElem?_eq_none_iff.mp hi
      omega
    · by_contra hlt
      have hi := (reset_pixels_cells st (reset_pixels st).pixels.length).2
      rw [List.getElem?_eq_none (le_refl _)] at hi
      have hsome : ∃ v, st.pixels[(reset_pixels st).pixels.length]? = some v :=
        ⟨_, List.getElem?_eq_getElem (by omega)⟩
      obtain ⟨v, hv⟩ := hsome
      rw [hv] at hi
      by_cases hc : (reset_pixels st).pixels.length < (st.width * st.height * 3).toNat
      · simp [hc] at hi
      · simp [hc] at hi

/-- The function `reset_pixels` leaves the image size alone. -/
theorem reset_pixels_size (st : intern_t F) :
    (reset_pixels st).width = st.width ∧ (reset_pixels st).height = st.height := by
  obtain ⟨px, pf, h⟩ := reset_pixels_fields st
  rw [h]
  exact ⟨rfl, rfl⟩

/-- After `reset_pixels` a cell below `width * height * 3` that the buffer has
holds 0, in the accumulation buffer and in the display buffer. -/
theorem reset_pixels_zero_cells (st : intern_t F) (i : ℕ)
    (hi : i < (st.width * st.height * 3).toNat) :
    (i < st.pixels_f.length → (reset_pixels st).pixels_f[i]? = some 0) ∧
    (i < st.pixels.length → (reset_pixels st).pixels[i]? = some 0) := by
  constructor
  · intro hl
    rw [(reset_pixels_cells st i).1, if_pos hi, List.getElem?_eq_getElem hl]
    rfl
  · intro hl
    rw [(reset_pixels_cells st i).2, if_pos hi, List.getElem?_eq_getElem hl]
    rfl

/-- C13.  For every prior state, after `reset_pixels` every cell of the
accumulation buffer and of the display buffer below `width * height * 3` holds
0 (a buffer of exactly that length is all zeros), the lengths are kept,
`frame_num` is 0, a second `reset_pixels` changes nothing, and every other
field of the state (camera, scene, generator state) is what it was. -/
theorem reset_pixels_zeroes (st : intern_t F) :
    (∀ i : ℕ, i < (st.width * st.height * 3).toNat → i < st.pixels_f.length →
      (reset_pixels st).pixels_f[i]? = some 0) ∧
    (∀ i : ℕ, i < (st.width * st.height * 3).toNat → i < st.pixels.length →
      (reset_pixels st).pixels[i]? = some 0) ∧
    (st.pixels_f.length = (st.width * st.height * 3).toNat →
      (reset_pixels st).pixels_f = List.replicate (st.width * st.height * 3).toNat 0) ∧
    (st.pixels.length = (st.width * st.height * 3).toNat →
      (reset_pixels st).pixels = List.replicate (st.width * st.height * 3).toNat 0) ∧
    (reset_pixels st).pixels_f.length = st.pixels_f.length ∧
    (reset_pixels st).pixels.length = st.pixels.length ∧
    (reset_pixels st).frame_num = 0 ∧
    reset_pixels (reset_pixels st) = reset_pixels st ∧
    reset_pixels st =
      { st with pixels := (reset_pixels st).pixels, pixels_f := (reset_pixels st).pixels_f,
                frame_num := 0 } := by
  have hcellf : ∀ i : ℕ, i < (st.width * st.height * 3).toNat → i < st.pixels_f.length →
      (reset_pixels st).pixels_f[i]? = some 0 := by
    intro i hi hl
    rw [(reset_pixels_cells st i).1, if_pos hi, List.getElem?_eq_getElem hl]
    rfl
  have hcellp : ∀ i : ℕ, i < (st.width * st.height * 3).toNat → i < st.pixels.length →
      (reset_pixels st).pixels[i]? = some 0 := by
    intro i hi hl
    rw [(reset_pixels_cells st i).2, if_pos hi, List.getElem?_eq_getElem hl]
    rfl
  obtain ⟨hlf, hlp⟩ := reset_pixels_lengths st
  have hshape : reset_pixels st =
      { st with pixels := (reset_pixels st).pixels, pixels_f := (reset_pixels st).pixels_f,
                frame_num := 0 } := by
    obtain ⟨px, pf, h⟩ := reset_pixels_fields st
    rw [h]
  refine ⟨hcellf, hcellp, ?_, ?_, hlf, hlp, reset_pixels_frame_num st, ?_, hshape⟩
  · intro hlen
    apply List.ext_getElem?
    intro i
    by_cases hi : i < (st.width * st.height * 3).toNat
    · rw [hcellf i hi (by omega), List.getElem?_replicate, if_pos hi]
    · rw [List.getElem?_replicate, if_neg hi]
      exact List.getElem?_eq_none (by omega)
  · intro hlen
    apply List.ext_getElem?
    intro i
    by_cases hi : i < (st.width * st.height * 3).toNat
    · rw [hcellp i hi (by omega), List.getElem?_replicate, if_pos hi]
    · rw [List.getElem?_replicate, if_neg hi]
      exact List.getElem?_eq_none (by omega)
  · obtain ⟨hw, hh⟩ := reset_pixels_size st
    have hpf : (reset_pixels (reset_pixels st)).pixels_f = (reset_pixels st).pixels_f := by
      apply List.ext_getElem?
      intro i
      rw [(reset_pixels_cells (reset_pixels st) i).1, hw, hh, (reset_pixels_cells st i).1]
      by_cases hi : i < (st.width * st.height * 3).toNat
      · simp only [if_pos hi, Option.map_map]
        rfl
      · simp only [if_neg hi]
    have hpx : (reset_pixels (reset_pixels st)).pixels = (reset_pixels st).pixels := by
      apply List.ext_getElem?
      intro i
      rw [(reset_pixels_cells (reset_pixels st) i).2, hw, hh, (reset_pixels_cells st i).2]
      by_cases hi : i < (st.width * st.height * 3).toNat
      · simp only [if_pos hi, Option.map_map]
        rfl
      · simp only [if_neg hi]
    obtain ⟨px, pf, h⟩ := reset_pixels_fields (reset_pixels st)
    have h1 : px = (reset_pixels (reset_pixels st)).pixels := by rw [h]
    have h2 : pf = (reset_pixels (reset_pixels st)).pixels_f := by rw [h]
    rw [h, h1, h2, hpf, hpx]
    have hf := reset_pixels_frame_num st
    generalize reset_pixels st = r at hf ⊢
    cases r
    simp only at hf
    subst hf
    rfl

end Reset

section CameraSetup

variable {F : Type} [LinearOrderedField F]

/-- The function `setup` never writes `camera_right_dir`: it is still the zero
vector of static storage. -/
theorem setup_camera_right_dir (sqrtf tanf : F → F) (GLM_PI : F) :
    (setup sqrtf tanf GLM_PI).camera_right_dir = ⟨0, 0, 0⟩ := by
  have hr : ∀ st : intern_t F, (reset_pixels st).camera_right_dir = st.camera_right_dir := by
    intro st
    obtain ⟨px, pf, h⟩ := reset_pixels_fields st
    rw [h]
  simp only [setup, hr, setup_spheres, setup_camera, intern_zero]

/-- With a zero right direction and no forward movement, the displacement of
`tick` leaves the camera position where it is. -/
theorem tick_move_right_zero (st : intern_t F) (right tick_step : F)
    (h : st.camera_right_dir = ⟨0, 0, 0⟩) :
    (tick_move st 0 right tick_step).camera_pos = st.camera_pos := by
  simp only [tick_move, h, glm_vec3_muladds]
  simp

end CameraSetup

section CameraRight

variable {F : Type} [LinearOrderedField F] [FloorRing F]

/-- A `render` call that returns leaves the camera directions alone. -/
theorem render_camera_dirs (sqrtf : F → F) (RAND_MAX fuel : ℕ) (st st' : intern_t F)
    (h : render sqrtf RAND_MAX fuel st = some st') :
    st'.camera_dir = st.camera_dir ∧ st'.camera_right_dir = st.camera_right_dir := by
  unfold render at h
  by_cases hlt : (setup_camera sqrtf st).frame_num < (setup_camera sqrtf st).sample_count
  · rw [if_pos hlt] at h
    cases hu : update_pixels sqrtf RAND_MAX fuel (setup_camera sqrtf st) with
    | none => rw [hu] at h; simp at h
    | some s1 =>
      rw [hu] at h
      simp only [Option.some.injEq] at h
      subst h
      have hs := update_pixels_same_frame sqrtf RAND_MAX fuel _ _ hu
      unfold same_frame at hs
      constructor
      · show s1.camera_dir = st.camera_dir
        rw [hs]
        rfl
      · show s1.camera_right_dir = st.camera_right_dir
        rw [hs]
        rfl
  · rw [if_neg hlt] at h
    simp only [Option.some.injEq] at h
    subst h
    exact ⟨rfl, rfl⟩

/-- Every operation of the main loop keeps `camera_right_dir = camera_dir x up`,
and `move_camera` establishes it. -/
theorem step_right_dir (sqrtf cos sin : F → F) (RAND_MAX fuel : ℕ) (st st' : intern_t F)
    (o : op F) (h : step sqrtf cos sin RAND_MAX fuel st o = some st') :
    (st.camera_right_dir = glm_vec3_cross st.camera_dir ⟨0, 1, 0⟩ →
      st'.camera_right_dir = glm_vec3_cross st'.camera_dir ⟨0, 1, 0⟩) ∧
    ((∃ x y, o = op.look x y) →
      st'.camera_right_dir = glm_vec3_cross st'.camera_dir ⟨0, 1, 0⟩) := by
  cases o with
  | render =>
    obtain ⟨h1, h2⟩ := render_camera_dirs sqrtf RAND_MAX fuel st st' h
    refine ⟨fun hinv => by rw [h1, h2]; exact hinv, ?_⟩
    rintro ⟨x, y, hxy⟩
    cases hxy
  | reset =>
    simp only [step, Option.some.injEq] at h
    subst h
    obtain ⟨px, pf, hr⟩ := reset_pixels_fields st
    refine ⟨fun hinv => by rw [hr]; exact hinv, ?_⟩
    rintro ⟨x, y, hxy⟩
    cases hxy
  | look x y =>
    simp only [step, Option.some.injEq] at h
    subst h
    exact ⟨fun _ => rfl, fun _ => rfl⟩
  | move f r dt =>
    simp only [step, Option.some.injEq] at h
    subst h
    refine ⟨fun hinv => hinv, ?_⟩
    rintro ⟨x, y, hxy⟩
    cases hxy

/-- After a run of the main loop that holds at least one `move_camera` call,
the stored right direction is the cross product of the stored direction and
world-up, whatever the state the run started from. -/
theorem run_right_dir_after_look (sqrtf cos sin : F → F) (RAND_MAX fuel : ℕ) :
    ∀ (ops : List (op F)) (st st' : intern_t F),
      run sqrtf cos sin RAND_MAX fuel ops st = some st' →
      (st.camera_right_dir = glm_vec3_cross st.camera_dir ⟨0, 1, 0⟩ ∨
        ∃ o ∈ ops, ∃ x y, o = op.look x y) →
      st'.camera_right_dir = glm_vec3_cross st'.camera_dir ⟨0, 1, 0⟩ := by
  intro ops
  induction ops with
  | nil =>
    intro st st' h hor
    simp only [run, List.foldlM_nil, Option.pure_def, Option.some.injEq] at h
    subst h
    rcases hor with h1 | ⟨o, ho, _⟩
    · exact h1
    · simp at ho
  | cons o rest ih =>
    intro st st' h hor
    simp only [run, List.foldlM_cons, Option.bind_eq_bind] at h
    cases hs : step sqrtf cos sin RAND_MAX fuel st o with
    | none => rw [hs] at h; simp at h
    | some s1 =>
      rw [hs] at h
      obtain ⟨hkeep, hlook⟩ := step_right_dir sqrtf cos sin RAND_MAX fuel st s1 o hs
      refine ih s1 st' h ?_
      rcases hor with h1 | ⟨o', ho', hx⟩
      · exact Or.inl (hkeep h1)
      · rcases List.mem_cons.mp ho' with heq | hmem
        · subst heq
          exact Or.inl (hlook hx)
        · exact Or.inr ⟨o', hmem, hx⟩

/-- C14 (the state right after `setup`).  The camera direction is `(0, 0, 1)`,
whose cross product with world-up is `(-1, 0, 0)`, and the stored right
direction is `(0, 0, 0)`: `setup` sets `camera_dir` and never computes
`camera_right_dir`.  A movement to the right with step `1 / 60` leaves the
camera position where it was. -/
theorem setup_right_dir_is_not_cross :
    (setup Rat.sqrt (fun x => x) (22 / 7)).camera_dir = ⟨0, 0, 1⟩ ∧
    glm_vec3_cross (setup Rat.sqrt (fun x => x) (22 / 7)).camera_dir ⟨0, 1, 0⟩ = ⟨-1, 0, 0⟩ ∧
    (setup Rat.sqrt (fun x => x) (22 / 7)).camera_right_dir = ⟨0, 0, 0⟩ ∧
    (tick_move (setup Rat.sqrt (fun x => x) (22 / 7)) 0 1 (1 / 60)).camera_pos =
      (setup Rat.sqrt (fun x => x) (22 / 7)).camera_pos := by
  have hdir : (setup Rat.sqrt (fun x => x) (22 / 7)).camera_dir = ⟨0, 0, 1⟩ := by
    rw [setup_camera_dir]
    norm_num [glm_vec3_normalize, glm_vec3_norm, glm_vec3_scale, glm_vec3_sub, glm_vec3_norm2,
      glm_vec3_dot]
  have hright := setup_camera_right_dir Rat.sqrt (fun x => x) (22 / 7 : ℚ)
  refine ⟨hdir, ?_, hright, ?_⟩
  · rw [hdir]
    norm_num [glm_vec3_cross]
  · exact tick_move_right_zero _ 1 (1 / 60) hright

end CameraRight

section Leaving

variable {F : Type} [LinearOrderedField F]

/-- The square root of the real numbers is exact. -/
theorem sqrt_exact_real : sqrt_exact Real.sqrt :=
  fun x hx => ⟨Real.sqrt_nonneg x, Real.mul_self_sqrt hx⟩

/-- A ray that does not head toward the centre of a sphere gets a value of
`intersect_sphere` that is not positive, wherever it starts and whatever the
length of its direction, as long as `sqrtf` returns no negative number at a
positive discriminant. -/
theorem intersect_sphere_leaving (sqrtf : F → F) (s : sphere_t F) (p d : vec3 F)
    (hout : 0 ≤ glm_vec3_dot d (glm_vec3_sub p s.x))
    (hs : 0 < quad_det s ⟨p, d⟩ → 0 ≤ sqrtf (quad_det s ⟨p, d⟩)) :
    intersect_sphere sqrtf s ⟨p, d⟩ ≤ 0 := by
  rw [intersect_sphere_eq]
  by_cases hdet : quad_det s ⟨p, d⟩ ≤ 0
  · rw [if_pos hdet]
  · rw [if_neg hdet]
    have hb : glm_vec3_dot (glm_vec3_sub p s.x) d = glm_vec3_dot d (glm_vec3_sub p s.x) := by
      simp only [glm_vec3_dot]
      ring
    have ha : 0 ≤ glm_vec3_norm2 d := glm_vec3_norm2_nonneg d
    simp only [hb]
    have hS := hs (not_le.mp hdet)
    have h1 : (-(2 * glm_vec3_dot d (glm_vec3_sub p s.x)) - sqrtf (quad_det s ⟨p, d⟩)) / 2 ≤ 0 := by
      linarith
    exact mul_nonpos_of_nonpos_of_nonneg h1 ha

/-- The direction that `lambertian` returns is the normalised sum of the
normal and the normalisation of a sampled point of squared length at most
1. -/
theorem lambertian_shape (sqrtf : F → F) (RAND_MAX : ℕ) :
    ∀ (fuel g : ℕ) (normal d : vec3 F) (g' : ℕ),
      lambertian sqrtf RAND_MAX fuel g normal = some (d, g') →
      ∃ p : vec3 F, glm_vec3_norm2 p ≤ 1 ∧
        d = glm_vec3_normalize sqrtf (glm_vec3_add (glm_vec3_normalize sqrtf p) normal) := by
  intro fuel
  induction fuel with
  | zero =>
    intro g normal d g' h
    simp [lambertian] at h
  | succ fuel ih =>
    intro g normal d g' h
    simp only [lambertian] at h
    by_cases hc : glm_vec3_norm2 (sample_cube RAND_MAX g : vec3 F × ℕ).1 > 1
    · rw [if_pos hc] at h
      exact ih _ normal d g' h
    · rw [if_neg hc] at h
      simp only [Option.some.injEq, Prod.mk.injEq] at h
      exact ⟨_, not_lt.mp hc, h.1.symm⟩

/-- The dot product of a normalised vector with `q` has the sign of the dot
product of the vector itself with `q`, when `sqrtf` returns no negative
number. -/
theorem glm_vec3_normalize_dot_nonneg (sqrtf : F → F) (w q : vec3 F)
    (hs : 0 ≤ sqrtf (glm_vec3_norm2 w)) (h : 0 ≤ glm_vec3_dot w q) :
    0 ≤ glm_vec3_dot (glm_vec3_normalize sqrtf w) q := by
  simp only [glm_vec3_normalize, glm_vec3_norm]
  by_cases hz : sqrtf (glm_vec3_norm2 w) = 0
  · rw [if_pos hz]
    simp [glm_vec3_dot]
  · rw [if_neg hz]
    have hpos : 0 < sqrtf (glm_vec3_norm2 w) := lt_of_le_of_ne hs (Ne.symm hz)
    have he : glm_vec3_dot (glm_vec3_scale w (1 / sqrtf (glm_vec3_norm2 w))) q =
        glm_vec3_dot w q / sqrtf (glm_vec3_norm2 w) := by
      simp only [glm_vec3_dot, glm_vec3_scale]
      field_simp
    rw [he]
    exact div_nonneg h (le_of_lt hpos)

/-- At the distance that `intersect_sphere` returns for a ray of unit
direction and a positive discriminant, the ray enters the sphere: its direction
makes a dot product of `-sqrtf det / 2` with the vector from the centre to the
hit point. -/
theorem hit_enters (sqrtf : F → F) (s : sphere_t F) (r : ray_t F)
    (hunit : glm_vec3_norm2 r.dir = 1) (hpos : 0 < quad_det s r) :
    glm_vec3_dot r.dir (glm_vec3_sub (ray_at r (intersect_sphere sqrtf s r)) s.x) =
      -(sqrtf (quad_det s r)) / 2 := by
  rw [intersect_sphere_eq, if_neg (not_le.mpr hpos), hunit]
  simp only [glm_vec3_norm2, glm_vec3_dot] at hunit
  simp only [ray_at, glm_vec3_muladds, glm_vec3_dot, glm_vec3_sub]
  generalize sqrtf (quad_det s r) = S
  linear_combination
    ((-(2 * ((r.x.x - s.x.x) * r.dir.x + (r.x.y - s.x.y) * r.dir.y + (r.x.z - s.x.z) * r.dir.z))
      - S) / 2) * hunit

/-- The reflection about the normal of `trace` at a point of the sphere turns
the dot product with the vector from the centre into its opposite. -/
theorem reflect_dot_outward (s : sphere_t F) (r : ray_t F) (t : F) (hr : s.r ≠ 0)
    (hon : on_sphere s (ray_at r t)) :
    glm_vec3_dot (reflect r.dir (trace_normal s r t)) (glm_vec3_sub (trace_hit r t) s.x) =
      -glm_vec3_dot r.dir (glm_vec3_sub (ray_at r t) s.x) := by
  simp only [on_sphere, glm_vec3_norm2, glm_vec3_dot] at hon
  simp only [reflect, trace_normal, trace_hit, ray_at, glm_vec3_dot, glm_vec3_sub,
    glm_vec3_scale] at hon ⊢
  field_simp
  linear_combination
    (-2 * (r.dir.x * ((glm_vec3_muladds r.dir t r.x).x - s.x.x) +
      r.dir.y * ((glm_vec3_muladds r.dir t r.x).y - s.x.y) +
      r.dir.z * ((glm_vec3_muladds r.dir t r.x).z - s.x.z))) * hon

/-- The sum of the normal and a vector of squared length at most 1 makes a
non-negative dot product with the normal, the normal being of unit length. -/
theorem add_normal_dot_nonneg (u n : vec3 F) (hu : glm_vec3_norm2 u ≤ 1)
    (hn : glm_vec3_norm2 n = 1) : 0 ≤ glm_vec3_dot (glm_vec3_add u n) n := by
  have h := glm_vec3_norm2_nonneg (glm_vec3_add u n)
  simp only [glm_vec3_norm2, glm_vec3_dot, glm_vec3_add] at *
  nlinarith

/-- With an exact square root a normalised vector has a squared length of at
most 1. -/
theorem glm_vec3_normalize_norm2_le (sqrtf : F → F) (v : vec3 F)
    (h : is_sqrt sqrtf (glm_vec3_norm2 v)) :
    glm_vec3_norm2 (glm_vec3_normalize sqrtf v) ≤ 1 := by
  rcases glm_vec3_normalize_zero_or_unit sqrtf v h with h0 | h1
  · rw [h0]
    simp [glm_vec3_norm2, glm_vec3_dot]
  · exact le_of_eq h1

/-- The bounce ray of `trace`.  For a ray of unit direction, a hit `(i, t)`
found by `hit_spheres` on spheres of positive radius and an exact square root,
the ray `incoming_r` starts on the surface of sphere `i`, its direction makes a
non-negative dot product with the vector from the centre to its origin, and
`intersect_sphere` of `incoming_r` against sphere `i` is not positive. -/
theorem trace_incoming_outward (sqrtf : F → F) (RAND_MAX fuel : ℕ)
    (l : List (sphere_t F)) (r : ray_t F) (g : ℕ) (i : ℕ) (t : F) (ir : ray_t F) (g' : ℕ)
    (hs : sqrt_exact sqrtf) (hunit : glm_vec3_norm2 r.dir = 1)
    (hrad : ∀ s ∈ l, 0 < s.r)
    (hit : hit_spheres sqrtf l r = some (i, t))
    (hinc : trace_incoming sqrtf RAND_MAX fuel l r g i t = some (ir, g')) :
    ∃ si, l[i]? = some si ∧ on_sphere si ir.x ∧
      0 ≤ glm_vec3_dot ir.dir (glm_vec3_sub ir.x si.x) ∧
      intersect_sphere sqrtf si ir ≤ 0 := by
  obtain ⟨si, hsi, ht, hpos, _, _, _⟩ := hit_spheres_some sqrtf l r i t hit
  have hmem : si ∈ l := List.getElem?_mem hsi
  have hr : si.r ≠ 0 := ne_of_gt (hrad si hmem)
  have hdet : 0 < quad_det si r := by
    by_contra hneg
    rw [ht, intersect_sphere_eq, if_pos (not_lt.mp hneg)] at hpos
    exact lt_irrefl _ hpos
  have hsq : is_sqrt sqrtf (quad_det si r) := hs _ (le_of_lt hdet)
  have hon : on_sphere si (ray_at r t) := by
    rw [ht]
    exact intersect_sphere_on_sphere sqrtf si r hunit hdet hsq
  have henter : glm_vec3_dot r.dir (glm_vec3_sub (ray_at r t) si.x) ≤ 0 := by
    rw [ht, hit_enters sqrtf si r hunit hdet]
    have := hsq.1
    linarith
  have hget : l.getD i ⟨⟨0, 0, 0⟩, 0⟩ = si := by
    rw [List.getD_eq_getElem?_getD, hsi]
    rfl
  have hnu : glm_vec3_norm2 (trace_normal si r t) = 1 := trace_normal_unit si r t hr hon
  have hq : glm_vec3_sub (trace_hit r t) si.x = glm_vec3_scale (trace_normal si r t) si.r := by
    simp only [trace_normal, glm_vec3_scale, glm_vec3_sub]
    congr 1 <;> field_simp
  have key : ir.x = trace_hit r t ∧
      0 ≤ glm_vec3_dot ir.dir (glm_vec3_sub (trace_hit r t) si.x) := by
    simp only [trace_incoming, hget] at hinc
    by_cases hi0 : i = 0
    · rw [if_pos hi0] at hinc
      simp only [Option.some.injEq, Prod.mk.injEq] at hinc
      obtain ⟨hir, _⟩ := hinc
      rw [← hir]
      refine ⟨rfl, ?_⟩
      rw [reflect_dot_outward si r t hr hon]
      linarith
    · rw [if_neg hi0] at hinc
      cases hl : lambertian sqrtf RAND_MAX fuel g (trace_normal si r t) with
      | none => rw [hl] at hinc; simp at hinc
      | some p =>
        obtain ⟨d, g2⟩ := p
        rw [hl] at hinc
        simp only [Option.some.injEq, Prod.mk.injEq] at hinc
        obtain ⟨hir, _⟩ := hinc
        rw [← hir]
        refine ⟨rfl, ?_⟩
        obtain ⟨pt, hpt, hd⟩ := lambertian_shape sqrtf RAND_MAX fuel g _ d g2 hl
        rw [hd, hq]
        have hu : glm_vec3_norm2 (glm_vec3_normalize sqrtf pt) ≤ 1 :=
          glm_vec3_normalize_norm2_le sqrtf pt (hs _ (glm_vec3_norm2_nonneg _))
        have h1 := add_normal_dot_nonneg _ _ hu hnu
        have h2 : 0 ≤ glm_vec3_dot (glm_vec3_add (glm_vec3_normalize sqrtf pt)
            (trace_normal si r t)) (glm_vec3_scale (trace_normal si r t) si.r) := by
          have he : glm_vec3_dot (glm_vec3_add (glm_vec3_normalize sqrtf pt)
              (trace_normal si r t)) (glm_vec3_scale (trace_normal si r t) si.r) =
              glm_vec3_dot (glm_vec3_add (glm_vec3_normalize sqrtf pt)
                (trace_normal si r t)) (trace_normal si r t) * si.r := by
            simp only [glm_vec3_dot, glm_vec3_scale]
            ring
          rw [he]
          exact mul_nonneg h1 (le_of_lt (hrad si hmem))
        exact glm_vec3_normalize_dot_nonneg sqrtf _ _
          (hs _ (glm_vec3_norm2_nonneg _)).1 h2
  obtain ⟨hx, hdot⟩ := key
  refine ⟨si, hsi, ?_, ?_, ?_⟩
  · rw [hx]
    exact hon
  · rw [hx]
    exact hdot
  · have hir : ir = ⟨ir.x, ir.dir⟩ := rfl
    rw [hir]
    refine intersect_sphere_leaving sqrtf si ir.x ir.dir ?_ ?_
    · rw [hx]
      exact hdot
    · intro hp
      exact (hs _ (le_of_lt hp)).1

/-- C18.  With an exact square root: (1) for every sphere of positive radius,
every point `p` of its surface and every unit direction `d` with
`d . (p - centre) >= 0`, `intersect_sphere` of the ray `(p, d)` against that
sphere is at most 0, and `hit_spheres` never reports an index that holds that
sphere for the ray; (2) for every ray of unit direction and every hit `(i, t)`
that `hit_spheres` finds among spheres of positive radius, the ray
`incoming_r` that `trace` builds (by `reflect` for index 0, by `lambertian`
otherwise) starts on the surface of sphere `i`, satisfies the outward
condition, has a value of `intersect_sphere` against sphere `i` of at most 0,
and `hit_spheres` never reports an index that holds sphere `i` for it. -/
theorem bounce_ray_leaves_sphere (sqrtf : F → F) (hs : sqrt_exact sqrtf) :
    (∀ (s : sphere_t F) (p d : vec3 F), 0 < s.r → on_sphere s p → glm_vec3_norm2 d = 1 →
      0 ≤ glm_vec3_dot d (glm_vec3_sub p s.x) →
      intersect_sphere sqrtf s ⟨p, d⟩ ≤ 0 ∧
      ∀ (l : List (sphere_t F)) (i : ℕ) (t : F),
        hit_spheres sqrtf l ⟨p, d⟩ = some (i, t) → l[i]? ≠ some s) ∧
    (∀ (RAND_MAX fuel : ℕ) (l : List (sphere_t F)) (r : ray_t F) (g i : ℕ) (t : F)
      (ir : ray_t F) (g' : ℕ),
      glm_vec3_norm2 r.dir = 1 → (∀ s ∈ l, 0 < s.r) →
      hit_spheres sqrtf l r = some (i, t) →
      trace_incoming sqrtf RAND_MAX fuel l r g i t = some (ir, g') →
      ∃ si, l[i]? = some si ∧ on_sphere si ir.x ∧
        0 ≤ glm_vec3_dot ir.dir (glm_vec3_sub ir.x si.x) ∧
        intersect_sphere sqrtf si ir ≤ 0 ∧
        ∀ (j : ℕ) (t' : F), hit_spheres sqrtf l ir = some (j, t') → l[j]? ≠ some si) := by
  have never : ∀ (s : sphere_t F) (q : ray_t F), intersect_sphere sqrtf s q ≤ 0 →
      ∀ (l : List (sphere_t F)) (i : ℕ) (t : F),
        hit_spheres sqrtf l q = some (i, t) → l[i]? ≠ some s := by
    intro s q hle l i t hit hsel
    obtain ⟨si, hsi, ht, hpos, _, _, _⟩ := hit_spheres_some sqrtf l q i t hit
    rw [hsel] at hsi
    simp only [Option.some.injEq] at hsi
    subst hsi
    rw [ht] at hpos
    exact absurd hpos (not_lt.mpr hle)
  constructor
  · intro s p d _ _ _ hout
    have hle : intersect_sphere sqrtf s ⟨p, d⟩ ≤ 0 :=
      intersect_sphere_leaving sqrtf s p d hout (fun hp => (hs _ (le_of_lt hp)).1)
    exact ⟨hle, never s ⟨p, d⟩ hle⟩
  · intro RAND_MAX fuel l r g i t ir g' hunit hrad hit hinc
    obtain ⟨si, hsi, hon, hdot, hle⟩ :=
      trace_incoming_outward sqrtf RAND_MAX fuel l r g i t ir g' hs hunit hrad hit hinc
    exact ⟨si, hsi, hon, hdot, hle, never si ir hle l⟩

/-- C18 (witness).  Over the real numbers: the ray from `(0, 0, 10)`, on the
sphere of radius 5 at `(0, 0, 15)`, with the outward unit direction
`(0, 0, -1)` has a value of `intersect_sphere` of at most 0 against that
sphere. -/
theorem bounce_ray_leaves_sphere_witness :
    intersect_sphere Real.sqrt ⟨⟨0, 0, 15⟩, 5⟩ ⟨⟨0, 0, 10⟩, ⟨0, 0, -1⟩⟩ ≤ 0 :=
  ((bounce_ray_leaves_sphere Real.sqrt sqrt_exact_real).1 ⟨⟨0, 0, 15⟩, 5⟩ ⟨0, 0, 10⟩ ⟨0, 0, -1⟩
    (by norm_num)
    (by norm_num [on_sphere, glm_vec3_norm2, glm_vec3_dot, glm_vec3_sub])
    (by norm_num [glm_vec3_norm2, glm_vec3_dot])
    (by norm_num [glm_vec3_dot, glm_vec3_sub])).1

end Leaving

section Resampling

variable {F : Type} [LinearOrderedField F]

/-- With `RAND_MAX + 1 >= 2^18` a coordinate `v * 2 - 1` of the candidate point
lies in `[-1, -3/4)`: its square is above `9 / 16`. -/
theorem rand_coordinate_low (RAND_MAX g : ℕ) (hR : 262143 ≤ RAND_MAX) :
    9 / 16 < ((rand_float RAND_MAX g : F × ℕ).1 * 2 - 1) *
      ((rand_float RAND_MAX g : F × ℕ).1 * 2 - 1) := by
  have hk := fast_rand_le g
  have hpos : (0 : F) < (RAND_MAX : F) + 1 := by positivity
  have hR' : (262144 : F) ≤ (RAND_MAX : F) + 1 := by
    have : ((262143 : ℕ) : F) ≤ (RAND_MAX : F) := by exact_mod_cast hR
    push_cast at this
    linarith
  have hk' : ((fast_rand g).1 : F) ≤ 32767 := by exact_mod_cast hk
  have h0 : (0 : F) ≤ ((fast_rand g).1 : F) := Nat.cast_nonneg _
  have hv : (rand_float RAND_MAX g : F × ℕ).1 < 1 / 8 := by
    simp only [rand_float]
    rw [div_lt_iff₀ hpos]
    linarith
  have hv0 : 0 ≤ (rand_float RAND_MAX g : F × ℕ).1 := by
    simp only [rand_float]
    exact div_nonneg h0 (le_of_lt hpos)
  nlinarith

/-- With `RAND_MAX + 1 >= 2^18` every candidate point of the resampling loops
has a squared length above 1. -/
theorem sample_cube_rejected (RAND_MAX g : ℕ) (hR : 262143 ≤ RAND_MAX) :
    1 < glm_vec3_norm2 (sample_cube RAND_MAX g : vec3 F × ℕ).1 := by
  simp only [sample_cube, glm_vec3_norm2, glm_vec3_dot]
  have h1 := @rand_coordinate_low F _ RAND_MAX g hR
  have h2 := @rand_coordinate_low F _ RAND_MAX (rand_float RAND_MAX g : F × ℕ).2 hR
  have h3 := @rand_coordinate_low F _ RAND_MAX
    (rand_float RAND_MAX (rand_float RAND_MAX g : F × ℕ).2 : F × ℕ).2 hR
  linarith

/-- With `RAND_MAX + 1 >= 2^18` the loop of `lambertian` never exits: no amount
of fuel makes it return. -/
theorem lambertian_never_returns (sqrtf : F → F) (RAND_MAX : ℕ) (hR : 262143 ≤ RAND_MAX) :
    ∀ (fuel g : ℕ) (normal : vec3 F), lambertian sqrtf RAND_MAX fuel g normal = none := by
  intro fuel
  induction fuel with
  | zero => intro g normal; rfl
  | succ fuel ih =>
    intro g normal
    simp only [lambertian]
    rw [if_pos (sample_cube_rejected RAND_MAX g hR)]
    exact ih _ normal

/-- With `RAND_MAX + 1 >= 2^18` the loop of `random_scatter` never exits. -/
theorem random_scatter_never_returns (sqrtf : F → F) (RAND_MAX : ℕ)
    (hR : 262143 ≤ RAND_MAX) :
    ∀ (fuel g : ℕ) (normal : vec3 F), random_scatter sqrtf RAND_MAX fuel g normal = none := by
  intro fuel
  induction fuel with
  | zero => intro g normal; rfl
  | succ fuel ih =>
    intro g normal
    simp only [random_scatter]
    rw [if_pos (sample_cube_rejected RAND_MAX g hR)]
    exact ih _ normal

/-- A hit on a sphere of index other than 0, with budget left: `trace` does
not return when `lambertian` does not. -/
theorem trace_diffuse_none (sqrtf : F → F) (RAND_MAX fuel : ℕ) (l : List (sphere_t F))
    (r : ray_t F) (n : ℤ) (g i : ℕ) (t : F) (h : 0 < n) (hi : i ≠ 0)
    (hh : hit_spheres sqrtf l r = some (i, t))
    (hl : lambertian sqrtf RAND_MAX fuel g (trace_normal (l.getD i ⟨⟨0, 0, 0⟩, 0⟩) r t) = none) :
    trace sqrtf RAND_MAX fuel l r n g = none := by
  rw [trace, if_neg (not_le.mpr h), hh]
  simp only [trace_incoming, if_neg hi, hl]

/-- C19 (the code with the `RAND_MAX` of glibc).  With `RAND_MAX = 2147483647`
every draw of `rand_float` is below `2^-16`, every candidate point has a
squared length above 1, and neither `lambertian` nor `random_scatter` returns,
for any generator state, any normal and any amount of fuel; `trace` of the
ray from `(-6, 3, 10)` with direction `(3/5, -4/5, 0)`, which hits the ground
sphere of the scene of `setup_spheres`, does not return either. -/
theorem resampling_never_exits_glibc (fuel g : ℕ) :
    (∀ normal : vec3 ℚ, lambertian Rat.sqrt 2147483647 fuel g normal = none) ∧
    (∀ normal : vec3 ℚ, random_scatter Rat.sqrt 2147483647 fuel g normal = none) ∧
    hit_spheres Rat.sqrt [⟨⟨0, 0, 15⟩, 5⟩, ⟨⟨0, -105, 10⟩, 100⟩, ⟨⟨8, -3, 10⟩, 2⟩]
      ⟨⟨-6, 3, 10⟩, ⟨3 / 5, -4 / 5, 0⟩⟩ = some (1, 10) ∧
    trace Rat.sqrt 2147483647 fuel [⟨⟨0, 0, 15⟩, 5⟩, ⟨⟨0, -105, 10⟩, 100⟩, ⟨⟨8, -3, 10⟩, 2⟩]
      ⟨⟨-6, 3, 10⟩, ⟨3 / 5, -4 / 5, 0⟩⟩ 4 g = none := by
  have hl := lambertian_never_returns Rat.sqrt 2147483647 (by norm_num) fuel g
  have hr := random_scatter_never_returns Rat.sqrt 2147483647 (by norm_num) fuel g
  have hit : hit_spheres Rat.sqrt [⟨⟨0, 0, 15⟩, 5⟩, ⟨⟨0, -105, 10⟩, 100⟩, ⟨⟨8, -3, 10⟩, 2⟩]
      ⟨⟨-6, 3, 10⟩, ⟨3 / 5, -4 / 5, 0⟩⟩ = some (1, 10) := by
    norm_num [hit_spheres, hit_spheres_loop, intersect_sphere, glm_vec3_sub, glm_vec3_norm2,
      glm_vec3_dot, FLT_MAX]
  exact ⟨hl, hr, hit,
    trace_diffuse_none Rat.sqrt 2147483647 fuel _ _ 4 g 1 10 (by norm_num) (by norm_num) hit
      (hl _)⟩

end Resampling

section Colours

variable {F : Type} [LinearOrderedField F]

/-- A ray whose direction is the zero vector hits nothing. -/
theorem hit_spheres_zero_dir (sqrtf : F → F) (l : List (sphere_t F)) (r : ray_t F)
    (h : r.dir = ⟨0, 0, 0⟩) : hit_spheres sqrtf l r = none := by
  cases hh : hit_spheres sqrtf l r with
  | none => rfl
  | some p =>
    obtain ⟨i, t⟩ := p
    obtain ⟨si, _, ht, hpos, _, _, _⟩ := hit_spheres_some sqrtf l r i t hh
    have hz : intersect_sphere sqrtf si r = 0 := by
      rw [intersect_sphere_eq]
      have hd : quad_det si r = 0 := by
        simp [quad_det, h, glm_vec3_norm2, glm_vec3_dot]
      rw [if_pos (le_of_eq hd)]
    rw [ht, hz] at hpos
    exact absurd hpos (lt_irrefl _)

/-- The sky colour of a ray whose direction is of unit length or zero lies in
`[0, 1]`. -/
theorem trace_sky_in_range (r : ray_t F) (h : unit_or_zero r.dir) :
    color_in_range (trace_sky r) := by
  have hy : r.dir.y * r.dir.y ≤ 1 := by
    rcases h with h1 | h0
    · simp only [glm_vec3_norm2, glm_vec3_dot] at h1
      nlinarith [mul_self_nonneg r.dir.x, mul_self_nonneg r.dir.z]
    · rw [h0]
      norm_num
  have hlo : -1 ≤ r.dir.y := by nlinarith
  have hhi : r.dir.y ≤ 1 := by nlinarith
  simp only [color_in_range, trace_sky]
  refine ⟨⟨?_, ?_⟩, ⟨?_, ?_⟩, ⟨?_, ?_⟩⟩ <;> norm_num <;> linarith

/-- The shape of a `trace` call that found a hit and returned: the bounce ray
was built, the recursive call on it returned, and the colour is the one of the
recursive call, scaled by 0.8 unless the index is 0. -/
theorem trace_hit_cases (sqrtf : F → F) (RAND_MAX fuel : ℕ) (l : List (sphere_t F))
    (r : ray_t F) (n : ℤ) (g i : ℕ) (t : F) (c : color_t F) (g' : ℕ)
    (h : 0 < n) (hh : hit_spheres sqrtf l r = some (i, t))
    (hc : trace sqrtf RAND_MAX fuel l r n g = some (c, g')) :
    ∃ ir g1 c1, trace_incoming sqrtf RAND_MAX fuel l r g i t = some (ir, g1) ∧
      trace sqrtf RAND_MAX fuel l ir (n - 1) g1 = some (c1, g') ∧
      ((i = 0 ∧ c = c1) ∨ (i ≠ 0 ∧ c = ⟨c1.r * 0.8, c1.g * 0.8, c1.b * 0.8⟩)) := by
  rw [trace, if_neg (not_le.mpr h), hh] at hc
  simp only at hc
  cases hinc : trace_incoming sqrtf RAND_MAX fuel l r g i t with
  | none => rw [hinc] at hc; simp at hc
  | some p =>
    obtain ⟨ir, g1⟩ := p
    rw [hinc] at hc
    simp only at hc
    by_cases hi : i = 0
    · rw [if_pos hi] at hc
      exact ⟨ir, g1, c, rfl, hc, Or.inl ⟨hi, rfl⟩⟩
    · rw [if_neg hi] at hc
      cases hrec : trace sqrtf RAND_MAX fuel l ir (n - 1) g1 with
      | none => rw [hrec] at hc; simp at hc
      | some q =>
        obtain ⟨c1, g2⟩ := q
        rw [hrec] at hc
        simp only [Option.some.injEq, Prod.mk.injEq] at hc
        obtain ⟨hc1, hg⟩ := hc
        subst hg
        exact ⟨ir, g1, c1, rfl, hrec, Or.inr ⟨hi, hc1.symm⟩⟩

/-- The direction of the bounce ray of `trace` is of unit length or zero, for a
ray of unit direction, spheres of non-zero radius and an exact square root. -/
theorem trace_incoming_unit_or_zero (sqrtf : F → F) (RAND_MAX fuel : ℕ)
    (l : List (sphere_t F)) (r : ray_t F) (g i : ℕ) (t : F) (ir : ray_t F) (g1 : ℕ)
    (hs : sqrt_exact sqrtf) (hunit : glm_vec3_norm2 r.dir = 1) (hrad : ∀ s ∈ l, s.r ≠ 0)
    (hit : hit_spheres sqrtf l r = some (i, t))
    (hinc : trace_incoming sqrtf RAND_MAX fuel l r g i t = some (ir, g1)) :
    unit_or_zero ir.dir := by
  by_cases hi : i = 0
  · subst hi
    obtain ⟨ir', h1, h2⟩ := trace_incoming_mirror_unit sqrtf RAND_MAX fuel l r g t hunit hit
      hrad (fun s _ hp => hs _ (le_of_lt hp))
    rw [h1] at hinc
    simp only [Option.some.injEq, Prod.mk.injEq] at hinc
    rw [← hinc.1]
    exact Or.inl h2
  · simp only [trace_incoming, if_neg hi] at hinc
    cases hl : lambertian sqrtf RAND_MAX fuel g
        (trace_normal (l.getD i ⟨⟨0, 0, 0⟩, 0⟩) r t) with
    | none => rw [hl] at hinc; simp at hinc
    | some p =>
      obtain ⟨d, g2⟩ := p
      rw [hl] at hinc
      simp only [Option.some.injEq, Prod.mk.injEq] at hinc
      rw [← hinc.1]
      rcases lambertian_zero_or_unit sqrtf RAND_MAX hs fuel g _ d g2 hl with h0 | h1
      · exact Or.inr h0
      · exact Or.inl h1

/-- The colours of `trace`.  With an exact square root and spheres of non-zero
radius, every colour that `trace` returns for a ray whose direction is of unit
length (or zero) has its three channels in `[0, 1]`. -/
theorem trace_in_range (sqrtf : F → F) (RAND_MAX fuel : ℕ) (l : List (sphere_t F))
    (hs : sqrt_exact sqrtf) (hrad : ∀ s ∈ l, s.r ≠ 0) :
    ∀ (k : ℕ) (n : ℤ) (r : ray_t F) (g : ℕ) (c : color_t F) (g' : ℕ),
      n.toNat = k → unit_or_zero r.dir →
      trace sqrtf RAND_MAX fuel l r n g = some (c, g') → color_in_range c := by
  intro k
  induction k with
  | zero =>
    intro n r g c g' hk _ hc
    have hn : n ≤ 0 := Int.toNat_eq_zero.mp hk
    rw [trace_nonpos sqrtf RAND_MAX fuel l r n g hn] at hc
    simp only [Option.some.injEq, Prod.mk.injEq] at hc
    rw [← hc.1]
    simp [color_in_range]
  | succ k ih =>
    intro n r g c g' hk hdir hc
    have hn : 0 < n := by omega
    cases hh : hit_spheres sqrtf l r with
    | none =>
      rw [trace_miss sqrtf RAND_MAX fuel l r n g hn hh] at hc
      simp only [Option.some.injEq, Prod.mk.injEq] at hc
      rw [← hc.1]
      exact trace_sky_in_range r hdir
    | some p =>
      obtain ⟨i, t⟩ := p
      have hunit : glm_vec3_norm2 r.dir = 1 := by
        rcases hdir with h1 | h0
        · exact h1
        · rw [hit_spheres_zero_dir sqrtf l r h0] at hh
          simp at hh
      obtain ⟨ir, g1, c1, hinc, hrec, hcol⟩ :=
        trace_hit_cases sqrtf RAND_MAX fuel l r n g i t c g' hn hh hc
      have hird := trace_incoming_unit_or_zero sqrtf RAND_MAX fuel l r g i t ir g1 hs hunit
        hrad hh hinc
      have hc1 := ih (n - 1) ir g1 c1 g' (by omega) hird hrec
      rcases hcol with ⟨_, he⟩ | ⟨_, he⟩
      · rw [he]
        exact hc1
      · rw [he]
        obtain ⟨⟨a1, a2⟩, ⟨b1, b2⟩, ⟨d1, d2⟩⟩ := hc1
        simp only [color_in_range]
        refine ⟨⟨?_, ?_⟩, ⟨?_, ?_⟩, ⟨?_, ?_⟩⟩ <;> norm_num <;> nlinarith

end Colours

section FrameLists

/-- The pixels of the frame are the pairs inside the image. -/
theorem mem_pixel_list (W H : ℕ) (p : ℕ × ℕ) : p ∈ pixel_list W H ↔ p.1 < W ∧ p.2 < H := by
  obtain ⟨x, y⟩ := p
  simp only [pixel_list, List.mem_flatMap, List.mem_range, List.mem_map, Prod.mk.injEq]
  constructor
  · rintro ⟨a, ha, b, hb, h1, h2⟩
    subst h1; subst h2
    exact ⟨ha, hb⟩
  · rintro ⟨hx, hy⟩
    exact ⟨x, hx, y, hy, rfl, rfl⟩

/-- No pixel occurs twice in the frame. -/
theorem pixel_list_nodup (W H : ℕ) : (pixel_list W H).Nodup := by
  simp only [pixel_list]
  rw [List.nodup_flatMap]
  constructor
  · intro x _
    exact (List.nodup_range H).map (fun a b h => by simpa using h)
  · have hp : List.Pairwise (fun a b : ℕ => a ≠ b) (List.range W) := List.nodup_range W
    refine hp.imp ?_
    intro a b hab
    simp only [Function.onFun, List.Disjoint, List.mem_map, List.mem_range]
    rintro ⟨x, y⟩ ⟨_, _, h1⟩ ⟨_, _, h2⟩
    simp only [Prod.mk.injEq] at h1 h2
    exact hab (h1.1.trans h2.1.symm)

/-- Two cells of pixels of the image coincide only for the same pixel and the
same channel. -/
theorem cell_inj (W x y x' y' c c' : ℕ) (hx : x < W) (hx' : x' < W) (hc : c < 3) (hc' : c' < 3)
    (h : cell W x y + c = cell W x' y' + c') : x = x' ∧ y = y' ∧ c = c' := by
  have hi := pixel_index_inj (W : ℤ) x y x' y' c c' ⟨by omega, by omega⟩ ⟨by omega, by omega⟩
    ⟨by omega, by omega⟩ ⟨by omega, by omega⟩
    (by simp only [pixel_index, cell] at h ⊢; exact_mod_cast h)
  omega

/-- The cells of a pixel of the image lie below `W * H * 3`. -/
theorem cell_lt (W H x y : ℕ) (hx : x < W) (hy : y < H) : cell W x y + 2 < W * H * 3 := by
  have h := (pixel_index_bounds (W : ℤ) (H : ℤ) x y ⟨by omega, by omega⟩ ⟨by omega, by omega⟩).2.2.2
  simp only [pixel_index] at h
  simp only [cell]
  exact_mod_cast h

/-- Every index below `W * H * 3` is a cell of a pixel of the image. -/
theorem cell_surj (W H j : ℕ) (hj : j < W * H * 3) :
    ∃ x y c, x < W ∧ y < H ∧ c < 3 ∧ j = cell W x y + c := by
  have hW : 0 < W := by
    rcases Nat.eq_zero_or_pos W with h | h
    · subst h; simp at hj
    · exact h
  refine ⟨(j / 3) % W, (j / 3) / W, j % 3, Nat.mod_lt _ hW, ?_, Nat.mod_lt _ (by norm_num), ?_⟩
  · rw [Nat.div_lt_iff_lt_mul hW]
    have : j / 3 < W * H := by
      rw [Nat.div_lt_iff_lt_mul (by norm_num)]
      exact hj
    rw [Nat.mul_comm]
    exact this
  · simp only [cell]
    have h1 : (j / 3) / W * W + (j / 3) % W = j / 3 := Nat.div_add_mod' _ _
    rw [h1]
    omega

end FrameLists
section FrameStep

variable {F : Type} [LinearOrderedField F] [FloorRing F]

/-- Reading the cell that `List.set` wrote. -/
theorem getD_set_self {α : Type} (l : List α) (i : ℕ) (a d : α) (h : i < l.length) :
    (l.set i a).getD i d = a := by
  rw [List.getD_eq_getElem?_getD, List.getElem?_set]
  simp [h]

/-- Reading another cell than the one `List.set` wrote. -/
theorem getD_set_of_ne {α : Type} (l : List α) (i j : ℕ) (a d : α) (h : i ≠ j) :
    (l.set i a).getD j d = l.getD j d := by
  rw [List.getD_eq_getElem?_getD, List.getElem?_set, if_neg h, List.getD_eq_getElem?_getD]

/-- The index that `update_pixel` computes is the cell of the pixel. -/
theorem update_index (width : ℤ) (W x y : ℕ) (hW : width = W) :
    (((y : ℤ) * width + (x : ℤ)) * 3).toNat = cell W x y := by
  subst hW
  have : ((y : ℤ) * (W : ℤ) + (x : ℤ)) * 3 = ((cell W x y : ℕ) : ℤ) := by
    simp only [cell]
    push_cast
    ring
  rw [this, Int.toNat_natCast]

/-- One pass of the loop body of `update_pixels`: `trace_pixel` returned a
colour `c`, the three cells of the pixel got `w * c` added and their display
bytes recomputed, and every other cell is what it was. -/
theorem update_at_cells (sqrtf : F → F) (RAND_MAX fuel : ℕ) (st st' : intern_t F)
    (q : ℕ × ℕ) (W : ℕ) (hW : st.width = W)
    (hlenf : cell W q.1 q.2 + 2 < st.pixels_f.length)
    (hlenp : cell W q.1 q.2 + 2 < st.pixels.length)
    (h : update_at sqrtf RAND_MAX fuel st q = some st') :
    ∃ c g, trace_pixel sqrtf RAND_MAX fuel st (q.1 : ℤ) (q.2 : ℤ) = some (c, g) ∧
      same_frame st st' ∧
      st'.pixels_f.length = st.pixels_f.length ∧ st'.pixels.length = st.pixels.length ∧
      (∀ k, k < 3 →
        st'.pixels_f.getD (cell W q.1 q.2 + k) 0 =
          st.pixels_f.getD (cell W q.1 q.2 + k) 0 + st.sample_weight * c.chan k ∧
        st'.pixels.getD (cell W q.1 q.2 + k) 0 =
          Uint8_of_float (st'.pixels_f.getD (cell W q.1 q.2 + k) 0 * 255)) ∧
      (∀ j, (j < cell W q.1 q.2 ∨ cell W q.1 q.2 + 3 ≤ j) →
        st'.pixels_f.getD j 0 = st.pixels_f.getD j 0 ∧
        st'.pixels.getD j 0 = st.pixels.getD j 0) := by
  have hsame := update_pixel_same_frame sqrtf RAND_MAX fuel st st' _ _ h
  unfold update_at update_pixel at h
  cases htp : trace_pixel sqrtf RAND_MAX fuel st (q.1 : ℤ) (q.2 : ℤ) with
  | none => rw [htp] at h; simp at h
  | some p =>
    obtain ⟨c, g⟩ := p
    rw [htp] at h
    simp only [Option.some.injEq] at h
    rw [update_index st.width W q.1 q.2 hW] at h
    generalize cell W q.1 q.2 = i at *
    subst h
    refine ⟨c, g, rfl, hsame, by simp, by simp, ?_, ?_⟩
    · intro k hk
      have hk3 : k = 0 ∨ k = 1 ∨ k = 2 := by omega
      rcases hk3 with h0 | h0 | h0
      · subst h0
        have e : (((st.pixels_f.set (i + 0) (st.pixels_f.getD (i + 0) 0 + st.sample_weight * c.r)).set
            (i + 1) ((st.pixels_f.set (i + 0) (st.pixels_f.getD (i + 0) 0 +
              st.sample_weight * c.r)).getD (i + 1) 0 + st.sample_weight * c.g)).set (i + 2)
            (((st.pixels_f.set (i + 0) (st.pixels_f.getD (i + 0) 0 + st.sample_weight * c.r)).set
              (i + 1) ((st.pixels_f.set (i + 0) (st.pixels_f.getD (i + 0) 0 +
                st.sample_weight * c.r)).getD (i + 1) 0 + st.sample_weight * c.g)).getD (i + 2) 0
              + st.sample_weight * c.b)).getD (i + 0) 0 =
            st.pixels_f.getD (i + 0) 0 + st.sample_weight * c.r := by
          rw [getD_set_of_ne _ _ _ _ _ (by omega), getD_set_of_ne _ _ _ _ _ (by omega),
            getD_set_self _ _ _ _ (by omega)]
        constructor
        · simp only [color_t.chan, if_true]
          exact e
        · simp only
          rw [getD_set_of_ne _ _ _ _ _ (by omega), getD_set_of_ne _ _ _ _ _ (by omega),
            getD_set_self _ _ _ _ (by omega)]
      · subst h0
        constructor
        · simp only [color_t.chan]
          rw [getD_set_of_ne _ _ _ _ _ (by omega), getD_set_self _ _ _ _ (by simp; omega),
            getD_set_of_ne _ _ _ _ _ (by omega)]
          simp
        · simp only
          rw [getD_set_of_ne _ _ _ _ _ (by omega), getD_set_self _ _ _ _ (by simp; omega)]
      · subst h0
        constructor
        · simp only [color_t.chan]
          rw [getD_set_self _ _ _ _ (by simp; omega), getD_set_of_ne _ _ _ _ _ (by omega),
            getD_set_of_ne _ _ _ _ _ (by omega)]
          simp
        · simp only
          rw [getD_set_self _ _ _ _ (by simp; omega)]
    · intro j hj
      constructor
      · simp only
        rw [getD_set_of_ne _ _ _ _ _ (by omega), getD_set_of_ne _ _ _ _ _ (by omega),
          getD_set_of_ne _ _ _ _ _ (by omega)]
      · simp only
        rw [getD_set_of_ne _ _ _ _ _ (by omega), getD_set_of_ne _ _ _ _ _ (by omega),
          getD_set_of_ne _ _ _ _ _ (by omega)]

end FrameStep
section FrameFields

variable {F : Type}

/-- The image width under `same_frame`. -/
theorem same_frame_width (a b : intern_t F) (h : same_frame a b) : b.width = a.width := by
  unfold same_frame at h
  rw [h]

/-- The image height under `same_frame`. -/
theorem same_frame_height (a b : intern_t F) (h : same_frame a b) : b.height = a.height := by
  unfold same_frame at h
  rw [h]

/-- The sample weight under `same_frame`. -/
theorem same_frame_sample_weight (a b : intern_t F) (h : same_frame a b) :
    b.sample_weight = a.sample_weight := by
  unfold same_frame at h
  rw [h]

/-- The cells of a pixel are apart from the cells of every other pixel of the
image. -/
theorem cell_apart (W : ℕ) (p q : ℕ × ℕ) (hp : p.1 < W) (hq : q.1 < W) (hne : p ≠ q)
    (k : ℕ) (hk : k < 3) :
    cell W p.1 p.2 + k < cell W q.1 q.2 ∨ cell W q.1 q.2 + 3 ≤ cell W p.1 p.2 + k := by
  by_contra hcon
  push_neg at hcon
  obtain ⟨h1, h2⟩ := hcon
  have hk' : cell W p.1 p.2 + k - cell W q.1 q.2 < 3 := by omega
  have he : cell W p.1 p.2 + k = cell W q.1 q.2 + (cell W p.1 p.2 + k - cell W q.1 q.2) := by
    omega
  obtain ⟨hx, hy, _⟩ := cell_inj W p.1 p.2 q.1 q.2 k _ hp hq hk hk' he
  exact hne (Prod.ext hx hy)

end FrameFields

section FrameFold

variable {F : Type} [LinearOrderedField F] [FloorRing F]

/-- A pass over pixels of the image, no pixel twice, from a state whose buffers
hold `W * H * 3` cells at least: the state changes in the buffers and the
generator state only; every pixel of the pass got `w * c` added to its three
cells, `c` being the colour `trace_pixel` returned for it, and its display
bytes recomputed from the cells; every other pixel of the image is
untouched. -/
theorem frame_fold (sqrtf : F → F) (RAND_MAX fuel : ℕ) (W H : ℕ) :
    ∀ (L : List (ℕ × ℕ)) (st st' : intern_t F),
      L.Nodup → (∀ q ∈ L, q.1 < W ∧ q.2 < H) → st.width = W →
      W * H * 3 ≤ st.pixels_f.length → W * H * 3 ≤ st.pixels.length →
      L.foldlM (update_at sqrtf RAND_MAX fuel) st = some st' →
      same_frame st st' ∧
      st'.pixels_f.length = st.pixels_f.length ∧ st'.pixels.length = st.pixels.length ∧
      ∀ p : ℕ × ℕ, p.1 < W → p.2 < H →
        (p ∈ L → ∃ c, sample_in sqrtf RAND_MAX fuel L st p = some c ∧
          ∀ k, k < 3 →
            st'.pixels_f.getD (cell W p.1 p.2 + k) 0 =
              st.pixels_f.getD (cell W p.1 p.2 + k) 0 + st.sample_weight * c.chan k ∧
            st'.pixels.getD (cell W p.1 p.2 + k) 0 =
              Uint8_of_float (st'.pixels_f.getD (cell W p.1 p.2 + k) 0 * 255)) ∧
        (p ∉ L → ∀ k, k < 3 →
            st'.pixels_f.getD (cell W p.1 p.2 + k) 0 =
              st.pixels_f.getD (cell W p.1 p.2 + k) 0 ∧
            st'.pixels.getD (cell W p.1 p.2 + k) 0 =
              st.pixels.getD (cell W p.1 p.2 + k) 0) := by
  intro L
  induction L with
  | nil =>
    intro st st' _ _ _ _ _ h
    simp only [List.foldlM_nil, Option.pure_def, Option.some.injEq] at h
    subst h
    refine ⟨same_frame_refl _, rfl, rfl, ?_⟩
    intro p _ _
    exact ⟨fun hm => by simp at hm, fun _ k _ => ⟨rfl, rfl⟩⟩
  | cons q rest ih =>
    intro st st' hnd hrange hW hlf hlp h
    simp only [List.foldlM_cons, Option.bind_eq_bind] at h
    cases hq : update_at sqrtf RAND_MAX fuel st q with
    | none => rw [hq] at h; simp at h
    | some s1 =>
      rw [hq] at h
      simp only [Option.some_bind] at h
      obtain ⟨hqW, hqH⟩ := hrange q (List.mem_cons_self _ _)
      have hcl := cell_lt W H q.1 q.2 hqW hqH
      obtain ⟨c0, g0, htp, hsf1, hl1f, hl1p, hcells, hothers⟩ :=
        update_at_cells sqrtf RAND_MAX fuel st s1 q W hW (by omega) (by omega) hq
      have hW1 : s1.width = W := by rw [same_frame_width st s1 hsf1]; exact hW
      have hw1 : s1.sample_weight = st.sample_weight := same_frame_sample_weight st s1 hsf1
      have hnd' := List.nodup_cons.mp hnd
      obtain ⟨hsf2, hl2f, hl2p, hrest⟩ := ih s1 st' hnd'.2
        (fun q' hq' => hrange q' (List.mem_cons_of_mem _ hq')) hW1 (by omega) (by omega) h
      refine ⟨same_frame_trans _ _ _ hsf1 hsf2, by omega, by omega, ?_⟩
      intro p hpW hpH
      obtain ⟨hin, hout⟩ := hrest p hpW hpH
      by_cases hpq : p = q
      · subst hpq
        have hnot := hout hnd'.1
        constructor
        · intro _
          refine ⟨c0, ?_, ?_⟩
          · simp only [sample_in, if_true, htp, Option.map_some']
          · intro k hk
            obtain ⟨e1, e2⟩ := hnot k hk
            obtain ⟨f1, f2⟩ := hcells k hk
            exact ⟨by rw [e1, f1], by rw [e2, f2, e1]⟩
        · intro hnm
          exact absurd (List.mem_cons_self _ _) hnm
      · have hqp : ¬ q = p := fun e => hpq e.symm
        have hs1 : ∀ k, k < 3 →
            s1.pixels_f.getD (cell W p.1 p.2 + k) 0 = st.pixels_f.getD (cell W p.1 p.2 + k) 0 ∧
            s1.pixels.getD (cell W p.1 p.2 + k) 0 = st.pixels.getD (cell W p.1 p.2 + k) 0 :=
          fun k hk => hothers _ (cell_apart W p q hpW hqW hpq k hk)
        constructor
        · intro hm
          have hmr : p ∈ rest := by
            rcases List.mem_cons.mp hm with e | e
            · exact absurd e hpq
            · exact e
          obtain ⟨c, hc, hck⟩ := hin hmr
          refine ⟨c, ?_, ?_⟩
          · simp only [sample_in, if_neg hqp, hq]
            exact hc
          · intro k hk
            obtain ⟨e1, e2⟩ := hck k hk
            exact ⟨by rw [e1, (hs1 k hk).1, hw1], e2⟩
        · intro hnm
          have hnr : p ∉ rest := fun e => hnm (List.mem_cons_of_mem _ e)
          intro k hk
          obtain ⟨e1, e2⟩ := hout hnr k hk
          exact ⟨by rw [e1, (hs1 k hk).1], by rw [e2, (hs1 k hk).2]⟩

/-- The two nested loops of `update_pixels` over the columns `xs` are one pass
over the pixels of those columns. -/
theorem update_pixels_columns (sqrtf : F → F) (RAND_MAX fuel : ℕ) (H : ℕ) :
    ∀ (xs : List ℕ) (st : intern_t F), st.height.toNat = H →
      (xs.map (fun a : ℕ => (a : ℤ))).foldlM
        (fun st x => ((List.range st.height.toNat).map (fun a : ℕ => (a : ℤ))).foldlM
          (fun st y => update_pixel sqrtf RAND_MAX fuel st x y) st) st =
      (xs.flatMap fun x => (List.range H).map fun y => (x, y)).foldlM
        (update_at sqrtf RAND_MAX fuel) st := by
  intro xs
  induction xs with
  | nil => intro st _; rfl
  | cons x rest ih =>
    intro st hH
    simp only [List.map_cons, List.foldlM_cons, List.flatMap_cons, List.foldlM_append,
      List.foldlM_map, hH]
    have hinner : (List.range H).foldlM
        (fun st (y : ℕ) => update_pixel sqrtf RAND_MAX fuel st (x : ℤ) (y : ℤ)) st =
        (List.range H).foldlM (fun st y => update_at sqrtf RAND_MAX fuel st (x, y)) st := rfl
    rw [hinner]
    cases hs : (List.range H).foldlM
        (fun st y => update_at sqrtf RAND_MAX fuel st (x, y)) st with
    | none => rfl
    | some s =>
      have hsf : same_frame st s :=
        foldlM_keeps same_frame same_frame_refl same_frame_trans _
          (fun a y b hab => update_pixel_same_frame sqrtf RAND_MAX fuel a b _ _ hab) _ st s hs
      have hHs : s.height.toNat = H := by rw [same_frame_height st s hsf]; exact hH
      simp only [Option.bind_eq_bind, Option.some_bind]
      have := ih s hHs
      simp only [List.foldlM_map] at this
      exact this

/-- The function `update_pixels` is one pass over the pixels of the frame. -/
theorem update_pixels_flat (sqrtf : F → F) (RAND_MAX fuel : ℕ) (st : intern_t F) :
    update_pixels sqrtf RAND_MAX fuel st =
      (pixel_list st.width.toNat st.height.toNat).foldlM (update_at sqrtf RAND_MAX fuel) st := by
  unfold update_pixels
  simp only [bind_pure_comp, List.map_eq_map]
  exact update_pixels_columns sqrtf RAND_MAX fuel st.height.toNat (List.range st.width.toNat) st
    rfl

end FrameFold
section FrameColours

variable {F : Type} [LinearOrderedField F]

/-- A channel of a sum of two colours. -/
theorem color_add_chan (a b : color_t F) (k : ℕ) :
    (color_add a b).chan k = a.chan k + b.chan k := by
  simp only [color_t.chan, color_add]
  split_ifs <;> rfl

end FrameColours

section FrameRender

variable {F : Type} [LinearOrderedField F] [FloorRing F]

/-- A `render` call that finds `frame_num < sample_count` and returns: the
frame counter goes up by one, the image size, the sample weight,
`sample_count` and the buffer lengths stay, and every pixel `(x, y)` of the
image got `sample_weight * c` added to its three cells, `c` being the colour
`trace_pixel` returned for it in this frame, with the display bytes recomputed
from the cells. -/
theorem render_effect (sqrtf : F → F) (RAND_MAX fuel : ℕ) (st st' : intern_t F) (W H : ℕ)
    (hW : st.width = W) (hH : st.height = H)
    (hlf : W * H * 3 ≤ st.pixels_f.length) (hlp : W * H * 3 ≤ st.pixels.length)
    (hact : st.frame_num < st.sample_count)
    (hr : render sqrtf RAND_MAX fuel st = some st') :
    st'.frame_num = st.frame_num + 1 ∧ st'.sample_count = st.sample_count ∧
    st'.width = st.width ∧ st'.height = st.height ∧
    st'.sample_weight = st.sample_weight ∧
    st'.pixels_f.length = st.pixels_f.length ∧ st'.pixels.length = st.pixels.length ∧
    ∀ x y : ℕ, x < W → y < H →
      ∃ c, frame_sample sqrtf RAND_MAX fuel st x y = some c ∧
        ∀ k, k < 3 →
          st'.pixels_f.getD (cell W x y + k) 0 =
            st.pixels_f.getD (cell W x y + k) 0 + st.sample_weight * c.chan k ∧
          st'.pixels.getD (cell W x y + k) 0 =
            Uint8_of_float (st'.pixels_f.getD (cell W x y + k) 0 * 255) := by
  obtain ⟨hfn, hsc⟩ := render_active sqrtf RAND_MAX fuel st st' hact hr
  have h2 : (setup_camera sqrtf st).frame_num < (setup_camera sqrtf st).sample_count := hact
  simp only [render, if_pos h2] at hr
  cases hu : update_pixels sqrtf RAND_MAX fuel (setup_camera sqrtf st) with
  | none => rw [hu] at hr; simp at hr
  | some s1 =>
    rw [hu] at hr
    simp only [Option.some.injEq] at hr
    subst hr
    rw [update_pixels_flat] at hu
    have hWt : (setup_camera sqrtf st).width.toNat = W := by
      show st.width.toNat = W
      rw [hW, Int.toNat_natCast]
    have hHt : (setup_camera sqrtf st).height.toNat = H := by
      show st.height.toNat = H
      rw [hH, Int.toNat_natCast]
    rw [hWt, hHt] at hu
    obtain ⟨hsf, hl1, hl2, hcells⟩ := frame_fold sqrtf RAND_MAX fuel W H (pixel_list W H)
      (setup_camera sqrtf st) s1 (pixel_list_nodup W H)
      (fun q hq => (mem_pixel_list W H q).mp hq) hW hlf hlp hu
    refine ⟨hfn, hsc, ?_, ?_, ?_, hl1, hl2, ?_⟩
    · exact same_frame_width (setup_camera sqrtf st) s1 hsf
    · exact same_frame_height (setup_camera sqrtf st) s1 hsf
    · exact same_frame_sample_weight (setup_camera sqrtf st) s1 hsf
    · intro x y hx hy
      obtain ⟨c, hc, hck⟩ := (hcells (x, y) hx hy).1 ((mem_pixel_list W H (x, y)).mpr ⟨hx, hy⟩)
      refine ⟨c, ?_, hck⟩
      simp only [frame_sample, hW, hH, Int.toNat_natCast]
      exact hc

/-- Operations other than `reset` from a state whose buffers hold
`W * H * 3` cells at least: every cell of the pixel `(x, y)` ends as its
starting value plus `sample_weight` times the sum of the colours sampled for
that pixel, and when all the `render` calls of the run fit below
`sample_count` there is one sampled colour for each. -/
theorem run_accumulates (sqrtf cos sin : F → F) (RAND_MAX fuel : ℕ) (W H x y : ℕ)
    (hx : x < W) (hy : y < H) :
    ∀ (ops : List (op F)) (st stk : intern_t F),
      (∀ o ∈ ops, op.is_reset o = false) → st.width = W → st.height = H →
      W * H * 3 ≤ st.pixels_f.length → W * H * 3 ≤ st.pixels.length →
      run sqrtf cos sin RAND_MAX fuel ops st = some stk →
      ∃ cs, samples sqrtf cos sin RAND_MAX fuel x y ops st = some cs ∧
        (∀ k, k < 3 →
          stk.pixels_f.getD (cell W x y + k) 0 =
            st.pixels_f.getD (cell W x y + k) 0 + st.sample_weight * (color_sum cs).chan k) ∧
        (st.frame_num + (ops.countP op.is_render : ℤ) ≤ st.sample_count →
          cs.length = ops.countP op.is_render) := by
  intro ops
  induction ops with
  | nil =>
    intro st stk _ _ _ _ _ hr
    simp only [run, List.foldlM_nil, Option.pure_def, Option.some.injEq] at hr
    subst hr
    refine ⟨[], rfl, ?_, fun _ => rfl⟩
    intro k _
    simp only [color_sum, color_t.chan]
    split_ifs <;> simp
  | cons o rest ih =>
    intro st stk hnr hW hH hlf hlp hr
    have hrest : ∀ o ∈ rest, op.is_reset o = false :=
      fun o ho => hnr o (List.mem_cons_of_mem _ ho)
    simp only [run, List.foldlM_cons, Option.bind_eq_bind] at hr
    cases hs : step sqrtf cos sin RAND_MAX fuel st o with
    | none => rw [hs] at hr; simp at hr
    | some s1 =>
      rw [hs] at hr
      simp only [Option.some_bind] at hr
      cases o with
      | render =>
        have hcount : (List.countP op.is_render (op.render :: rest)) =
            (List.countP op.is_render rest) + 1 := by
          simp [List.countP_cons, op.is_render]
        by_cases hact : st.frame_num < st.sample_count
        · obtain ⟨hfn, hsc, hw1, hh1, hsw, hl1, hl2, hpix⟩ :=
            render_effect sqrtf RAND_MAX fuel st s1 W H hW hH hlf hlp hact hs
          obtain ⟨c, hc, hck⟩ := hpix x y hx hy
          obtain ⟨cs, hcs, hcells, hlen⟩ := ih s1 stk hrest (by rw [hw1]; exact hW)
            (by rw [hh1]; exact hH) (by omega) (by omega) hr
          refine ⟨c :: cs, ?_, ?_, ?_⟩
          · simp only [samples, hs, op.is_render, true_and, if_pos hact, hc, hcs]
          · intro k hk
            rw [(hcells k hk), (hck k hk).1, hsw]
            simp only [color_sum, color_add_chan]
            ring
          · intro hle
            rw [hcount] at hle ⊢
            push_cast at hle
            have := hlen (by rw [hfn, hsc]; omega)
            simp only [List.length_cons, this]
        · have hsat : st.sample_count ≤ st.frame_num := not_lt.mp hact
          simp only [step, render_saturated sqrtf RAND_MAX fuel st hsat, Option.some.injEq] at hs
          subst hs
          obtain ⟨cs, hcs, hcells, hlen⟩ := ih (setup_camera sqrtf st) stk hrest hW hH hlf hlp hr
          refine ⟨cs, ?_, hcells, ?_⟩
          · simp only [samples, step, render_saturated sqrtf RAND_MAX fuel st hsat, op.is_render,
              true_and, if_neg hact]
            exact hcs
          · intro hle
            rw [hcount] at hle
            push_cast at hle
            have : (0 : ℤ) ≤ (List.countP op.is_render rest : ℤ) := Int.natCast_nonneg _
            omega
      | reset =>
        have := hnr op.reset (List.mem_cons_self _ _)
        simp [op.is_reset] at this
      | look a b =>
        simp only [step, Option.some.injEq] at hs
        subst hs
        obtain ⟨cs, hcs, hcells, hlen⟩ := ih (move_camera cos sin st a b) stk hrest hW hH hlf
          hlp hr
        refine ⟨cs, ?_, hcells, ?_⟩
        · simp only [samples, step, op.is_render, Bool.false_eq_true, false_and, if_false]
          exact hcs
        · intro hle
          have hcount : (List.countP op.is_render (op.look a b :: rest)) =
              (List.countP op.is_render rest) := by
            simp [List.countP_cons, op.is_render]
          rw [hcount] at hle ⊢
          exact hlen hle
      | move f r dt =>
        simp only [step, Option.some.injEq] at hs
        subst hs
        obtain ⟨cs, hcs, hcells, hlen⟩ := ih (tick_move st f r dt) stk hrest hW hH hlf hlp hr
        refine ⟨cs, ?_, hcells, ?_⟩
        · simp only [samples, step, op.is_render, Bool.false_eq_true, false_and, if_false]
          exact hcs
        · intro hle
          have hcount : (List.countP op.is_render (op.move f r dt :: rest)) =
              (List.countP op.is_render rest) := by
            simp [List.countP_cons, op.is_render]
          rw [hcount] at hle ⊢
          exact hlen hle

/-- C11.  After a reset, for every pixel `(x, y)` of the image and every
channel `k`, once operations without reset holding at most `sample_count`
`render` calls have run, the accumulator cell holds `sample_weight` times the
sum of the colours `trace_pixel` returned for that pixel, one for each `render`
call; with `sample_weight = 1 / sample_count` and exactly `sample_count` calls
it is the sum divided by `sample_count`, the arithmetic mean of the samples.
The buffers hold `width * height * 3` cells at least. -/
theorem accumulator_weighted_sum (sqrtf cos sin : F → F) (RAND_MAX fuel : ℕ)
    (st stk : intern_t F) (ops : List (op F)) (x y : ℕ)
    (hx : (x : ℤ) < st.width) (hy : (y : ℤ) < st.height)
    (hlf : (st.width * st.height * 3).toNat ≤ st.pixels_f.length)
    (hlp : (st.width * st.height * 3).toNat ≤ st.pixels.length)
    (hnr : ∀ o ∈ ops, op.is_reset o = false)
    (hk : (ops.countP op.is_render : ℤ) ≤ st.sample_count)
    (hrun : run sqrtf cos sin RAND_MAX fuel ops (reset_pixels st) = some stk) :
    ∃ cs, samples sqrtf cos sin RAND_MAX fuel x y ops (reset_pixels st) = some cs ∧
      cs.length = ops.countP op.is_render ∧
      ∀ k, k < 3 →
        stk.pixels_f.getD ((pixel_index st.width x y).toNat + k) 0 =
          st.sample_weight * (color_sum cs).chan k ∧
        (st.sample_weight = 1 / (st.sample_count : F) →
          (ops.countP op.is_render : ℤ) = st.sample_count →
          stk.pixels_f.getD ((pixel_index st.width x y).toNat + k) 0 =
            (color_sum cs).chan k / ((cs.length : ℕ) : F)) := by
  have hWc : st.width = (st.width.toNat : ℤ) := (Int.toNat_of_nonneg (by omega)).symm
  have hHc : st.height = (st.height.toNat : ℤ) := (Int.toNat_of_nonneg (by omega)).symm
  have hxW : x < st.width.toNat := by omega
  have hyH : y < st.height.toNat := by omega
  have hn : (st.width * st.height * 3).toNat = st.width.toNat * st.height.toNat * 3 := by
    conv_lhs => rw [hWc, hHc]
    have : ((st.width.toNat : ℤ) * (st.height.toNat : ℤ) * 3) =
        ((st.width.toNat * st.height.toNat * 3 : ℕ) : ℤ) := by push_cast; ring
    rw [this, Int.toNat_natCast]
  obtain ⟨hlenf, hlenp⟩ := reset_pixels_lengths st
  have hfn := reset_pixels_frame_num st
  obtain ⟨hrw, hrh⟩ := reset_pixels_size st
  have hrsw : (reset_pixels st).sample_weight = st.sample_weight := by
    obtain ⟨px, pf, h⟩ := reset_pixels_fields st
    rw [h]
  have hrsc := reset_pixels_sample_count st
  obtain ⟨cs, hcs, hcells, hlen⟩ := run_accumulates sqrtf cos sin RAND_MAX fuel
    st.width.toNat st.height.toNat x y hxW hyH ops (reset_pixels st) stk hnr
    (by rw [hrw]; exact hWc) (by rw [hrh]; exact hHc) (by rw [hlenf, ← hn]; exact hlf)
    (by rw [hlenp, ← hn]; exact hlp) hrun
  have hlen' : cs.length = ops.countP op.is_render := by
    apply hlen
    rw [hfn, hrsc, zero_add]
    exact hk
  have hidx : (pixel_index st.width x y).toNat = cell st.width.toNat x y := by
    simp only [pixel_index]
    exact update_index st.width st.width.toNat x y hWc
  refine ⟨cs, hcs, hlen', ?_⟩
  intro k hk3
  have hcl := cell_lt st.width.toNat st.height.toNat x y hxW hyH
  have hzero : (reset_pixels st).pixels_f.getD (cell st.width.toNat x y + k) 0 = 0 := by
    rw [List.getD_eq_getElem?_getD,
      (reset_pixels_zero_cells st _ (by omega)).1 (by omega)]
    rfl
  have hval : stk.pixels_f.getD ((pixel_index st.width x y).toNat + k) 0 =
      st.sample_weight * (color_sum cs).chan k := by
    rw [hidx, hcells k hk3, hzero, hrsw, zero_add]
  refine ⟨hval, ?_⟩
  intro hw hcnt
  rw [hval, hw, hlen']
  have hcast : ((List.countP op.is_render ops : ℕ) : F) = (st.sample_count : F) := by
    have : ((List.countP op.is_render ops : ℕ) : ℤ) = st.sample_count := hcnt
    rw [← this]
    push_cast
    rfl
  rw [hcast]
  ring

/-- C11 (witness).  The image of one pixel over the empty scene, with
`sample_count = 2` and `sample_weight = 1 / 2`: after a reset and two `render`
calls there are two sampled colours, and each accumulator cell of the pixel
holds half their sum. -/
theorem accumulator_weighted_sum_witness :
    ∃ (stk : intern_t ℚ) (cs : List (color_t ℚ)),
      run Rat.sqrt (fun _ => 1) (fun _ => 0) 32767 0 [op.render, op.render]
        (reset_pixels one_pixel_state) = some stk ∧
      samples Rat.sqrt (fun _ => 1) (fun _ => 0) 32767 0 0 0 [op.render, op.render]
        (reset_pixels one_pixel_state) = some cs ∧
      cs.length = 2 ∧
      ∀ k, k < 3 → stk.pixels_f.getD (0 + k) 0 = 1 / 2 * (color_sum cs).chan k := by
  have hl : (reset_pixels one_pixel_state).sphere_list = [] := by
    rw [reset_pixels_sphere_list]
    rfl
  obtain ⟨sa, ha, hla⟩ := render_empty_scene Rat.sqrt 32767 0 (reset_pixels one_pixel_state) hl
  obtain ⟨sb, hb, _⟩ := render_empty_scene Rat.sqrt 32767 0 sa hla
  have hrun : run Rat.sqrt (fun _ => 1) (fun _ => 0) 32767 0 [op.render, op.render]
      (reset_pixels one_pixel_state) = some sb := by
    simp only [run, List.foldlM_cons, List.foldlM_nil, step, ha, hb, Option.bind_eq_bind,
      Option.some_bind, Option.pure_def]
  obtain ⟨cs, hcs, hlen, hcells⟩ := accumulator_weighted_sum Rat.sqrt (fun _ => 1) (fun _ => 0)
    32767 0 one_pixel_state sb [op.render, op.render] 0 0 (by decide) (by decide) (by decide)
    (by decide) (by simp [op.is_reset]) (by decide) hrun
  refine ⟨sb, cs, hrun, hcs, hlen, ?_⟩
  intro k hk
  exact (hcells k hk).1

end FrameRender

section CameraMatrix
variable {F : Type} [LinearOrderedField F]

/-- Normalisation gives a vector of unit length when the square root of the
squared length is exact and the vector is not zero. -/
theorem glm_vec3_normalize_unit (sqrtf : F → F) (v : vec3 F)
    (h : is_sqrt sqrtf (glm_vec3_norm2 v)) (hv : glm_vec3_norm2 v ≠ 0) :
    glm_vec3_norm2 (glm_vec3_normalize sqrtf v) = 1 := by
  obtain ⟨_, hh⟩ := h
  have hz : sqrtf (glm_vec3_norm2 v) ≠ 0 := by
    intro h0
    rw [h0] at hh
    exact hv (by linarith)
  simp only [glm_vec3_normalize, glm_vec3_norm, if_neg hz]
  simp only [glm_vec3_norm2, glm_vec3_dot, glm_vec3_scale] at hh hz ⊢
  generalize sqrtf (v.x * v.x + v.y * v.y + v.z * v.z) = n at hh hz
  have e : v.x * (1 / n) * (v.x * (1 / n)) + v.y * (1 / n) * (v.y * (1 / n)) +
      v.z * (1 / n) * (v.z * (1 / n)) =
      (v.x * v.x + v.y * v.y + v.z * v.z) * (1 / n * (1 / n)) := by ring
  rw [e, ← hh]
  field_simp

/-- The camera direction of `setup` when the square root is exact. -/
theorem setup_camera_dir_exact (sqrtf : F → F) (hs : sqrt_exact sqrtf) :
    glm_vec3_normalize sqrtf (glm_vec3_sub (⟨0, 0, 15⟩ : vec3 F) ⟨0, 0, 0⟩) = ⟨0, 0, 1⟩ := by
  have h225 : sqrtf (225 : F) = 15 :=
    is_sqrt_eq sqrtf 225 15 (hs 225 (by norm_num)) (by norm_num) (by norm_num)
  have hn : glm_vec3_norm2 (glm_vec3_sub (⟨0, 0, 15⟩ : vec3 F) ⟨0, 0, 0⟩) = 225 := by
    simp only [glm_vec3_norm2, glm_vec3_dot, glm_vec3_sub]
    norm_num
  simp only [glm_vec3_normalize, glm_vec3_norm, hn, h225]
  simp only [glm_vec3_sub, glm_vec3_scale]
  norm_num

/-- The view matrix of a camera at the origin that looks along `+z`. -/
theorem glm_look_axis (sqrtf : F → F) (hs : sqrt_exact sqrtf) :
    glm_look sqrtf (⟨0, 0, 0⟩ : vec3 F) ⟨0, 0, 1⟩ ⟨0, 1, 0⟩ =
      !![-1, 0, 0, 0; 0, 1, 0, 0; 0, 0, -1, 0; 0, 0, 0, 1] := by
  have h1 : sqrtf (1 : F) = 1 :=
    is_sqrt_eq sqrtf 1 1 (hs 1 (by norm_num)) (by norm_num) (by norm_num)
  have hf : glm_vec3_normalize sqrtf
      (glm_vec3_sub (glm_vec3_add (⟨0, 0, 0⟩ : vec3 F) ⟨0, 0, 1⟩) ⟨0, 0, 0⟩) = ⟨0, 0, 1⟩ := by
    have hn : glm_vec3_norm2
        (glm_vec3_sub (glm_vec3_add (⟨0, 0, 0⟩ : vec3 F) ⟨0, 0, 1⟩) ⟨0, 0, 0⟩) = 1 := by
      simp only [glm_vec3_norm2, glm_vec3_dot, glm_vec3_sub, glm_vec3_add]
      norm_num
    simp only [glm_vec3_normalize, glm_vec3_norm, hn, h1]
    simp only [glm_vec3_sub, glm_vec3_add, glm_vec3_scale]
    norm_num
  have hsd : glm_vec3_normalize sqrtf (glm_vec3_cross (⟨0, 0, 1⟩ : vec3 F) ⟨0, 1, 0⟩) =
      ⟨-1, 0, 0⟩ := by
    have hn : glm_vec3_norm2 (glm_vec3_cross (⟨0, 0, 1⟩ : vec3 F) ⟨0, 1, 0⟩) = 1 := by
      simp only [glm_vec3_norm2, glm_vec3_dot, glm_vec3_cross]
      norm_num
    simp only [glm_vec3_normalize, glm_vec3_norm, hn, h1]
    simp only [glm_vec3_cross, glm_vec3_scale]
    norm_num
  simp only [glm_look, hf, hsd]
  simp only [glm_vec3_cross, glm_vec3_dot]
  norm_num

/-- The matrix of `glm_look_axis` is its own inverse. -/
theorem glm_mat4_inv_axis :
    glm_mat4_inv (!![-1, 0, 0, 0; 0, 1, 0, 0; 0, 0, -1, 0; 0, 0, 0, 1] : mat4 F) =
      !![-1, 0, 0, 0; 0, 1, 0, 0; 0, 0, -1, 0; 0, 0, 0, 1] := by
  have hinv : glm_mat4_inv (!![-1, 0, 0, 0; 0, 1, 0, 0; 0, 0, -1, 0; 0, 0, 0, 1] : mat4 F) =
      (!![-1, 0, 0, 0; 0, 1, 0, 0; 0, 0, -1, 0; 0, 0, 0, 1] : mat4 F)⁻¹ := by
    rw [glm_mat4_inv, Matrix.inv_def, Ring.inverse_eq_inv', one_div]
  rw [hinv]
  apply Matrix.inv_eq_left_inv
  ext i j
  fin_cases i <;> fin_cases j <;>
    simp [Matrix.mul_apply, Fin.sum_univ_four, Matrix.vecHead, Matrix.vecTail]

/-- The block of the inverse view matrix that `ray_from_pixel` applies. -/
theorem glm_mat4_pick3_axis :
    glm_mat4_pick3 (!![-1, 0, 0, 0; 0, 1, 0, 0; 0, 0, -1, 0; 0, 0, 0, 1] : mat4 F) =
      !![-1, 0, 0; 0, 1, 0; 0, 0, -1] := by
  ext i j
  fin_cases i <;> fin_cases j <;> rfl

end CameraMatrix

section InvariantBase

variable {F : Type} [LinearOrderedField F]

/-- The colour of `trace_pixel` lies in `[0, 1]` when the scene has spheres of
non-zero radius, the ray of the pixel has a direction of unit length and the
square root is exact. -/
theorem trace_pixel_in_range (sqrtf : F → F) (RAND_MAX fuel : ℕ) (s : intern_t F) (x y : ℤ)
    (c : color_t F) (g : ℕ) (hs : sqrt_exact sqrtf) (hrad : ∀ sp ∈ s.sphere_list, sp.r ≠ 0)
    (hray : ∀ a b : F, glm_vec3_norm2 (ray_from_pixel sqrtf s a b).dir = 1)
    (h : trace_pixel sqrtf RAND_MAX fuel s x y = some (c, g)) : color_in_range c := by
  unfold trace_pixel at h
  simp only at h
  cases ht : trace sqrtf RAND_MAX fuel s.sphere_list
      (ray_from_pixel sqrtf s ((x : F) + ((rand_float RAND_MAX s.g_seed : F × ℕ).1 - 0.5))
        ((y : F) + ((rand_float RAND_MAX (rand_float RAND_MAX s.g_seed : F × ℕ).2 : F × ℕ).1 - 0.5)))
      4 (rand_float RAND_MAX (rand_float RAND_MAX s.g_seed : F × ℕ).2 : F × ℕ).2 with
  | none => rw [ht] at h; simp at h
  | some p =>
    obtain ⟨sc, g1⟩ := p
    rw [ht] at h
    simp only [Option.some.injEq, Prod.mk.injEq] at h
    have hr := trace_in_range sqrtf RAND_MAX fuel s.sphere_list hs hrad 4 4 _ _ sc g1 rfl
      (Or.inl (hray _ _)) ht
    rw [← h.1]
    simp only [color_in_range] at hr ⊢
    simpa using hr

/-- The ray of a pixel and the scene under `same_frame`. -/
theorem same_frame_ray (sqrtf : F → F) (a b : intern_t F) (h : same_frame a b) (x y : F) :
    ray_from_pixel sqrtf b x y = ray_from_pixel sqrtf a x y ∧ b.sphere_list = a.sphere_list := by
  unfold same_frame at h
  rw [h]
  exact ⟨rfl, rfl⟩

/-- The rays of a `render` call depend on the image size and the camera
position, direction and projection only. -/
theorem same_scene_ray (sqrtf : F → F) (a b : intern_t F) (h : same_scene a b) (x y : F) :
    ray_from_pixel sqrtf (setup_camera sqrtf b) x y =
      ray_from_pixel sqrtf (setup_camera sqrtf a) x y := by
  obtain ⟨h1, h2, _, _, _, h6, h7, h8, h9⟩ := h
  simp only [ray_from_pixel, setup_camera, h1, h2, h6, h7, h8, h9]

/-- A channel of a colour of `[0, 1]` lies in `[0, 1]`. -/
theorem color_in_range_chan (c : color_t F) (h : color_in_range c) (k : ℕ) :
    0 ≤ c.chan k ∧ c.chan k ≤ 1 := by
  obtain ⟨hr, hg, hb⟩ := h
  simp only [color_t.chan]
  split_ifs
  · exact hr
  · exact hg
  · exact hb

/-- The function `reset_pixels` keeps the image size, the sampling parameters,
the scene and the camera. -/
theorem reset_same_scene (st : intern_t F) : same_scene st (reset_pixels st) := by
  obtain ⟨px, pf, h⟩ := reset_pixels_fields st
  rw [h]
  exact ⟨rfl, rfl, rfl, rfl, rfl, rfl, rfl, rfl, rfl⟩

/-- The condition `scene_ok` under `same_scene`. -/
theorem same_scene_scene_ok (sqrtf : F → F) (a b : intern_t F) (h : same_scene a b)
    (ha : scene_ok sqrtf a) : scene_ok sqrtf b := by
  obtain ⟨hrad, hray⟩ := ha
  refine ⟨?_, ?_⟩
  · rw [h.2.2.2.2.1]
    exact hrad
  · intro x y
    rw [same_scene_ray sqrtf a b h x y]
    exact hray x y

end InvariantBase

section Invariant

variable {F : Type} [LinearOrderedField F] [FloorRing F]



/-- A colour sampled during a pass comes from a `trace_pixel` call made in a
state that differs from the starting state in the buffers and the generator
state only. -/
theorem sample_in_source (sqrtf : F → F) (RAND_MAX fuel : ℕ) :
    ∀ (L : List (ℕ × ℕ)) (st : intern_t F) (p : ℕ × ℕ) (c : color_t F),
      sample_in sqrtf RAND_MAX fuel L st p = some c →
      ∃ s g, same_frame st s ∧
        trace_pixel sqrtf RAND_MAX fuel s (p.1 : ℤ) (p.2 : ℤ) = some (c, g) := by
  intro L
  induction L with
  | nil =>
    intro st p c h
    simp [sample_in] at h
  | cons q rest ih =>
    intro st p c h
    simp only [sample_in] at h
    by_cases hq : q = p
    · subst hq
      rw [if_pos rfl] at h
      cases htp : trace_pixel sqrtf RAND_MAX fuel st (q.1 : ℤ) (q.2 : ℤ) with
      | none => rw [htp] at h; simp at h
      | some r =>
        obtain ⟨c', g⟩ := r
        rw [htp] at h
        simp only [Option.map_some', Option.some.injEq] at h
        subst h
        exact ⟨st, g, same_frame_refl st, htp⟩
    · rw [if_neg hq] at h
      cases hu : update_at sqrtf RAND_MAX fuel st q with
      | none => rw [hu] at h; simp at h
      | some s1 =>
        rw [hu] at h
        obtain ⟨s, g, hsf, htp⟩ := ih s1 p c h
        have h1 : same_frame st s1 := update_pixel_same_frame sqrtf RAND_MAX fuel st s1 _ _ hu
        exact ⟨s, g, same_frame_trans _ _ _ h1 hsf, htp⟩

/-- A colour sampled in a `render` call lies in `[0, 1]`. -/
theorem frame_sample_in_range (sqrtf : F → F) (RAND_MAX fuel : ℕ) (st : intern_t F) (x y : ℕ)
    (c : color_t F) (hs : sqrt_exact sqrtf) (hok : scene_ok sqrtf st)
    (h : frame_sample sqrtf RAND_MAX fuel st x y = some c) : color_in_range c := by
  obtain ⟨s, g, hsf, htp⟩ := sample_in_source sqrtf RAND_MAX fuel _ _ _ c h
  obtain ⟨hrad, hray⟩ := hok
  refine trace_pixel_in_range sqrtf RAND_MAX fuel s _ _ c g hs ?_ ?_ htp
  · rw [(same_frame_ray sqrtf _ s hsf 0 0).2]
    exact hrad
  · intro a b
    rw [(same_frame_ray sqrtf _ s hsf a b).1]
    exact hray a b

/-- A `render` call that returns keeps the image size, the sampling
parameters, the scene and the camera. -/
theorem render_same_scene (sqrtf : F → F) (RAND_MAX fuel : ℕ) (st st' : intern_t F)
    (h : render sqrtf RAND_MAX fuel st = some st') : same_scene st st' := by
  unfold render at h
  by_cases hlt : (setup_camera sqrtf st).frame_num < (setup_camera sqrtf st).sample_count
  · rw [if_pos hlt] at h
    cases hu : update_pixels sqrtf RAND_MAX fuel (setup_camera sqrtf st) with
    | none => rw [hu] at h; simp at h
    | some s1 =>
      rw [hu] at h
      simp only [Option.some.injEq] at h
      subst h
      have hsf := update_pixels_same_frame sqrtf RAND_MAX fuel _ _ hu
      unfold same_frame at hsf
      simp only [same_scene]
      rw [hsf]
      exact ⟨rfl, rfl, rfl, rfl, rfl, rfl, rfl, rfl, rfl⟩
  · rw [if_neg hlt] at h
    simp only [Option.some.injEq] at h
    subst h
    exact ⟨rfl, rfl, rfl, rfl, rfl, rfl, rfl, rfl, rfl⟩

/-- The size of the buffers as a product of natural numbers. -/
theorem buffer_size (w h : ℤ) (hw : 0 ≤ w) (hh : 0 ≤ h) :
    (w * h * 3).toNat = w.toNat * h.toNat * 3 := by
  have hWc : w = (w.toNat : ℤ) := (Int.toNat_of_nonneg hw).symm
  have hHc : h = (h.toNat : ℤ) := (Int.toNat_of_nonneg hh).symm
  conv_lhs => rw [hWc, hHc]
  have : ((w.toNat : ℤ) * (h.toNat : ℤ) * 3) = ((w.toNat * h.toNat * 3 : ℕ) : ℤ) := by
    push_cast; ring
  rw [this, Int.toNat_natCast]

/-- The function `reset_pixels` keeps `buffers_ok`. -/
theorem reset_buffers_ok (st : intern_t F) (h : buffers_ok st) : buffers_ok (reset_pixels st) := by
  obtain ⟨hw, hh, hlf, hlp, _, _, hsc, hsw, _⟩ := h
  obtain ⟨hlenf, hlenp⟩ := reset_pixels_lengths st
  have hfn := reset_pixels_frame_num st
  obtain ⟨hrw, hrh, hrsc, hrsw, _⟩ := reset_same_scene st
  refine ⟨by rw [hrw]; exact hw, by rw [hrh]; exact hh, by rw [hlenf, hrw, hrh]; exact hlf,
    by rw [hlenp, hrw, hrh]; exact hlp, by rw [hfn], by rw [hfn, hrsc]; exact le_of_lt hsc,
    by rw [hrsc]; exact hsc, by rw [hrsw, hrsc]; exact hsw, ?_⟩
  intro j hj
  rw [hrw, hrh] at hj
  have h1 : (reset_pixels st).pixels_f.getD j 0 = 0 := by
    rw [List.getD_eq_getElem?_getD, (reset_pixels_zero_cells st j hj).1 (by omega)]
    rfl
  have h2 : (reset_pixels st).pixels.getD j 0 = 0 := by
    rw [List.getD_eq_getElem?_getD, (reset_pixels_zero_cells st j hj).2 (by omega)]
    rfl
  rw [h1, h2, hfn]
  refine ⟨le_refl _, by simp, ?_⟩
  simp [Uint8_of_float]

/-- A `render` call that returns keeps `buffers_ok`, when the scene has
spheres of non-zero radius, the rays of the pixels have directions of unit
length and the square root is exact. -/
theorem render_buffers_ok (sqrtf : F → F) (RAND_MAX fuel : ℕ) (st st' : intern_t F)
    (hs : sqrt_exact sqrtf) (hok : scene_ok sqrtf st) (h : buffers_ok st)
    (hr : render sqrtf RAND_MAX fuel st = some st') : buffers_ok st' := by
  obtain ⟨hw, hh, hlf, hlp, hf0, hfle, hsc, hsw, hcells⟩ := h
  by_cases hact : st.frame_num < st.sample_count
  · have hn := buffer_size st.width st.height hw hh
    obtain ⟨hfn, hsc', hw', hh', hsw', hl1, hl2, hpix⟩ :=
      render_effect sqrtf RAND_MAX fuel st st' st.width.toNat st.height.toNat
        (Int.toNat_of_nonneg hw).symm (Int.toNat_of_nonneg hh).symm (by omega) (by omega) hact hr
    have hwpos : 0 ≤ st.sample_weight := by
      rw [hsw]
      have : (0 : F) < (st.sample_count : F) := by exact_mod_cast hsc
      positivity
    refine ⟨by rw [hw']; exact hw, by rw [hh']; exact hh, by rw [hl1, hw', hh']; exact hlf,
      by rw [hl2, hw', hh']; exact hlp, by omega, by omega, by rw [hsc']; exact hsc,
      by rw [hsw', hsc']; exact hsw, ?_⟩
    intro j hj
    rw [hw', hh', hn] at hj
    obtain ⟨x, y, k, hx, hy, hk, hjk⟩ := cell_surj st.width.toNat st.height.toNat j hj
    obtain ⟨c, hc, hck⟩ := hpix x y hx hy
    obtain ⟨e1, e2⟩ := hck k hk
    obtain ⟨c0, c1⟩ := color_in_range_chan c
      (frame_sample_in_range sqrtf RAND_MAX fuel st x y c hs hok hc) k
    obtain ⟨b0, b1, _⟩ := hcells j (by omega)
    rw [hjk, e2, e1, hfn, hsw', ← hjk]
    refine ⟨?_, ?_, rfl⟩
    · have := mul_nonneg hwpos c0
      linarith
    · have h3 : st.sample_weight * c.chan k ≤ st.sample_weight := by
        have := mul_le_mul_of_nonneg_left c1 hwpos
        linarith
      push_cast
      linarith
  · have hsat : st.sample_count ≤ st.frame_num := not_lt.mp hact
    rw [render_saturated sqrtf RAND_MAX fuel st hsat] at hr
    simp only [Option.some.injEq] at hr
    subst hr
    exact ⟨hw, hh, hlf, hlp, hf0, hfle, hsc, hsw, hcells⟩

/-- A run of `render` and `reset_pixels` calls keeps `buffers_ok` and
`scene_ok`. -/
theorem run_buffers_ok (sqrtf cos sin : F → F) (RAND_MAX fuel : ℕ) (hs : sqrt_exact sqrtf) :
    ∀ (ops : List (op F)) (st st' : intern_t F),
      (∀ o ∈ ops, op.is_frame_op o = true) → scene_ok sqrtf st → buffers_ok st →
      run sqrtf cos sin RAND_MAX fuel ops st = some st' →
      scene_ok sqrtf st' ∧ buffers_ok st' := by
  intro ops
  induction ops with
  | nil =>
    intro st st' _ hok hb hr
    simp only [run, List.foldlM_nil, Option.pure_def, Option.some.injEq] at hr
    subst hr
    exact ⟨hok, hb⟩
  | cons o rest ih =>
    intro st st' hops hok hb hr
    have hrest : ∀ o ∈ rest, op.is_frame_op o = true :=
      fun o ho => hops o (List.mem_cons_of_mem _ ho)
    simp only [run, List.foldlM_cons, Option.bind_eq_bind] at hr
    cases hst : step sqrtf cos sin RAND_MAX fuel st o with
    | none => rw [hst] at hr; simp at hr
    | some s1 =>
      rw [hst] at hr
      simp only [Option.some_bind] at hr
      cases o with
      | render =>
        exact ih s1 st' hrest
          (same_scene_scene_ok sqrtf st s1 (render_same_scene sqrtf RAND_MAX fuel st s1 hst) hok)
          (render_buffers_ok sqrtf RAND_MAX fuel st s1 hs hok hb hst) hr
      | reset =>
        simp only [step, Option.some.injEq] at hst
        subst hst
        exact ih (reset_pixels st) st' hrest
          (same_scene_scene_ok sqrtf st _ (reset_same_scene st) hok) (reset_buffers_ok st hb) hr
      | look a b =>
        have := hops (op.look a b) (List.mem_cons_self _ _)
        simp [op.is_frame_op] at this
      | move f r dt =>
        have := hops (op.move f r dt) (List.mem_cons_self _ _)
        simp [op.is_frame_op] at this

/-- The conversion to a byte of a value of `[0, 256)` is its floor. -/
theorem Uint8_of_float_floor (v : F) (h0 : 0 ≤ v) (h1 : v < 256) :
    ((Uint8_of_float v : ℕ) : ℤ) = ⌊v⌋ := by
  have hf0 : 0 ≤ ⌊v⌋ := Int.floor_nonneg.mpr h0
  have hf1 : ⌊v⌋ < 256 := by
    rw [Int.floor_lt]
    exact_mod_cast h1
  simp only [Uint8_of_float, if_pos h0]
  rw [Int.emod_eq_of_lt hf0 hf1, Int.toNat_of_nonneg hf0]

/-- What `buffers_ok` says of a cell: the accumulator lies in
`[0, frame_num / sample_count]`, a part of `[0, 1]`, its product with 255 has a
floor in `[0, 255]`, and the display byte is that floor. -/
theorem buffers_ok_cell (st : intern_t F) (h : buffers_ok st) (j : ℕ)
    (hj : j < (st.width * st.height * 3).toNat) :
    0 ≤ st.pixels_f.getD j 0 ∧
    st.pixels_f.getD j 0 ≤ (st.frame_num : F) / (st.sample_count : F) ∧
    (st.frame_num : F) / (st.sample_count : F) ≤ 1 ∧
    0 ≤ ⌊st.pixels_f.getD j 0 * 255⌋ ∧ ⌊st.pixels_f.getD j 0 * 255⌋ ≤ 255 ∧
    ((st.pixels.getD j 0 : ℕ) : ℤ) = ⌊st.pixels_f.getD j 0 * 255⌋ ∧
    st.pixels.getD j 0 ≤ 255 := by
  obtain ⟨_, _, _, _, hf0, hfle, hsc, hsw, hcells⟩ := h
  obtain ⟨b0, b1, b2⟩ := hcells j hj
  have hscF : (0 : F) < (st.sample_count : F) := by exact_mod_cast hsc
  have hfF : (st.frame_num : F) ≤ (st.sample_count : F) := by exact_mod_cast hfle
  have hle : st.pixels_f.getD j 0 ≤ (st.frame_num : F) / (st.sample_count : F) := by
    rw [hsw] at b1
    rw [div_eq_mul_one_div]
    exact b1
  have h1 : (st.frame_num : F) / (st.sample_count : F) ≤ 1 := by
    rw [div_le_one hscF]
    exact hfF
  have hv0 : 0 ≤ st.pixels_f.getD j 0 * 255 := by positivity
  have hv1 : st.pixels_f.getD j 0 * 255 ≤ 255 := by linarith
  have hfl0 : 0 ≤ ⌊st.pixels_f.getD j 0 * 255⌋ := Int.floor_nonneg.mpr hv0
  have hfl1 : ⌊st.pixels_f.getD j 0 * 255⌋ ≤ 255 := by
    have hlt : st.pixels_f.getD j 0 * 255 < ((256 : ℤ) : F) := by
      push_cast
      linarith
    have := Int.floor_lt.mpr hlt
    omega
  have hpx : ((st.pixels.getD j 0 : ℕ) : ℤ) = ⌊st.pixels_f.getD j 0 * 255⌋ := by
    rw [b2]
    exact Uint8_of_float_floor _ hv0 (by linarith)
  refine ⟨b0, hle, h1, hfl0, hfl1, hpx, ?_⟩
  omega

end Invariant

section SetupState

variable {F : Type} [LinearOrderedField F]

/-- The state that `setup` leaves is the result of `reset_pixels`, with
`sun_dir` written afterwards, on a state with a 512 by 512 image, 1024 samples
of weight `1 / 1024`, buffers of `width * height * 3` zeros, the camera at the
origin and the near plane at 0.01. -/
theorem setup_shape (sqrtf tanf : F → F) (GLM_PI : F) :
    ∃ (s0 : intern_t F) (sun : vec3 F),
      setup sqrtf tanf GLM_PI = { reset_pixels s0 with sun_dir := sun } ∧
      s0.width = 512 ∧ s0.height = 512 ∧ s0.sample_count = 1024 ∧
      s0.sample_weight = 1 / (s0.sample_count : F) ∧
      s0.pixels_f = List.replicate (s0.width * s0.height * 3).toNat 0 ∧
      s0.pixels = List.replicate (s0.width * s0.height * 3).toNat 0 ∧
      s0.camera_near = 0.01 := by
  unfold setup
  lift_lets
  intro a b c d hh near fovy e f g h i j k l
  exact ⟨k, _, rfl, rfl, rfl, rfl, rfl, rfl, rfl, rfl⟩

/-- The near plane that `setup` leaves. -/
theorem setup_camera_near (sqrtf tanf : F → F) (GLM_PI : F) :
    (setup sqrtf tanf GLM_PI).camera_near = 0.01 := by
  obtain ⟨s0, sun, he, _, _, _, _, _, _, hnear⟩ := setup_shape sqrtf tanf GLM_PI
  rw [he]
  exact (reset_same_scene s0).2.2.2.2.2.2.2.2.trans hnear

/-- The block of the inverse view matrix of `glm_mat4_pick3_axis` keeps the
squared length of a vector. -/
theorem glm_mat3_mulv_axis_norm2 (w : vec3 F) :
    glm_vec3_norm2 (glm_mat3_mulv (!![-1, 0, 0; 0, 1, 0; 0, 0, -1] : mat3 F) w) =
      glm_vec3_norm2 w := by
  simp [glm_vec3_norm2, glm_vec3_dot, glm_mat3_mulv, Matrix.vecHead, Matrix.vecTail]

/-- A camera at the origin that looks along `+z` sends through every pixel a
ray with a direction of unit length, when the near plane is not at 0 and the
square root is exact. -/
theorem ray_from_pixel_axis_unit (sqrtf : F → F) (st : intern_t F) (hs : sqrt_exact sqrtf)
    (hpos : st.camera_pos = ⟨0, 0, 0⟩) (hdir : st.camera_dir = ⟨0, 0, 1⟩)
    (hnear : st.camera_near ≠ 0) (x y : F) :
    glm_vec3_norm2 (ray_from_pixel sqrtf (setup_camera sqrtf st) x y).dir = 1 := by
  have hv : (setup_camera sqrtf st).view3i = !![-1, 0, 0; 0, 1, 0; 0, 0, -1] := by
    simp only [setup_camera, hpos, hdir, glm_look_axis sqrtf hs, glm_mat4_inv_axis,
      glm_mat4_pick3_axis]
  simp only [ray_from_pixel, hv]
  have hw : (setup_camera sqrtf st).width = st.width := rfl
  have hh : (setup_camera sqrtf st).height = st.height := rfl
  have hf : (setup_camera sqrtf st).camera_f = st.camera_f := rfl
  have hn : (setup_camera sqrtf st).camera_near = st.camera_near := rfl
  rw [hw, hh, hf, hn]
  generalize hvdef : (⟨(x - (st.width : F) * 0.5) * st.camera_f,
    -(y - (st.height : F) * 0.5) * st.camera_f, -st.camera_near⟩ : vec3 F) = v
  have hvz : v.z = -st.camera_near := by rw [← hvdef]
  have hpos2 : 0 < glm_vec3_norm2 v := by
    simp only [glm_vec3_norm2, glm_vec3_dot, hvz]
    have : 0 < st.camera_near * st.camera_near := mul_self_pos.mpr hnear
    nlinarith [mul_self_nonneg v.x, mul_self_nonneg v.y]
  exact (glm_mat3_mulv_axis_norm2 _).trans
    (glm_vec3_normalize_unit sqrtf v (hs _ (le_of_lt hpos2)) (ne_of_gt hpos2))

/-- The state that `setup` leaves satisfies `scene_ok` when the square root is
exact. -/
theorem setup_scene_ok (sqrtf tanf : F → F) (GLM_PI : F) (hs : sqrt_exact sqrtf) :
    scene_ok sqrtf (setup sqrtf tanf GLM_PI) := by
  refine ⟨?_, ?_⟩
  · intro s hmem
    rw [setup_sphere_list] at hmem
    simp only [List.mem_cons, List.mem_singleton, List.not_mem_nil, or_false] at hmem
    rcases hmem with h | h | h <;> rw [h] <;> norm_num
  · intro x y
    apply ray_from_pixel_axis_unit sqrtf _ hs (setup_camera_pos sqrtf tanf GLM_PI)
    · rw [setup_camera_dir]
      exact setup_camera_dir_exact sqrtf hs
    · rw [setup_camera_near]
      norm_num

end SetupState

section SetupBuffers

variable {F : Type} [LinearOrderedField F] [FloorRing F]

/-- The condition `buffers_ok` reads the image size, the sampling parameters,
the frame counter and the two buffers only. -/
theorem buffers_ok_congr (a b : intern_t F) (h1 : b.width = a.width) (h2 : b.height = a.height)
    (h3 : b.pixels_f = a.pixels_f) (h4 : b.pixels = a.pixels) (h5 : b.frame_num = a.frame_num)
    (h6 : b.sample_count = a.sample_count) (h7 : b.sample_weight = a.sample_weight)
    (ha : buffers_ok a) : buffers_ok b := by
  unfold buffers_ok at ha ⊢
  rw [h1, h2, h3, h4, h5, h6, h7]
  exact ha

/-- The function `reset_pixels` gives a state with `buffers_ok` from a state
with buffers of `width * height * 3` cells and a sample weight of
`1 / sample_count`. -/
theorem reset_pixels_buffers_ok (st : intern_t F) (hw : 0 ≤ st.width) (hh : 0 ≤ st.height)
    (hlf : st.pixels_f.length = (st.width * st.height * 3).toNat)
    (hlp : st.pixels.length = (st.width * st.height * 3).toNat)
    (hsc : 0 < st.sample_count) (hsw : st.sample_weight = 1 / (st.sample_count : F)) :
    buffers_ok (reset_pixels st) := by
  obtain ⟨hlenf, hlenp⟩ := reset_pixels_lengths st
  have hfn := reset_pixels_frame_num st
  obtain ⟨hrw, hrh, hrsc, hrsw, _⟩ := reset_same_scene st
  refine ⟨by rw [hrw]; exact hw, by rw [hrh]; exact hh, by rw [hlenf, hrw, hrh]; exact hlf,
    by rw [hlenp, hrw, hrh]; exact hlp, by rw [hfn], by rw [hfn, hrsc]; exact le_of_lt hsc,
    by rw [hrsc]; exact hsc, by rw [hrsw, hrsc]; exact hsw, ?_⟩
  intro j hj
  rw [hrw, hrh] at hj
  have h1 : (reset_pixels st).pixels_f.getD j 0 = 0 := by
    rw [List.getD_eq_getElem?_getD, (reset_pixels_zero_cells st j hj).1 (by omega)]
    rfl
  have h2 : (reset_pixels st).pixels.getD j 0 = 0 := by
    rw [List.getD_eq_getElem?_getD, (reset_pixels_zero_cells st j hj).2 (by omega)]
    rfl
  rw [h1, h2, hfn]
  refine ⟨le_refl _, by simp, ?_⟩
  simp [Uint8_of_float]

/-- The state that `setup` leaves satisfies `buffers_ok`. -/
theorem setup_buffers_ok (sqrtf tanf : F → F) (GLM_PI : F) :
    buffers_ok (setup sqrtf tanf GLM_PI) := by
  obtain ⟨s0, sun, he, hw, hh, hsc, hsw, hpf, hp, _⟩ := setup_shape sqrtf tanf GLM_PI
  rw [he]
  refine buffers_ok_congr (reset_pixels s0) _ rfl rfl rfl rfl rfl rfl rfl ?_
  apply reset_pixels_buffers_ok s0
  · rw [hw]; norm_num
  · rw [hh]; norm_num
  · rw [hpf, List.length_replicate]
  · rw [hp, List.length_replicate]
  · rw [hsc]; norm_num
  · exact hsw

end SetupBuffers

section SetupSize

variable {F : Type} [LinearOrderedField F]

/-- The image size that `setup` leaves. -/
theorem setup_size (sqrtf tanf : F → F) (GLM_PI : F) :
    (setup sqrtf tanf GLM_PI).width = 512 ∧ (setup sqrtf tanf GLM_PI).height = 512 := by
  obtain ⟨s0, sun, he, hw, hh, _⟩ := setup_shape sqrtf tanf GLM_PI
  rw [he]
  exact ⟨(reset_pixels_size s0).1.trans hw, (reset_pixels_size s0).2.trans hh⟩

/-- The state of `setup` after a `reset_pixels` call has the cell 0. -/
theorem setup_reset_cell_zero (sqrtf tanf : F → F) (GLM_PI : F) :
    0 < ((reset_pixels (setup sqrtf tanf GLM_PI)).width *
      (reset_pixels (setup sqrtf tanf GLM_PI)).height * 3).toNat := by
  rw [(reset_pixels_size _).1, (reset_pixels_size _).2, (setup_size sqrtf tanf GLM_PI).1,
    (setup_size sqrtf tanf GLM_PI).2]
  norm_num

end SetupSize

section Reachable

variable {F : Type} [LinearOrderedField F] [FloorRing F]

/-- Every state that a run of `render` and `reset_pixels` calls reaches from
the state of `setup` satisfies `buffers_ok`, when the square root is exact. -/
theorem reachable_buffers_ok (sqrtf tanf cos sin : F → F) (GLM_PI : F) (RAND_MAX fuel : ℕ)
    (hs : sqrt_exact sqrtf) (ops : List (op F)) (st : intern_t F)
    (hops : ∀ o ∈ ops, op.is_frame_op o = true)
    (hrun : run sqrtf cos sin RAND_MAX fuel ops (setup sqrtf tanf GLM_PI) = some st) :
    buffers_ok st :=
  (run_buffers_ok sqrtf cos sin RAND_MAX fuel hs ops _ st hops
    (setup_scene_ok sqrtf tanf GLM_PI hs) (setup_buffers_ok sqrtf tanf GLM_PI) hrun).2

/-- The run that consists of one `reset_pixels` call. -/
theorem run_reset (sqrtf cos sin : F → F) (RAND_MAX fuel : ℕ) (st : intern_t F) :
    run sqrtf cos sin RAND_MAX fuel [op.reset] st = some (reset_pixels st) := rfl

/-- C12.  With an exact square root, in every state that a sequence of
`render` and `reset_pixels` calls reaches from the state of `setup`, every
display byte of index below `width * height * 3` is the floor of its
accumulator cell times 255, and it is the value that the conversion of
`update_pixels` gives for that cell. -/
theorem display_byte_is_floor_of_accumulator (sqrtf tanf cos sin : F → F) (GLM_PI : F)
    (RAND_MAX fuel : ℕ) (hs : sqrt_exact sqrtf) (ops : List (op F)) (st : intern_t F)
    (hops : ∀ o ∈ ops, op.is_frame_op o = true)
    (hrun : run sqrtf cos sin RAND_MAX fuel ops (setup sqrtf tanf GLM_PI) = some st) :
    ∀ i : ℕ, i < (st.width * st.height * 3).toNat →
      ((st.pixels.getD i 0 : ℕ) : ℤ) = ⌊st.pixels_f.getD i 0 * 255⌋ ∧
      st.pixels.getD i 0 = Uint8_of_float (st.pixels_f.getD i 0 * 255) := by
  intro i hi
  have hb := reachable_buffers_ok sqrtf tanf cos sin GLM_PI RAND_MAX fuel hs ops st hops hrun
  exact ⟨(buffers_ok_cell st hb i hi).2.2.2.2.2.1, (hb.2.2.2.2.2.2.2.2 i hi).2.2⟩

/-- C17.  With an exact square root, for every scene of spheres of non-zero
radius, every ray with a direction of unit length, every bounce budget and
every generator state, each channel of the colour that `trace` returns lies in
`[0, 1]`; and in every state that a sequence of `render` and `reset_pixels`
calls reaches from the state of `setup` the frame counter lies in
`[0, sample_count]`, each accumulator cell lies in
`[0, frame_num / sample_count]`, a part of `[0, 1]`, the floor of the cell times
255 lies in `[0, 255]`, and the conversion to a byte gives that floor: it does
not wrap around. -/
theorem colours_settle_in_unit_interval (sqrtf tanf cos sin : F → F) (GLM_PI : F)
    (RAND_MAX fuel : ℕ) (hs : sqrt_exact sqrtf) :
    (∀ (sphere_list : List (sphere_t F)) (r : ray_t F) (bounces_left : ℤ) (g_seed : ℕ)
        (c : color_t F) (g : ℕ),
      (∀ s ∈ sphere_list, s.r ≠ 0) → glm_vec3_norm2 r.dir = 1 →
      trace sqrtf RAND_MAX fuel sphere_list r bounces_left g_seed = some (c, g) →
      (0 ≤ c.r ∧ c.r ≤ 1) ∧ (0 ≤ c.g ∧ c.g ≤ 1) ∧ (0 ≤ c.b ∧ c.b ≤ 1)) ∧
    (∀ (ops : List (op F)) (st : intern_t F),
      (∀ o ∈ ops, op.is_frame_op o = true) →
      run sqrtf cos sin RAND_MAX fuel ops (setup sqrtf tanf GLM_PI) = some st →
      0 ≤ st.frame_num ∧ st.frame_num ≤ st.sample_count ∧
      ∀ i : ℕ, i < (st.width * st.height * 3).toNat →
        0 ≤ st.pixels_f.getD i 0 ∧
        st.pixels_f.getD i 0 ≤ (st.frame_num : F) / (st.sample_count : F) ∧
        (st.frame_num : F) / (st.sample_count : F) ≤ 1 ∧
        0 ≤ ⌊st.pixels_f.getD i 0 * 255⌋ ∧ ⌊st.pixels_f.getD i 0 * 255⌋ ≤ 255 ∧
        Uint8_of_float (st.pixels_f.getD i 0 * 255) = ⌊st.pixels_f.getD i 0 * 255⌋.toNat ∧
        st.pixels.getD i 0 ≤ 255) := by
  refine ⟨?_, ?_⟩
  · intro sphere_list r bounces_left g_seed c g hrad hdir ht
    exact trace_in_range sqrtf RAND_MAX fuel sphere_list hs hrad bounces_left.toNat bounces_left
      r g_seed c g rfl (Or.inl hdir) ht
  · intro ops st hops hrun
    have hb := reachable_buffers_ok sqrtf tanf cos sin GLM_PI RAND_MAX fuel hs ops st hops hrun
    refine ⟨hb.2.2.2.2.1, hb.2.2.2.2.2.1, ?_⟩
    intro i hi
    obtain ⟨c0, c1, c2, c3, c4, c5, c6⟩ := buffers_ok_cell st hb i hi
    refine ⟨c0, c1, c2, c3, c4, ?_, c6⟩
    have hbyte := (hb.2.2.2.2.2.2.2.2 i hi).2.2
    rw [← hbyte]
    omega

end Reachable

section Period

/-- The 2-adic part of a geometric sum `S = 1 + a + ... + a^(d-1)` with
`a = 1 mod 4`: a power of two that divides `S * u`, `u` odd, divides `d`. -/
theorem geom_two_adic (a S u : ℤ) (d n : ℕ) (h4 : 4 ∣ a - 1) (hne : a ≠ 1)
    (hS : (a - 1) * S = a ^ d - 1) (hu : ¬ 2 ∣ u) (hdiv : (2 : ℤ) ^ n ∣ S * u) :
    (2 : ℤ) ^ n ∣ (d : ℤ) := by
  have hp : Prime (2 : ℤ) := Int.prime_two
  have ha2 : ¬ (2 : ℤ) ∣ a := by
    intro h
    have h2 : (2 : ℤ) ∣ a - 1 := dvd_trans (by norm_num) h4
    have := (Int.dvd_sub h h2)
    norm_num at this
  have h1 := @Int.two_pow_sub_pow' a 1 d (by simpa using h4) ha2
  rw [one_pow, ← hS, emultiplicity_mul hp] at h1
  have hfin : emultiplicity 2 (a - 1) ≠ ⊤ := by
    rw [← finite_iff_emultiplicity_ne_top, Int.multiplicity_finite_iff]
    exact ⟨by decide, sub_ne_zero.mpr hne⟩
  have h2 : emultiplicity 2 S = emultiplicity (2 : ℤ) (d : ℤ) :=
    WithTop.add_left_cancel hfin h1
  have h3 : emultiplicity 2 (S * u) = emultiplicity 2 S := by
    rw [emultiplicity_mul hp, emultiplicity_eq_zero.mpr hu, add_zero]
  rw [pow_dvd_iff_le_emultiplicity] at hdiv ⊢
  rw [← h2, ← h3]
  exact hdiv

/-- The state after one pass is below `2^32`. -/
theorem resample_state_lt (g : ℕ) : resample_state g < 2 ^ 32 := by
  simp only [resample_state, fast_rand]
  exact Nat.mod_lt _ (by norm_num)

/-- One pass through `resample` is an affine map modulo `2^32`. -/
theorem resample_state_modEq (g : ℕ) :
    (resample_state g : ℤ) ≡
      214013 ^ 3 * (g : ℤ) + (214013 ^ 2 + 214013 + 1) * 2531011 [ZMOD 2 ^ 32] := by
  simp only [resample_state, fast_rand]
  push_cast
  have h1 : ((214013 * (g : ℤ) + 2531011) % 2 ^ 32) ≡ 214013 * (g : ℤ) + 2531011 [ZMOD 2 ^ 32] :=
    Int.mod_modEq _ _
  have h2 : ((214013 * ((214013 * (g : ℤ) + 2531011) % 2 ^ 32) + 2531011) % 2 ^ 32) ≡
      214013 * (214013 * (g : ℤ) + 2531011) + 2531011 [ZMOD 2 ^ 32] :=
    (Int.mod_modEq _ _).trans ((h1.mul_left 214013).add_right 2531011)
  have h3 : ((214013 * ((214013 * ((214013 * (g : ℤ) + 2531011) % 2 ^ 32) + 2531011) % 2 ^ 32)
      + 2531011) % 2 ^ 32) ≡
      214013 * (214013 * (214013 * (g : ℤ) + 2531011) + 2531011) + 2531011 [ZMOD 2 ^ 32] :=
    (Int.mod_modEq _ _).trans ((h2.mul_left 214013).add_right 2531011)
  have e : 214013 * (214013 * (214013 * (g : ℤ) + 2531011) + 2531011) + 2531011 =
      214013 ^ 3 * (g : ℤ) + (214013 ^ 2 + 214013 + 1) * 2531011 := by ring
  rw [e] at h3
  exact h3

/-- The state after `d` passes, modulo `2^32`, with the geometric sum of the
multiplier. -/
theorem resample_state_iterate (x : ℕ) :
    ∀ d : ℕ, ∃ S : ℤ, ((214013 : ℤ) ^ 3 - 1) * S = (214013 ^ 3) ^ d - 1 ∧
      ((resample_state^[d] x : ℕ) : ℤ) ≡
        (214013 ^ 3) ^ d * (x : ℤ) + (214013 ^ 2 + 214013 + 1) * 2531011 * S [ZMOD 2 ^ 32] := by
  intro d
  induction d with
  | zero => exact ⟨0, by ring, by simp⟩
  | succ d ih =>
    obtain ⟨S, hS, hm⟩ := ih
    refine ⟨214013 ^ 3 * S + 1, by linear_combination 214013 ^ 3 * hS, ?_⟩
    rw [Function.iterate_succ_apply']
    refine (resample_state_modEq _).trans ?_
    have h := (hm.mul_left (214013 ^ 3)).add_right ((214013 ^ 2 + 214013 + 1) * 2531011)
    refine h.trans ?_
    have e : (214013 : ℤ) ^ 3 * ((214013 ^ 3) ^ d * (x : ℤ) +
        (214013 ^ 2 + 214013 + 1) * 2531011 * S) + (214013 ^ 2 + 214013 + 1) * 2531011 =
        (214013 ^ 3) ^ (d + 1) * (x : ℤ) +
          (214013 ^ 2 + 214013 + 1) * 2531011 * (214013 ^ 3 * S + 1) := by ring
    rw [e]

/-- A state that comes back after `d` passes: `2^32` divides `d`. -/
theorem resample_state_period (x d : ℕ) (h : resample_state^[d] x = x) : 2 ^ 32 ∣ d := by
  obtain ⟨S, hS, hm⟩ := resample_state_iterate x d
  rw [h] at hm
  have hdvd : (2 : ℤ) ^ 32 ∣ S * ((214013 ^ 3 - 1) * (x : ℤ) +
      (214013 ^ 2 + 214013 + 1) * 2531011) := by
    have h1 := (Int.modEq_iff_dvd.mp hm)
    have e : (214013 ^ 3) ^ d * (x : ℤ) + (214013 ^ 2 + 214013 + 1) * 2531011 * S - (x : ℤ) =
        S * ((214013 ^ 3 - 1) * (x : ℤ) + (214013 ^ 2 + 214013 + 1) * 2531011) := by
      linear_combination (x : ℤ) * (-hS)
    rw [e] at h1
    exact h1
  have hu : ¬ (2 : ℤ) ∣ ((214013 ^ 3 - 1) * (x : ℤ) + (214013 ^ 2 + 214013 + 1) * 2531011) := by
    intro h2
    have h3 : (2 : ℤ) ∣ (214013 ^ 3 - 1) * (x : ℤ) := Dvd.dvd.mul_right (by norm_num) _
    have h4 := (Int.dvd_add_right h3).mp h2
    norm_num at h4
  have hd := geom_two_adic (214013 ^ 3) S _ d 32 (by norm_num) (by norm_num) hS hu hdvd
  exact_mod_cast hd

end Period

section Termination

variable {F : Type} [LinearOrderedField F]

/-- Two equal states of an orbit of `resample_state` are less than `2^32`
passes apart only when they are the same pass. -/
theorem resample_state_orbit_inj (x i j : ℕ) (hij : i ≤ j) (hj : j < 2 ^ 32)
    (h : resample_state^[i] x = resample_state^[j] x) : i = j := by
  have hd : resample_state^[j - i] (resample_state^[i] x) = resample_state^[i] x := by
    rw [← Function.iterate_add_apply, Nat.sub_add_cancel hij]
    exact h.symm
  have hdvd := resample_state_period _ _ hd
  have hlt : j - i < 2 ^ 32 := by omega
  have h0 : j - i = 0 := Nat.eq_zero_of_dvd_of_lt hdvd hlt
  omega

/-- The orbit of every 32-bit state under `resample_state` visits every 32-bit
state in fewer than `2^32` passes. -/
theorem resample_state_reaches (x s : ℕ) (hx : x < 2 ^ 32) (hs : s < 2 ^ 32) :
    ∃ k, k < 2 ^ 32 ∧ resample_state^[k] x = s := by
  have hlt : ∀ k, resample_state^[k] x < 2 ^ 32 := by
    intro k
    cases k with
    | zero => simpa using hx
    | succ k =>
      rw [Function.iterate_succ_apply']
      exact resample_state_lt _
  have hinj : Function.Injective
      (fun k : Fin (2 ^ 32) => (⟨resample_state^[k.val] x, hlt _⟩ : Fin (2 ^ 32))) := by
    intro i j hij
    have h : resample_state^[i.val] x = resample_state^[j.val] x := congrArg Fin.val hij
    apply Fin.ext
    rcases Nat.le_total i.val j.val with hle | hle
    · exact resample_state_orbit_inj x _ _ hle j.isLt h
    · exact (resample_state_orbit_inj x _ _ hle i.isLt h.symm).symm
  obtain ⟨k, hk⟩ := (Finite.injective_iff_surjective.mp hinj) ⟨s, hs⟩
  exact ⟨k.val, k.isLt, congrArg Fin.val hk⟩

/-- The generator state after the three draws of `sample_cube`. -/
theorem sample_cube_state (RAND_MAX g : ℕ) :
    (sample_cube RAND_MAX g : vec3 F × ℕ).2 = resample_state g := rfl

/-- With `RAND_MAX = 32767` the candidate point drawn from the state 215111597
is `(0, -7109/8192, 0)`, of squared length below 1. -/
theorem sample_cube_accepted :
    glm_vec3_norm2 (sample_cube 32767 215111597 : vec3 F × ℕ).1 ≤ 1 := by
  have h1 : fast_rand 215111597 = (16384, 3221261244) := by decide
  have h2 : fast_rand 3221261244 = (2166, 2289494927) := by decide
  have h3 : fast_rand 2289494927 = (16384, 3221280790) := by decide
  simp only [sample_cube, rand_float, h1, h2, h3, glm_vec3_norm2, glm_vec3_dot]
  norm_num

/-- The loop of `lambertian` returns on pass `k + 1` at the latest when the
candidate point of that pass has a squared length of at most 1. -/
theorem lambertian_returns_after (sqrtf : F → F) (RAND_MAX : ℕ) (normal : vec3 F) :
    ∀ (k g : ℕ),
      glm_vec3_norm2 (sample_cube RAND_MAX (resample_state^[k] g) : vec3 F × ℕ).1 ≤ 1 →
      ∃ r, lambertian sqrtf RAND_MAX (k + 1) g normal = some r := by
  intro k
  induction k with
  | zero =>
    intro g h
    simp only [Function.iterate_zero, id_eq] at h
    simp only [lambertian, if_neg (not_lt.mpr h)]
    exact ⟨_, rfl⟩
  | succ k ih =>
    intro g h
    rw [Function.iterate_succ_apply] at h
    by_cases hc : glm_vec3_norm2 (sample_cube RAND_MAX g : vec3 F × ℕ).1 > 1
    · obtain ⟨r, hr⟩ := ih (resample_state g) h
      refine ⟨r, ?_⟩
      rw [lambertian, if_pos hc, sample_cube_state]
      exact hr
    · simp only [lambertian, if_neg hc]
      exact ⟨_, rfl⟩

/-- The loop of `random_scatter` returns on pass `k + 1` at the latest when the
candidate point of that pass has a squared length of at most 1. -/
theorem random_scatter_returns_after (sqrtf : F → F) (RAND_MAX : ℕ) (normal : vec3 F) :
    ∀ (k g : ℕ),
      glm_vec3_norm2 (sample_cube RAND_MAX (resample_state^[k] g) : vec3 F × ℕ).1 ≤ 1 →
      ∃ r, random_scatter sqrtf RAND_MAX (k + 1) g normal = some r := by
  intro k
  induction k with
  | zero =>
    intro g h
    simp only [Function.iterate_zero, id_eq] at h
    simp only [random_scatter, if_neg (not_lt.mpr h)]
    split_ifs <;> exact ⟨_, rfl⟩
  | succ k ih =>
    intro g h
    rw [Function.iterate_succ_apply] at h
    by_cases hc : glm_vec3_norm2 (sample_cube RAND_MAX g : vec3 F × ℕ).1 > 1
    · obtain ⟨r, hr⟩ := ih (resample_state g) h
      refine ⟨r, ?_⟩
      rw [random_scatter, if_pos hc, sample_cube_state]
      exact hr
    · simp only [random_scatter, if_neg hc]
      split_ifs <;> exact ⟨_, rfl⟩

/-- More fuel does not change what `lambertian` returns. -/
theorem lambertian_fuel_mono (sqrtf : F → F) (RAND_MAX : ℕ) (normal : vec3 F) :
    ∀ (fuel m g : ℕ) (r : vec3 F × ℕ), lambertian sqrtf RAND_MAX fuel g normal = some r →
      lambertian sqrtf RAND_MAX (fuel + m) g normal = some r := by
  intro fuel
  induction fuel with
  | zero =>
    intro m g r h
    simp [lambertian] at h
  | succ fuel ih =>
    intro m g r h
    rw [show fuel + 1 + m = (fuel + m) + 1 by omega]
    simp only [lambertian] at h ⊢
    by_cases hc : glm_vec3_norm2 (sample_cube RAND_MAX g : vec3 F × ℕ).1 > 1
    · rw [if_pos hc] at h ⊢
      exact ih m _ r h
    · rw [if_neg hc] at h ⊢
      exact h

/-- More fuel does not change what `random_scatter` returns. -/
theorem random_scatter_fuel_mono (sqrtf : F → F) (RAND_MAX : ℕ) (normal : vec3 F) :
    ∀ (fuel m g : ℕ) (r : vec3 F × ℕ), random_scatter sqrtf RAND_MAX fuel g normal = some r →
      random_scatter sqrtf RAND_MAX (fuel + m) g normal = some r := by
  intro fuel
  induction fuel with
  | zero =>
    intro m g r h
    simp [random_scatter] at h
  | succ fuel ih =>
    intro m g r h
    rw [show fuel + 1 + m = (fuel + m) + 1 by omega]
    simp only [random_scatter] at h ⊢
    by_cases hc : glm_vec3_norm2 (sample_cube RAND_MAX g : vec3 F × ℕ).1 > 1
    · rw [if_pos hc] at h ⊢
      exact ih m _ r h
    · rw [if_neg hc] at h ⊢
      exact h

/-- From every generator state some pass among the first `2^32 + 1` draws the
candidate point of the state 215111597. -/
theorem resample_reaches_accepted (g : ℕ) :
    ∃ k, k ≤ 4294967296 ∧ resample_state^[k] g = 215111597 := by
  obtain ⟨k, hk, h⟩ := resample_state_reaches (resample_state g) 215111597
    (resample_state_lt g) (by norm_num)
  refine ⟨k + 1, ?_, ?_⟩
  · have : (2 : ℕ) ^ 32 = 4294967296 := by norm_num
    omega
  · rw [Function.iterate_succ_apply]
    exact h

/-- With `RAND_MAX = 32767` the loop of `lambertian` returns from every
generator state within `2^32 + 1` passes. -/
theorem lambertian_terminates_32767 (sqrtf : F → F) (g : ℕ) (normal : vec3 F) :
    ∃ r, lambertian sqrtf 32767 4294967297 g normal = some r := by
  obtain ⟨k, hk, h⟩ := resample_reaches_accepted g
  obtain ⟨r, hr⟩ := lambertian_returns_after sqrtf 32767 normal k g
    (by rw [h]; exact sample_cube_accepted)
  refine ⟨r, ?_⟩
  have := lambertian_fuel_mono sqrtf 32767 normal (k + 1) (4294967296 - k) g r hr
  rw [show k + 1 + (4294967296 - k) = 4294967297 by omega] at this
  exact this

/-- With `RAND_MAX = 32767` the loop of `random_scatter` returns from every
generator state within `2^32 + 1` passes. -/
theorem random_scatter_terminates_32767 (sqrtf : F → F) (g : ℕ) (normal : vec3 F) :
    ∃ r, random_scatter sqrtf 32767 4294967297 g normal = some r := by
  obtain ⟨k, hk, h⟩ := resample_reaches_accepted g
  obtain ⟨r, hr⟩ := random_scatter_returns_after sqrtf 32767 normal k g
    (by rw [h]; exact sample_cube_accepted)
  refine ⟨r, ?_⟩
  have := random_scatter_fuel_mono sqrtf 32767 normal (k + 1) (4294967296 - k) g r hr
  rw [show k + 1 + (4294967296 - k) = 4294967297 by omega] at this
  exact this

/-- With `RAND_MAX = 32767` and fuel `2^32 + 1` the function `trace` returns
for every scene, ray, bounce budget and generator state. -/
theorem trace_total_32767 (sqrtf : F → F) (l : List (sphere_t F)) :
    ∀ (k : ℕ) (n : ℤ) (r : ray_t F) (g : ℕ), n.toNat = k →
      ∃ c, trace sqrtf 32767 4294967297 l r n g = some c := by
  intro k
  induction k with
  | zero =>
    intro n r g hk
    exact ⟨_, trace_nonpos sqrtf 32767 _ l r n g (Int.toNat_eq_zero.mp hk)⟩
  | succ k ih =>
    intro n r g hk
    have hn : 0 < n := by omega
    cases hh : hit_spheres sqrtf l r with
    | none => exact ⟨_, trace_miss sqrtf 32767 _ l r n g hn hh⟩
    | some p =>
      obtain ⟨i, t⟩ := p
      rw [trace, if_neg (not_le.mpr hn), hh]
      simp only
      by_cases hi : i = 0
      · simp only [trace_incoming, if_pos hi]
        exact ih (n - 1) _ _ (by omega)
      · obtain ⟨⟨d, g1⟩, hl⟩ := lambertian_terminates_32767 sqrtf g
          (trace_normal (l.getD i ⟨⟨0, 0, 0⟩, 0⟩) r t)
        simp only [trace_incoming, if_neg hi, hl]
        obtain ⟨⟨c1, g2⟩, hrec⟩ := ih (n - 1) ⟨trace_hit r t, d⟩ g1 (by omega)
        rw [hrec]
        exact ⟨_, rfl⟩

/-- The resampling loops with `RAND_MAX = 32767`, the value for which
`rand_float` covers `[0, 1)`: from every generator state `lambertian` and
`random_scatter` return within `2^32 + 1` passes, and with that much fuel
`trace` returns for every scene, ray, bounce budget and generator state. -/
theorem resampling_terminates_32767 (sqrtf : F → F) :
    (∀ (g : ℕ) (normal : vec3 F), ∃ r, lambertian sqrtf 32767 4294967297 g normal = some r) ∧
    (∀ (g : ℕ) (normal : vec3 F),
      ∃ r, random_scatter sqrtf 32767 4294967297 g normal = some r) ∧
    (∀ (l : List (sphere_t F)) (r : ray_t F) (n : ℤ) (g : ℕ),
      ∃ c, trace sqrtf 32767 4294967297 l r n g = some c) :=
  ⟨lambertian_terminates_32767 sqrtf, random_scatter_terminates_32767 sqrtf,
    fun l r n g => trace_total_32767 sqrtf l n.toNat n r g rfl⟩

end Termination

section GroundRay

variable {F : Type} [LinearOrderedField F]

/-- The ray from `(-6, 3, 10)` with the unit direction `(3/5, -4/5, 0)` in the
scene of `setup_spheres`: it misses the mirror sphere and the small sphere and
hits the ground sphere, of index 1, at distance 10. -/
theorem ground_ray_hits (sqrtf : F → F) (h : is_sqrt sqrtf 25600) :
    hit_spheres sqrtf [⟨⟨0, 0, 15⟩, 5⟩, ⟨⟨0, -105, 10⟩, 100⟩, ⟨⟨8, -3, 10⟩, 2⟩]
      ⟨⟨-6, 3, 10⟩, ⟨3 / 5, -4 / 5, 0⟩⟩ = some (1, 10) := by
  have h160 : sqrtf 25600 = 160 := is_sqrt_eq sqrtf 25600 160 h (by norm_num) (by norm_num)
  norm_num [hit_spheres, hit_spheres_loop, intersect_sphere, glm_vec3_sub, glm_vec3_norm2,
    glm_vec3_dot, h160, FLT_MAX]

/-- With `RAND_MAX = 32767` and fuel `2^32 + 1` the function `trace_pixel`
returns in every state, for every pixel. -/
theorem trace_pixel_returns_32767 (sqrtf : F → F) (st : intern_t F) (x y : ℤ) :
    ∃ p, trace_pixel sqrtf 32767 4294967297 st x y = some p := by
  unfold trace_pixel
  obtain ⟨⟨c, g⟩, hc⟩ := trace_total_32767 sqrtf st.sphere_list 4 4
    (ray_from_pixel sqrtf st ((x : F) + ((rand_float 32767 st.g_seed : F × ℕ).1 - 0.5))
      ((y : F) + ((rand_float 32767 (rand_float 32767 st.g_seed : F × ℕ).2 : F × ℕ).1 - 0.5)))
    (rand_float 32767 (rand_float 32767 st.g_seed : F × ℕ).2 : F × ℕ).2 rfl
  simp only [hc]
  exact ⟨_, rfl⟩

end GroundRay

section Returns

variable {F : Type} [LinearOrderedField F] [FloorRing F]

/-- With `RAND_MAX = 32767` and fuel `2^32 + 1` the loop body of
`update_pixels` returns. -/
theorem update_pixel_returns_32767 (sqrtf : F → F) (st : intern_t F) (x y : ℤ) :
    ∃ st', update_pixel sqrtf 32767 4294967297 st x y = some st' := by
  obtain ⟨⟨c, g⟩, hp⟩ := trace_pixel_returns_32767 sqrtf st x y
  unfold update_pixel
  rw [hp]
  exact ⟨_, rfl⟩

/-- With `RAND_MAX = 32767` and fuel `2^32 + 1` the function `render` returns
in every state. -/
theorem render_returns_32767 (sqrtf : F → F) (st : intern_t F) :
    ∃ st', render sqrtf 32767 4294967297 st = some st' := by
  have hu : ∃ s1, update_pixels sqrtf 32767 4294967297 (setup_camera sqrtf st) = some s1 ∧
      True := by
    unfold update_pixels
    refine foldlM_returns (fun _ => True) _ ?_ _ _ trivial
    intro s x _
    refine foldlM_returns (fun _ => True) _ ?_ _ _ trivial
    intro s2 y _
    obtain ⟨s3, h3⟩ := update_pixel_returns_32767 sqrtf s2 x y
    exact ⟨s3, h3, trivial⟩
  obtain ⟨s1, hs1, _⟩ := hu
  unfold render
  by_cases hlt : (setup_camera sqrtf st).frame_num < (setup_camera sqrtf st).sample_count
  · simp only [if_pos hlt, hs1]
    exact ⟨_, rfl⟩
  · simp only [if_neg hlt]
    exact ⟨_, rfl⟩

/-- With `RAND_MAX = 32767` and fuel `2^32 + 1` every sequence of operations
of the main loop returns, from every state. -/
theorem run_returns_32767 (sqrtf cos sin : F → F) :
    ∀ (ops : List (op F)) (st : intern_t F),
      ∃ st', run sqrtf cos sin 32767 4294967297 ops st = some st' := by
  intro ops
  induction ops with
  | nil => intro st; exact ⟨st, rfl⟩
  | cons o rest ih =>
    intro st
    have hstep : ∃ s1, step sqrtf cos sin 32767 4294967297 st o = some s1 := by
      cases o with
      | render => exact render_returns_32767 sqrtf st
      | reset => exact ⟨_, rfl⟩
      | look a b => exact ⟨_, rfl⟩
      | move f r dt => exact ⟨_, rfl⟩
    obtain ⟨s1, h1⟩ := hstep
    obtain ⟨s2, h2⟩ := ih s1
    refine ⟨s2, ?_⟩
    simp only [run, List.foldlM_cons, Option.bind_eq_bind, h1, Option.some_bind]
    exact h2

/-- A run of two `render` calls. -/
theorem run_render_render (sqrtf cos sin : F → F) (RAND_MAX fuel : ℕ) (st s1 s2 : intern_t F)
    (h1 : render sqrtf RAND_MAX fuel st = some s1) (h2 : render sqrtf RAND_MAX fuel s1 = some s2) :
    run sqrtf cos sin RAND_MAX fuel [op.render, op.render] st = some s2 := by
  simp only [run, List.foldlM_cons, List.foldlM_nil, Option.bind_eq_bind, step, h1,
    Option.some_bind, h2]
  rfl

/-- A run of a `reset_pixels` call and a `render` call. -/
theorem run_reset_render (sqrtf cos sin : F → F) (RAND_MAX fuel : ℕ) (st s1 : intern_t F)
    (h1 : render sqrtf RAND_MAX fuel (reset_pixels st) = some s1) :
    run sqrtf cos sin RAND_MAX fuel [op.reset, op.render] st = some s1 := by
  simp only [run, List.foldlM_cons, List.foldlM_nil, Option.bind_eq_bind, step,
    Option.some_bind, h1]
  rfl

/-- The first two `render` calls after `setup`, with `RAND_MAX = 32767` and
fuel `2^32 + 1`: the run returns, the frame counter is 2 and the image is the
512 by 512 image of `setup`. -/
theorem setup_two_renders (sqrtf tanf cos sin : F → F) (GLM_PI : F) :
    ∃ st, run sqrtf cos sin 32767 4294967297 [op.render, op.render]
        (setup sqrtf tanf GLM_PI) = some st ∧
      st.frame_num = 2 ∧ st.sample_count = 1024 ∧ st.width = 512 ∧ st.height = 512 := by
  obtain ⟨s1, h1⟩ := render_returns_32767 sqrtf (setup sqrtf tanf GLM_PI)
  obtain ⟨s2, h2⟩ := render_returns_32767 sqrtf s1
  obtain ⟨hf0, hc0⟩ := setup_frame_num sqrtf tanf GLM_PI
  obtain ⟨hw0, hh0⟩ := setup_size sqrtf tanf GLM_PI
  obtain ⟨hf1, hc1⟩ := render_active sqrtf 32767 4294967297 _ s1
    (by rw [hf0, hc0]; norm_num) h1
  obtain ⟨hf2, hc2⟩ := render_active sqrtf 32767 4294967297 s1 s2
    (by rw [hf1, hc1, hf0, hc0]; norm_num) h2
  have hs1 := render_same_scene sqrtf 32767 4294967297 _ s1 h1
  have hs2 := render_same_scene sqrtf 32767 4294967297 s1 s2 h2
  refine ⟨s2, ?_, ?_, ?_, ?_, ?_⟩
  · exact run_render_render sqrtf cos sin 32767 4294967297 _ s1 s2 h1 h2
  · rw [hf2, hf1, hf0]
    norm_num
  · rw [hc2, hc1, hc0]
  · rw [hs2.1, hs1.1, hw0]
  · rw [hs2.2.1, hs1.2.1, hh0]

/-- A `reset_pixels` call and a `render` call after `setup`, with
`RAND_MAX = 32767` and fuel `2^32 + 1`: the run returns, the frame counter is 1
and the image is the 512 by 512 image of `setup`. -/
theorem setup_reset_render (sqrtf tanf cos sin : F → F) (GLM_PI : F) :
    ∃ st, run sqrtf cos sin 32767 4294967297 [op.reset, op.render]
        (setup sqrtf tanf GLM_PI) = some st ∧
      st.frame_num = 1 ∧ st.sample_count = 1024 ∧ st.width = 512 ∧ st.height = 512 := by
  obtain ⟨s1, h1⟩ := render_returns_32767 sqrtf (reset_pixels (setup sqrtf tanf GLM_PI))
  obtain ⟨_, hc0⟩ := setup_frame_num sqrtf tanf GLM_PI
  obtain ⟨hw0, hh0⟩ := setup_size sqrtf tanf GLM_PI
  have hr := reset_same_scene (setup sqrtf tanf GLM_PI)
  have hfr := reset_pixels_frame_num (setup sqrtf tanf GLM_PI)
  obtain ⟨hf1, hc1⟩ := render_active sqrtf 32767 4294967297 _ s1
    (by rw [hfr, hr.2.2.1, hc0]; norm_num) h1
  have hs1 := render_same_scene sqrtf 32767 4294967297 _ s1 h1
  refine ⟨s1, ?_, ?_, ?_, ?_, ?_⟩
  · exact run_reset_render sqrtf cos sin 32767 4294967297 _ s1 h1
  · rw [hf1, hfr]
    norm_num
  · rw [hc1, hr.2.2.1, hc0]
  · rw [hs1.1, hr.1, hw0]
  · rw [hs1.2.1, hr.2.1, hh0]

end Returns

section RenderedStates

/-- C12 (witness).  Over the real numbers, with `RAND_MAX = 32767` and fuel
`2^32 + 1`: the run of two `render` calls from the state of `setup` returns a
state with `frame_num = 2`, after two passes of `update_pixels` over the 512 by
512 image, and in that state the display bytes of the first cell and of the
last cell, 786431, are the floors of their accumulator cells times 255. -/
theorem display_byte_is_floor_of_accumulator_witness :
    sqrt_exact Real.sqrt ∧
    ∃ st : intern_t ℝ,
      run Real.sqrt Real.cos Real.sin 32767 4294967297 [op.render, op.render]
        (setup Real.sqrt Real.tan Real.pi) = some st ∧
      st.frame_num = 2 ∧ (st.width * st.height * 3).toNat = 786432 ∧
      ((st.pixels.getD 0 0 : ℕ) : ℤ) = ⌊st.pixels_f.getD 0 0 * 255⌋ ∧
      ((st.pixels.getD 786431 0 : ℕ) : ℤ) = ⌊st.pixels_f.getD 786431 0 * 255⌋ := by
  obtain ⟨st, hrun, hfn, _, hw, hh⟩ :=
    setup_two_renders Real.sqrt Real.tan Real.cos Real.sin Real.pi
  have hsize : (st.width * st.height * 3).toNat = 786432 := by
    rw [hw, hh]
    rfl
  have h := display_byte_is_floor_of_accumulator Real.sqrt Real.tan Real.cos Real.sin Real.pi
    32767 4294967297 sqrt_exact_real [op.render, op.render] st
    (by simp [op.is_frame_op]) hrun
  exact ⟨sqrt_exact_real, st, hrun, hfn, hsize, (h 0 (by omega)).1, (h 786431 (by omega)).1⟩

/-- C17 (witness).  Over the real numbers, with `RAND_MAX = 32767` and fuel
`2^32 + 1`.  The ray from `(-6, 3, 10)` with the unit direction
`(3/5, -4/5, 0)` hits the ground sphere of the scene of `setup_spheres`, a
diffuse one, so that `trace` with budget 4 draws a `lambertian` direction and
follows the bounce ray: it returns a colour with every channel in `[0, 1]`.
The run of a `reset_pixels` call and a `render` call from the state of `setup`
returns a state with `frame_num = 1`, and there the first accumulator cell lies
in `[0, 1/1024]`, the floor of the cell times 255 lies in `[0, 255]` and is
what the conversion to a byte gives. -/
theorem colours_settle_in_unit_interval_witness :
    sqrt_exact Real.sqrt ∧
    hit_spheres Real.sqrt [⟨⟨0, 0, 15⟩, 5⟩, ⟨⟨0, -105, 10⟩, 100⟩, ⟨⟨8, -3, 10⟩, 2⟩]
      ⟨⟨-6, 3, 10⟩, ⟨3 / 5, -4 / 5, 0⟩⟩ = some (1, 10) ∧
    (∃ (c : color_t ℝ) (g : ℕ),
      trace Real.sqrt 32767 4294967297
        [⟨⟨0, 0, 15⟩, 5⟩, ⟨⟨0, -105, 10⟩, 100⟩, ⟨⟨8, -3, 10⟩, 2⟩]
        ⟨⟨-6, 3, 10⟩, ⟨3 / 5, -4 / 5, 0⟩⟩ 4 0 = some (c, g) ∧
      (0 ≤ c.r ∧ c.r ≤ 1) ∧ (0 ≤ c.g ∧ c.g ≤ 1) ∧ (0 ≤ c.b ∧ c.b ≤ 1)) ∧
    (∃ st : intern_t ℝ,
      run Real.sqrt Real.cos Real.sin 32767 4294967297 [op.reset, op.render]
        (setup Real.sqrt Real.tan Real.pi) = some st ∧
      st.frame_num = 1 ∧ st.sample_count = 1024 ∧
      0 ≤ st.pixels_f.getD 0 0 ∧ st.pixels_f.getD 0 0 ≤ 1 / 1024 ∧
      0 ≤ ⌊st.pixels_f.getD 0 0 * 255⌋ ∧ ⌊st.pixels_f.getD 0 0 * 255⌋ ≤ 255 ∧
      Uint8_of_float (st.pixels_f.getD 0 0 * 255) = ⌊st.pixels_f.getD 0 0 * 255⌋.toNat ∧
      st.pixels.getD 0 0 ≤ 255) := by
  have h := colours_settle_in_unit_interval Real.sqrt Real.tan Real.cos Real.sin Real.pi
    32767 4294967297 sqrt_exact_real
  refine ⟨sqrt_exact_real, ground_ray_hits Real.sqrt (sqrt_exact_real _ (by norm_num)), ?_, ?_⟩
  · obtain ⟨⟨c, g⟩, ht⟩ := trace_total_32767 Real.sqrt
      [⟨⟨0, 0, 15⟩, 5⟩, ⟨⟨0, -105, 10⟩, 100⟩, ⟨⟨8, -3, 10⟩, 2⟩] 4 4
      ⟨⟨-6, 3, 10⟩, ⟨3 / 5, -4 / 5, 0⟩⟩ 0 rfl
    refine ⟨c, g, ht, h.1 _ _ 4 0 c g ?_ ?_ ht⟩
    · intro s hmem
      simp only [List.mem_cons, List.mem_singleton, List.not_mem_nil, or_false] at hmem
      rcases hmem with e | e | e <;> rw [e] <;> norm_num
    · norm_num [glm_vec3_norm2, glm_vec3_dot]
  · obtain ⟨st, hrun, hfn, hsc, hw, hh⟩ :=
      setup_reset_render Real.sqrt Real.tan Real.cos Real.sin Real.pi
    have hsize : 0 < (st.width * st.height * 3).toNat := by
      rw [hw, hh]
      norm_num
    obtain ⟨_, _, hcell⟩ := h.2 [op.reset, op.render] st (by simp [op.is_frame_op]) hrun
    obtain ⟨c0, c1, _, c3, c4, c5, c6⟩ := hcell 0 hsize
    rw [hfn, hsc] at c1
    refine ⟨st, hrun, hfn, hsc, c0, ?_, c3, c4, c5, c6⟩
    have e : (((1 : ℤ) : ℝ)) / (((1024 : ℤ) : ℝ)) = 1 / 1024 := by norm_num
    rw [e] at c1
    exact c1

end RenderedStates

end Raytrace
